import Mathlib

/-!
# GeneticPolyAlgo: a shallow embedding of `Source.cpp`

The genetic-algorithm engine of `src/GeneticPolyAlgo/Source.cpp` (fitness, selection,
crossover, mutate and the generation loop of `OnUserUpdate`) as pure Lean functions.

Modelling conventions.

* A `Node*` is a `NodePtr`: `none` is the null pointer, `some a` the address `a`.
  `std::vector<Node*>` is `List NodePtr`; `std::find` and `!=` on such vectors compare
  pointers, as in the source.  The nodes themselves live in a memory `mem : Nat → Node R`.
* `float` is abstracted to a linearly ordered field `R` together with a square-root
  function `sqrt : R → R` (the claims about distances are stated over exact reals, with
  `R = ℝ` and `Real.sqrt`).  Arithmetic is exact: the rounding of `float` operations is
  not part of the model, so nothing here speaks about the last bits of a `float` result.
  The one non-finite value that exact inputs can produce, `1.0f / 0.0f = +inf` in
  `Route::fitness`, is kept: a fitness is a value of `WithTop R`.  Where rounding is the
  question, `Route::fitness` is read a second time over binary32 values (`F32`,
  `Route.fitness32`).
* `rand()` is explicit state passing over a stream of raw draws (`Rng`).
* `int` values are natural numbers: every index of the source is non-negative, and the
  vertex count of the polygons of the source (7, 12, 20) is far from the range of `int`.
* Undefined behaviour (an index outside a vector, a null dereference, `% 0`) and a loop
  that has not ended within `fuel` iterations are results of type `Fault`.
-/

namespace GeneticPolyAlgo

/-- What a run can end in other than a value. -/
inductive Fault where
  | outOfBounds
  | nullDeref
  | modByZero
  | outOfFuel
  deriving DecidableEq, Repr

/-- A `Node*`: `none` is `nullptr`. -/
abbrev NodePtr := Option Nat

/-- The struct `Node`. -/
structure Node (R : Type) where
  x : R
  y : R

/-- The class `Route`. -/
structure Route where
  nodes : List NodePtr
  deriving DecidableEq, Repr

/-- The class `Generation`. -/
structure Generation where
  population : List Route
  deriving DecidableEq, Repr

/-- The data members of the class `GeneticAlgorithm`; `testPoly` holds `testPoly.vertices`. -/
structure GeneticAlgorithm (R : Type) where
  iteration : Nat
  testPoly : List NodePtr
  popSize : Nat
  currGen : Generation
  nextGen : Generation
  currParents : Route × Route
  currChild : Route
  crossoverChance : R
  mutationChance : R

/-- The state of the C library's random number generator: the raw values the coming calls
of `rand()` return. -/
abbrev Rng := Nat → Nat

/-- One call of `rand()`: the value returned and the generator afterwards. -/
def rand (rng : Rng) : Nat × Rng := (rng 0, fun i => rng (i + 1))

/-- The expression `(float)rand() / (float)RAND_MAX` for the raw draw `r`. -/
def unitDraw {R : Type} [LinearOrderedField R] (RAND_MAX : Nat) (r : Nat) : R :=
  (r : R) / (RAND_MAX : R)

/-- The access `v[i]` of a vector. -/
def index {α : Type} (v : List α) (i : Nat) : Except Fault α :=
  match v[i]? with
  | some a => .ok a
  | none => .error .outOfBounds

/-- The access `p->` of a pointer. -/
def deref {R : Type} (mem : Nat → Node R) : NodePtr → Except Fault (Node R)
  | none => .error .nullDeref
  | some a => .ok (mem a)

/-- The call `v.resize(n)` on a vector of pointers: new slots are null. -/
def resize (v : List NodePtr) (n : Nat) : List NodePtr :=
  v.take n ++ List.replicate (n - v.length) none

section Fitness

variable {R : Type} [LinearOrderedField R]

/-- The lambda `distance` of `Route::fitness`. -/
def distance (sqrt : R → R) (n1 n2 : Node R) : R :=
  sqrt ((n2.x - n1.x) * (n2.x - n1.x) + (n2.y - n1.y) * (n2.y - n1.y))

/-- The loop `for (int i = 0; i < nodes.size(); i++) totDist += ...` of `Route::fitness`,
with `cnt` iterations left, at index `i`. -/
def fitnessLoop (sqrt : R → R) (mem : Nat → Node R) (nodes : List NodePtr) :
    Nat → Nat → R → Except Fault R
  | 0, _, totDist => .ok totDist
  | cnt + 1, i, totDist =>
    match index nodes i with
    | .error e => .error e
    | .ok p1 =>
      match index nodes ((i + 1) % nodes.length) with
      | .error e => .error e
      | .ok p2 =>
        match deref mem p1 with
        | .error e => .error e
        | .ok n1 =>
          match deref mem p2 with
          | .error e => .error e
          | .ok n2 => fitnessLoop sqrt mem nodes cnt (i + 1) (totDist + distance sqrt n1 n2)

/-- The method `Route::fitness`.  The value of `1.0f / totDist` is `+inf`, here `⊤`, when
`totDist` is zero, and the quotient otherwise. -/
def Route.fitness (sqrt : R → R) (mem : Nat → Node R) (route : Route) :
    Except Fault (WithTop R) :=
  match fitnessLoop sqrt mem route.nodes route.nodes.length 0 0 with
  | .error e => .error e
  | .ok totDist => .ok (if totDist = 0 then ⊤ else ((1 / totDist : R) : WithTop R))

end Fitness

section Engine

variable {R : Type} [LinearOrderedField R]

/-- One pass `for (auto& route : gen.population)` of the first loop of `selection`; the
state is `parents.first`, `foundFirstParent` and the generator. -/
def firstScan (RAND_MAX : Nat) (sqrt : R → R) (mem : Nat → Node R) :
    List Route → Route → Bool → Rng → Except Fault (Route × Bool × Rng)
  | [], first, found, rng => .ok (first, found, rng)
  | route :: rest, first, found, rng =>
    match route.fitness sqrt mem with
    | .error e => .error e
    | .ok p =>
      if ((unitDraw RAND_MAX (rand rng).1 : R) : WithTop R) < p then
        firstScan RAND_MAX sqrt mem rest route true (rand rng).2
      else
        firstScan RAND_MAX sqrt mem rest first found (rand rng).2

/-- The loop `while (!foundFirstParent)` of `selection`. -/
def firstLoop (RAND_MAX : Nat) (sqrt : R → R) (mem : Nat → Node R) (population : List Route) :
    Nat → Route → Bool → Rng → Except Fault (Route × Rng)
  | _, first, true, rng => .ok (first, rng)
  | 0, _, false, _ => .error .outOfFuel
  | fuel + 1, first, false, rng =>
    match firstScan RAND_MAX sqrt mem population first false rng with
    | .error e => .error e
    | .ok (first', found', rng') => firstLoop RAND_MAX sqrt mem population fuel first' found' rng'

/-- One pass `for (auto& route : gen.population)` of the second loop of `selection`; the
state is `parents.second`, `foundSecondParent` and the generator. -/
def secondScan (RAND_MAX : Nat) (sqrt : R → R) (mem : Nat → Node R) (first : Route) :
    List Route → Route → Bool → Rng → Except Fault (Route × Bool × Rng)
  | [], second, found, rng => .ok (second, found, rng)
  | route :: rest, second, found, rng =>
    match route.fitness sqrt mem with
    | .error e => .error e
    | .ok p =>
      if ((unitDraw RAND_MAX (rand rng).1 : R) : WithTop R) < p ∧ route.nodes ≠ first.nodes then
        secondScan RAND_MAX sqrt mem first rest route true (rand rng).2
      else
        secondScan RAND_MAX sqrt mem first rest second found (rand rng).2

/-- The loop `while (!foundSecondParent)` of `selection`. -/
def secondLoop (RAND_MAX : Nat) (sqrt : R → R) (mem : Nat → Node R) (population : List Route)
    (first : Route) : Nat → Route → Bool → Rng → Except Fault (Route × Rng)
  | _, second, true, rng => .ok (second, rng)
  | 0, _, false, _ => .error .outOfFuel
  | fuel + 1, second, false, rng =>
    match secondScan RAND_MAX sqrt mem first population second false rng with
    | .error e => .error e
    | .ok (second', found', rng') =>
      secondLoop RAND_MAX sqrt mem population first fuel second' found' rng'

/-- The method `GeneticAlgorithm::selection`; each of its two `while` loops may run `fuel`
times. -/
def selection (RAND_MAX : Nat) (sqrt : R → R) (mem : Nat → Node R) (fuel : Nat)
    (gen : Generation) (parents : Route × Route) (rng : Rng) :
    Except Fault ((Route × Route) × Rng) :=
  match firstLoop RAND_MAX sqrt mem gen.population fuel parents.1 false rng with
  | .error e => .error e
  | .ok (first, rng1) =>
    match secondLoop RAND_MAX sqrt mem gen.population first fuel parents.2 false rng1 with
    | .error e => .error e
    | .ok (second, rng2) => .ok ((first, second), rng2)

/-- The two indices `rand1 = a % n` and `rand2 = (rand1 + b % n) % n` that `crossover`
(and, as `baseIndex` and `otherIndex`, `mutate`) derives from the raw draws `a` and `b`. -/
def randIndices (n a b : Nat) : Nat × Nat :=
  (a % n, (a % n + b % n) % n)

/-- The loop `for (int i = loindex; i <= hiindex; i++) child.nodes[i] = parents.first.nodes[i]`
of `crossover`, with `cnt` iterations left, at index `i`. -/
def copyLoop (first : List NodePtr) : Nat → Nat → List NodePtr → Except Fault (List NodePtr)
  | 0, _, child => .ok child
  | cnt + 1, i, child =>
    match index first i with
    | .error e => .error e
    | .ok g =>
      if i < child.length then copyLoop first cnt (i + 1) (child.set i g)
      else .error .outOfBounds

/-- The loop `while (missing > 0)` of `crossover`. -/
def fillLoop (n : Nat) (second : List NodePtr) :
    Nat → List NodePtr → Nat → Nat → Nat → Except Fault (List NodePtr)
  | _, child, _, _, 0 => .ok child
  | 0, _, _, _, _ + 1 => .error .outOfFuel
  | fuel + 1, child, childId, parentId, missing + 1 =>
    match index second parentId with
    | .error e => .error e
    | .ok g =>
      if g ∈ child then
        fillLoop n second fuel child childId ((parentId + 1) % n) (missing + 1)
      else if childId < child.length then
        fillLoop n second fuel (child.set childId g) ((childId + 1) % n) ((parentId + 1) % n)
          missing
      else .error .outOfBounds

/-- The method `GeneticAlgorithm::crossover`; its `while` loop may run `fuel` times. -/
def crossover (RAND_MAX : Nat) (fuel : Nat) (ga : GeneticAlgorithm R)
    (parents : Route × Route) (child : Route) (rng : Rng) : Except Fault (Route × Rng) :=
  if unitDraw RAND_MAX (rand rng).1 < ga.crossoverChance then
    let n := ga.testPoly.length
    let nodes := resize child.nodes n
    if n = 0 then .error .modByZero
    else
      let rng1 := (rand rng).2
      let rand1 := (randIndices n (rand rng1).1 (rand (rand rng1).2).1).1
      let rand2 := (randIndices n (rand rng1).1 (rand (rand rng1).2).1).2
      let rng3 := (rand (rand rng1).2).2
      let loindex := min rand1 rand2
      let hiindex := max rand1 rand2
      match copyLoop parents.1.nodes (hiindex + 1 - loindex) loindex nodes with
      | .error e => .error e
      | .ok nodes1 =>
        let childId := (hiindex + 1) % n
        let parentId := (hiindex + 1) % n
        let missing := n - (hiindex - loindex + 1)
        match fillLoop n parents.2.nodes fuel nodes1 childId parentId missing with
        | .error e => .error e
        | .ok nodes2 => .ok (⟨nodes2⟩, rng3)
  else
    .ok (parents.1, (rand rng).2)

/-- The call `std::swap(v[i], v[j])`. -/
def swapAt (v : List NodePtr) (i j : Nat) : Except Fault (List NodePtr) :=
  match index v i with
  | .error e => .error e
  | .ok a =>
    match index v j with
    | .error e => .error e
    | .ok b => .ok ((v.set i b).set j a)

/-- The method `GeneticAlgorithm::mutate`. -/
def mutate (RAND_MAX : Nat) (ga : GeneticAlgorithm R) (child : Route) (rng : Rng) :
    Except Fault (Route × Rng) :=
  if unitDraw RAND_MAX (rand rng).1 < ga.mutationChance then
    let len := ga.testPoly.length
    if len = 0 then .error .modByZero
    else
      let rng1 := (rand rng).2
      let baseIndex := (randIndices len (rand rng1).1 (rand (rand rng1).2).1).1
      let otherIndex := (randIndices len (rand rng1).1 (rand (rand rng1).2).1).2
      let rng3 := (rand (rand rng1).2).2
      match swapAt child.nodes baseIndex otherIndex with
      | .error e => .error e
      | .ok nodes => .ok (⟨nodes⟩, rng3)
  else
    .ok (child, (rand rng).2)

/-- The loop `while (nextGen.population.size() != currGen.population.size())` of
`OnUserUpdate`; it may run `fuel` times, and so may each loop under it. -/
def generationLoop (RAND_MAX : Nat) (sqrt : R → R) (mem : Nat → Node R) (fuel : Nat) :
    Nat → GeneticAlgorithm R → Rng → Except Fault (GeneticAlgorithm R × Rng)
  | 0, ga, rng =>
    if ga.nextGen.population.length ≠ ga.currGen.population.length then .error .outOfFuel
    else .ok (ga, rng)
  | k + 1, ga, rng =>
    if ga.nextGen.population.length ≠ ga.currGen.population.length then
      match selection RAND_MAX sqrt mem fuel ga.currGen ga.currParents rng with
      | .error e => .error e
      | .ok (parents, rng1) =>
        match crossover RAND_MAX fuel ga parents ga.currChild rng1 with
        | .error e => .error e
        | .ok (child, rng2) =>
          match mutate RAND_MAX ga child rng2 with
          | .error e => .error e
          | .ok (child', rng3) =>
            generationLoop RAND_MAX sqrt mem fuel k
              { ga with
                nextGen := ⟨ga.nextGen.population ++ [child']⟩
                currParents := (⟨[]⟩, ⟨[]⟩)
                currChild := ⟨[]⟩ }
              rng3
    else .ok (ga, rng)

/-- The branch of `OnUserUpdate` taken when a generation is advanced (key `P` held or `S`
released): the counter, the loop, and the replacement of the current generation. -/
def generationStep (RAND_MAX : Nat) (sqrt : R → R) (mem : Nat → Node R) (fuel : Nat)
    (ga : GeneticAlgorithm R) (rng : Rng) : Except Fault (GeneticAlgorithm R × Rng) :=
  match generationLoop RAND_MAX sqrt mem fuel fuel { ga with iteration := ga.iteration + 1 } rng with
  | .error e => .error e
  | .ok (ga', rng') => .ok ({ ga' with currGen := ga'.nextGen, nextGen := ⟨[]⟩ }, rng')

end Engine

/-! ## Descriptions of what a scan of `selection` accepts

These follow the wording of the claims about selection, to be compared with `firstScan` and
`secondScan`. -/

section Accepted

variable {R : Type} [LinearOrderedField R]

/-- The generator after `k` further calls of `rand()`. -/
def skip (k : Nat) (rng : Rng) : Rng := fun i => rng (i + k)

/-- The routes of one scan over `population`, in population order, whose draw is below their
fitness, when the scan starts at the generator state `rng` and every route consumes one
draw. -/
def belowFitness (RAND_MAX : Nat) (sqrt : R → R) (mem : Nat → Node R) :
    List Route → Rng → List Route
  | [], _ => []
  | route :: rest, rng =>
    match route.fitness sqrt mem with
    | .error _ => belowFitness RAND_MAX sqrt mem rest (rand rng).2
    | .ok p =>
      if ((unitDraw RAND_MAX (rand rng).1 : R) : WithTop R) < p then
        route :: belowFitness RAND_MAX sqrt mem rest (rand rng).2
      else
        belowFitness RAND_MAX sqrt mem rest (rand rng).2

/-- The routes of one scan over `population`, in population order, whose draw is below their
fitness and whose node sequence differs from that of `first`. -/
def belowFitnessOther (RAND_MAX : Nat) (sqrt : R → R) (mem : Nat → Node R) (first : Route) :
    List Route → Rng → List Route
  | [], _ => []
  | route :: rest, rng =>
    match route.fitness sqrt mem with
    | .error _ => belowFitnessOther RAND_MAX sqrt mem first rest (rand rng).2
    | .ok p =>
      if ((unitDraw RAND_MAX (rand rng).1 : R) : WithTop R) < p ∧ route.nodes ≠ first.nodes then
        route :: belowFitnessOther RAND_MAX sqrt mem first rest (rand rng).2
      else
        belowFitnessOther RAND_MAX sqrt mem first rest (rand rng).2

end Accepted

/-! ## Observed runs

The loops of `crossover` and of `OnUserUpdate` once more, returning besides their result what
each round did.  Dropping the record gives back `copyLoop`, `fillLoop` and
`generationLoop`. -/

section Observed

variable {R : Type} [LinearOrderedField R]

/-- One round of the loop `while (missing > 0)` of `crossover`: the position `parentId` read
in the second parent, the value of `childId`, the child's node list at the start of the
round, and whether the round wrote `child.nodes[childId]`. -/
structure FillStep where
  parentId : Nat
  childId : Nat
  child : List NodePtr
  wrote : Bool
  deriving DecidableEq, Repr

/-- The loop of `copyLoop`, returning also the positions of the child it wrote, in order. -/
def copyLoopLog (first : List NodePtr) :
    Nat → Nat → List NodePtr → Except Fault (List NodePtr × List Nat)
  | 0, _, child => .ok (child, [])
  | cnt + 1, i, child =>
    match index first i with
    | .error e => .error e
    | .ok g =>
      if i < child.length then
        match copyLoopLog first cnt (i + 1) (child.set i g) with
        | .error e => .error e
        | .ok (out, written) => .ok (out, i :: written)
      else .error .outOfBounds

/-- The loop of `fillLoop`, returning also the value of `missing` at exit and its rounds, in
order. -/
def fillLoopLog (n : Nat) (second : List NodePtr) :
    Nat → List NodePtr → Nat → Nat → Nat → Except Fault (List NodePtr × Nat × List FillStep)
  | _, child, _, _, 0 => .ok (child, 0, [])
  | 0, _, _, _, _ + 1 => .error .outOfFuel
  | fuel + 1, child, childId, parentId, missing + 1 =>
    match index second parentId with
    | .error e => .error e
    | .ok g =>
      if g ∈ child then
        match fillLoopLog n second fuel child childId ((parentId + 1) % n) (missing + 1) with
        | .error e => .error e
        | .ok (out, m, log) => .ok (out, m, ⟨parentId, childId, child, false⟩ :: log)
      else if childId < child.length then
        match fillLoopLog n second fuel (child.set childId g) ((childId + 1) % n)
            ((parentId + 1) % n) missing with
        | .error e => .error e
        | .ok (out, m, log) => .ok (out, m, ⟨parentId, childId, child, true⟩ :: log)
      else .error .outOfBounds

/-- One call of `crossover` made by the loop of `OnUserUpdate`: the parents and the child
passed in, the state of the generator at the call, and the child the call left. -/
structure CrossoverCall where
  parents : Route × Route
  child : Route
  rng : Rng
  result : Route

/-- The loop of `generationLoop`, returning also its calls of `crossover`, in order. -/
def generationLoopLog (RAND_MAX : Nat) (sqrt : R → R) (mem : Nat → Node R) (fuel : Nat) :
    Nat → GeneticAlgorithm R → Rng →
      Except Fault (GeneticAlgorithm R × Rng × List CrossoverCall)
  | 0, ga, rng =>
    if ga.nextGen.population.length ≠ ga.currGen.population.length then .error .outOfFuel
    else .ok (ga, rng, [])
  | k + 1, ga, rng =>
    if ga.nextGen.population.length ≠ ga.currGen.population.length then
      match selection RAND_MAX sqrt mem fuel ga.currGen ga.currParents rng with
      | .error e => .error e
      | .ok (parents, rng1) =>
        match crossover RAND_MAX fuel ga parents ga.currChild rng1 with
        | .error e => .error e
        | .ok (child, rng2) =>
          match mutate RAND_MAX ga child rng2 with
          | .error e => .error e
          | .ok (child', rng3) =>
            match generationLoopLog RAND_MAX sqrt mem fuel k
              { ga with
                nextGen := ⟨ga.nextGen.population ++ [child']⟩
                currParents := (⟨[]⟩, ⟨[]⟩)
                currChild := ⟨[]⟩ }
              rng3 with
            | .error e => .error e
            | .ok (ga', rng', calls) =>
              .ok (ga', rng', ⟨parents, ga.currChild, rng1, child⟩ :: calls)
    else .ok (ga, rng, [])

end Observed


/-! ## `Route::fitness` over binary32 arithmetic

The definitions above read `float` as exact numbers.  Here the same method is read with
`float` as what it is on the platforms of the source, IEEE 754 binary32 with rounding to
nearest, ties to even: every operation returns the `float` nearest to the exact result. -/

section Binary32

/-- A value of the type `float`.  `finite neg m e` is the number `(-1)^neg * m * 2^e`; the
operations below keep it in the form `m < 2^24` and `-149 ≤ e ≤ 104`, with `2^23 ≤ m` unless
`e = -149` (zero and the subnormal numbers). -/
inductive F32 where
  | finite (neg : Bool) (m : Nat) (e : Int)
  | inf (neg : Bool)
  | nan
  deriving DecidableEq, Repr

/-- The number of binary digits of `m`, counted in at most `fuel` steps. -/
def bitLengthAux : Nat → Nat → Nat
  | 0, _ => 0
  | fuel + 1, m => if m = 0 then 0 else bitLengthAux fuel (m / 2) + 1

/-- The number of binary digits of `m`. -/
def bitLength (m : Nat) : Nat := bitLengthAux m m

/-- The `float` with significand `m ≤ 2^24` and exponent `e`: a significand of `2^24` moves
to the next exponent, and an exponent above `104` is an overflow to infinity. -/
def F32.pack (neg : Bool) (m : Nat) (e : Int) : F32 :=
  if m = 2 ^ 24 then (if 104 < e + 1 then .inf neg else .finite neg (2 ^ 23) (e + 1))
  else if 104 < e then .inf neg else .finite neg m e

/-- Rounding to nearest, ties to even: the `float` nearest to the real number `x` of sign
`neg` with `m * 2^e ≤ |x| < (m + 1) * 2^e`, where `sticky` tells that `|x|` is not
`m * 2^e` (in which case `m` has more than 25 binary digits). -/
def F32.round (neg : Bool) (m : Nat) (e : Int) (sticky : Bool) : F32 :=
  if m = 0 ∧ sticky = false then .finite neg 0 (-149)
  else
    let e' : Int := max (e + (bitLength m : Int) - 24) (-149)
    if e' ≤ e then F32.pack neg (m * 2 ^ (e - e').toNat) e'
    else
      let q := m / 2 ^ (e' - e).toNat
      let r := m % 2 ^ (e' - e).toNat
      let half := 2 ^ ((e' - e).toNat - 1)
      if half < r ∨ (r = half ∧ (sticky = true ∨ q % 2 = 1)) then F32.pack neg (q + 1) e'
      else F32.pack neg q e'

/-- The conversion `(float)n` of a non-negative integer, as in the literals `0.0f` and
`1.0f`. -/
def F32.ofNat (n : Nat) : F32 := F32.round false n 0 false

/-- The unary `-`. -/
def F32.neg : F32 → F32
  | .finite n m e => .finite (!n) m e
  | .inf n => .inf (!n)
  | .nan => .nan

/-- The operator `+` of `float`. -/
def F32.add : F32 → F32 → F32
  | .nan, _ => .nan
  | _, .nan => .nan
  | .inf a, .inf b => if a = b then .inf a else .nan
  | .inf a, .finite _ _ _ => .inf a
  | .finite _ _ _, .inf b => .inf b
  | .finite na ma ea, .finite nb mb eb =>
    let e := min ea eb
    let va : Int := if na then -((ma * 2 ^ (ea - e).toNat : Nat) : Int)
      else ((ma * 2 ^ (ea - e).toNat : Nat) : Int)
    let vb : Int := if nb then -((mb * 2 ^ (eb - e).toNat : Nat) : Int)
      else ((mb * 2 ^ (eb - e).toNat : Nat) : Int)
    if va + vb = 0 then .finite (na && nb) 0 (-149)
    else F32.round (decide (va + vb < 0)) (va + vb).natAbs e false

/-- The operator `-` of `float`. -/
def F32.sub (a b : F32) : F32 := F32.add a (F32.neg b)

/-- The operator `*` of `float`. -/
def F32.mul : F32 → F32 → F32
  | .nan, _ => .nan
  | _, .nan => .nan
  | .inf a, .inf b => .inf (a != b)
  | .inf a, .finite nb mb _ => if mb = 0 then .nan else .inf (a != nb)
  | .finite na ma _, .inf b => if ma = 0 then .nan else .inf (na != b)
  | .finite na ma ea, .finite nb mb eb => F32.round (na != nb) (ma * mb) (ea + eb) false

/-- The operator `/` of `float`; the quotient of the significands is taken with 64 more
binary digits. -/
def F32.div : F32 → F32 → F32
  | .nan, _ => .nan
  | _, .nan => .nan
  | .inf _, .inf _ => .nan
  | .inf a, .finite nb _ _ => .inf (a != nb)
  | .finite na _ _, .inf b => .finite (na != b) 0 (-149)
  | .finite na ma ea, .finite nb mb eb =>
    if mb = 0 then (if ma = 0 then .nan else .inf (na != nb))
    else F32.round (na != nb) (ma * 2 ^ 64 / mb) (ea - eb - 64)
      (decide (ma * 2 ^ 64 % mb ≠ 0))

/-- The integer square root, digit by digit: with `r * r ≤ n < (r + 2^k) * (r + 2^k)`, the
greatest `s` with `s * s ≤ n`. -/
def isqrtAux (n : Nat) : Nat → Nat → Nat
  | 0, r => r
  | k + 1, r =>
    if (r + 2 ^ k) * (r + 2 ^ k) ≤ n then isqrtAux n k (r + 2 ^ k) else isqrtAux n k r

/-- The integer square root of `n`. -/
def isqrt (n : Nat) : Nat := isqrtAux n (bitLength n) 0

/-- The function `sqrtf`; the root is taken of the significand with 64 or 65 more binary
digits, so that the exponent left is even. -/
def F32.sqrt : F32 → F32
  | .nan => .nan
  | .inf n => if n then .nan else .inf false
  | .finite n m e =>
    if m = 0 then .finite n 0 (-149)
    else if n then .nan
    else
      let k : Nat := if e % 2 = 0 then 64 else 65
      F32.round false (isqrt (m * 2 ^ k)) ((e - k) / 2)
        (decide (isqrt (m * 2 ^ k) * isqrt (m * 2 ^ k) ≠ m * 2 ^ k))

/-- The lambda `distance` of `Route::fitness`, in `float`. -/
def distance32 (n1 n2 : Node F32) : F32 :=
  F32.sqrt (F32.add (F32.mul (F32.sub n2.x n1.x) (F32.sub n2.x n1.x))
    (F32.mul (F32.sub n2.y n1.y) (F32.sub n2.y n1.y)))

/-- The loop `for (int i = 0; i < nodes.size(); i++) totDist += ...` of `Route::fitness`,
in `float`, with `cnt` iterations left, at index `i`. -/
def fitnessLoop32 (mem : Nat → Node F32) (nodes : List NodePtr) :
    Nat → Nat → F32 → Except Fault F32
  | 0, _, totDist => .ok totDist
  | cnt + 1, i, totDist =>
    match index nodes i with
    | .error e => .error e
    | .ok p1 =>
      match index nodes ((i + 1) % nodes.length) with
      | .error e => .error e
      | .ok p2 =>
        match deref mem p1 with
        | .error e => .error e
        | .ok n1 =>
          match deref mem p2 with
          | .error e => .error e
          | .ok n2 => fitnessLoop32 mem nodes cnt (i + 1) (F32.add totDist (distance32 n1 n2))

/-- The method `Route::fitness`, in `float`. -/
def Route.fitness32 (mem : Nat → Node F32) (route : Route) : Except Fault F32 :=
  match fitnessLoop32 mem route.nodes route.nodes.length 0 (F32.ofNat 0) with
  | .error e => .error e
  | .ok totDist => .ok (F32.div (F32.ofNat 1) totDist)

end Binary32
/-! ## Concrete data for the examples -/

/-- A generator that returns the values of `l` in turn, and `0` afterwards. -/
def tape (l : List Nat) : Rng := fun i => l.getD i 0

/-- A polygon with four vertices, at the addresses `0`, `1`, `2`, `3`. -/
def squarePoly : List NodePtr := [some 0, some 1, some 2, some 3]

/-- An engine over the four-vertex polygon with the chances of `OnUserCreate`
(`0.30` and `0.05`) and no routes. -/
def squareEngine (R : Type) [LinearOrderedField R] : GeneticAlgorithm R :=
  { iteration := 0
    testPoly := squarePoly
    popSize := 2
    currGen := ⟨[]⟩
    nextGen := ⟨[]⟩
    currParents := (⟨[]⟩, ⟨[]⟩)
    currChild := ⟨[]⟩
    crossoverChance := 3 / 10
    mutationChance := 1 / 20 }

/-- The memory holding the corners of the unit square: `(0,0)`, `(1,0)`, `(1,1)`, `(0,1)` at
the addresses `0`, `1`, `2`, `3` (and `(0,1)` anywhere else). -/
def squareMem (R : Type) [LinearOrderedField R] : Nat → Node R
  | 0 => ⟨0, 0⟩
  | 1 => ⟨1, 0⟩
  | 2 => ⟨1, 1⟩
  | _ => ⟨0, 1⟩

/-- A second route over the four-vertex polygon. -/
def squareRoute2 : Route := ⟨[some 1, some 0, some 3, some 2]⟩

/-- A generation of two routes over the four-vertex polygon. -/
def squareGen : Generation := ⟨[⟨squarePoly⟩, squareRoute2]⟩

/-- The four-vertex route walked backwards. -/
def squareRouteRev : Route := ⟨[some 3, some 2, some 1, some 0]⟩

/-- The engine over the four-vertex polygon holding the generation `squareGen`. -/
def squareState (R : Type) [LinearOrderedField R] : GeneticAlgorithm R :=
  { squareEngine R with currGen := squareGen }

/-- The draws of one generation step over `squareState`: per child four draws of selection,
then the draws of crossover and of mutate. -/
def stepDraws : List Nat :=
  [0, 32767, 0, 0, 0, 1, 1, 32767, 0, 32767, 0, 0, 32767, 0, 2, 3]

/-- The route `(0,0), (1,1), (1,0), (0,1)` over the unit square. -/
def diagRoute : Route := ⟨[some 0, some 2, some 1, some 3]⟩

/-- A generator whose every draw is `RAND_MAX = 32767`. -/
def maxDraws : Rng := fun _ => 32767


/-- A route of five nodes. -/
def fiveRoute : Route := ⟨[some 0, some 1, some 2, some 3, some 4]⟩

/-- The memory holding the points `(0,0)`, `(0,1)`, `(2^24,1)`, `(2^24,2)`, `(2^24,0)` at
the addresses `0` to `4` (and `(2^24,0)` anywhere else); every coordinate is a `float`. -/
def wideMem : Nat → Node F32
  | 0 => ⟨F32.ofNat 0, F32.ofNat 0⟩
  | 1 => ⟨F32.ofNat 0, F32.ofNat 1⟩
  | 2 => ⟨F32.ofNat 16777216, F32.ofNat 1⟩
  | 3 => ⟨F32.ofNat 16777216, F32.ofNat 2⟩
  | _ => ⟨F32.ofNat 16777216, F32.ofNat 0⟩

/-- The memory holding the points `(0,0)`, `(0,1)`, `(1,0)`, `(2,2)` at the addresses `0` to
`3` (and `(2,2)` anywhere else); every coordinate is a `float`. -/
def gridMem : Nat → Node F32
  | 0 => ⟨F32.ofNat 0, F32.ofNat 0⟩
  | 1 => ⟨F32.ofNat 0, F32.ofNat 1⟩
  | 2 => ⟨F32.ofNat 1, F32.ofNat 0⟩
  | _ => ⟨F32.ofNat 2, F32.ofNat 2⟩
/-! ## Helper lemmas -/

theorem index_eq_ok {α : Type} (v : List α) (i : Nat) (h : i < v.length) :
    index v i = .ok v[i] := by
  simp [index, List.getElem?_eq_getElem h]

theorem unitDraw_nonneg {R : Type} [LinearOrderedField R] (RAND_MAX r : Nat) :
    (0 : R) ≤ unitDraw RAND_MAX r :=
  div_nonneg (Nat.cast_nonneg r) (Nat.cast_nonneg RAND_MAX)

theorem cons_set_perm {α : Type} (x : α) :
    ∀ (xs : List α) (j : Nat) (h : j < xs.length), (xs[j] :: xs.set j x).Perm (x :: xs)
  | y :: ys, 0, _ => by
    simpa using List.Perm.swap x y ys
  | y :: ys, j + 1, h => by
    have hj : j < ys.length := by simpa using h
    have ih := cons_set_perm x ys j hj
    simp only [List.getElem_cons_succ, List.set_cons_succ]
    exact (List.Perm.swap y ys[j] _).trans ((ih.cons y).trans (List.Perm.swap x y ys))

theorem set_set_perm {α : Type} :
    ∀ (l : List α) (i j : Nat) (hi : i < l.length) (hj : j < l.length),
      ((l.set i l[j]).set j l[i]).Perm l
  | x :: xs, 0, 0, _, _ => by simp
  | x :: xs, 0, j + 1, _, hj => by
    have hj' : j < xs.length := by simpa using hj
    simpa using cons_set_perm x xs j hj'
  | x :: xs, i + 1, 0, hi, _ => by
    have hi' : i < xs.length := by simpa using hi
    simpa using cons_set_perm x xs i hi'
  | x :: xs, i + 1, j + 1, hi, hj => by
    have hi' : i < xs.length := by simpa using hi
    have hj' : j < xs.length := by simpa using hj
    simpa using set_set_perm xs i j hi' hj'

theorem set_getElem_same {α : Type} (l : List α) (i : Nat) (h : i < l.length) :
    l.set i l[i] = l := by
  apply List.ext_getElem?
  intro q
  by_cases hq : i = q
  · subst hq; simp [List.getElem?_set, h, List.getElem?_eq_getElem]
  · simp [List.getElem?_set, hq]

theorem swapAt_eq_ok (v : List NodePtr) (i j : Nat) (hi : i < v.length) (hj : j < v.length) :
    swapAt v i j = .ok ((v.set i v[j]).set j v[i]) := by
  simp [swapAt, index_eq_ok v i hi, index_eq_ok v j hj]

theorem randIndices_fst_lt (n a b : Nat) (hn : 0 < n) : (randIndices n a b).1 < n :=
  Nat.mod_lt _ hn

theorem randIndices_snd_lt (n a b : Nat) (hn : 0 < n) : (randIndices n a b).2 < n :=
  Nat.mod_lt _ hn

theorem mod_of_lt_two_mul (n z : Nat) (h : z < 2 * n) :
    z % n = if z < n then z else z - n := by
  split
  · next hz => exact Nat.mod_eq_of_lt hz
  · next hz =>
    rw [Nat.mod_eq_sub_mod (by omega)]
    exact Nat.mod_eq_of_lt (by omega)

theorem randIndices_of_lt (n x y : Nat) (hx : x < n) (hy : y < n) :
    randIndices n x y = (x, if x + y < n then x + y else x + y - n) := by
  simp only [randIndices, Nat.mod_eq_of_lt hx, Nat.mod_eq_of_lt hy]
  rw [mod_of_lt_two_mul n (x + y) (by omega)]

theorem index_map_some (addrs : List Nat) (i : Nat) (h : i < addrs.length) :
    index (addrs.map some) i = .ok (some (addrs.getD i 0)) := by
  simp [index, List.getElem?_map, List.getElem?_eq_getElem h, List.getD_eq_getElem _ _ h]

theorem fitnessLoop_eq_sum {R : Type} [LinearOrderedField R] (sqrt : R → R)
    (mem : Nat → Node R) (addrs : List Nat) :
    ∀ (cnt i : Nat) (totDist : R), i + cnt ≤ addrs.length →
      fitnessLoop sqrt mem (addrs.map some) cnt i totDist
        = .ok (totDist + ∑ q ∈ Finset.range cnt,
            distance sqrt (mem (addrs.getD (i + q) 0))
              (mem (addrs.getD ((i + q + 1) % addrs.length) 0)))
  | 0, _, _, _ => by simp [fitnessLoop]
  | cnt + 1, i, totDist, h => by
    have hi : i < addrs.length := by omega
    have hi' : (i + 1) % (addrs.map some).length < addrs.length := by
      simpa using Nat.mod_lt (i + 1) (by omega : 0 < addrs.length)
    unfold fitnessLoop
    rw [index_map_some addrs i hi, index_map_some addrs _ hi']
    simp only [deref]
    rw [fitnessLoop_eq_sum sqrt mem addrs cnt (i + 1) _ (by omega)]
    rw [Finset.sum_range_succ']
    simp only [List.length_map, Nat.add_zero, add_assoc]
    congr 2
    rw [add_comm]
    congr 1
    apply Finset.sum_congr rfl
    intro q _
    rw [show i + (q + 1) = i + (1 + q) by omega,
      show i + (q + (1 + 1)) = i + (1 + (q + 1)) by omega]

section SelectionLemmas

variable {R : Type} [LinearOrderedField R]

theorem firstScan_mem (RAND_MAX : Nat) (sqrt : R → R) (mem : Nat → Node R) :
    ∀ (population : List Route) (first : Route) (found : Bool) (rng : Rng)
      (first' : Route) (found' : Bool) (rng' : Rng),
      firstScan RAND_MAX sqrt mem population first found rng = .ok (first', found', rng') →
      found' = true → first' ∈ population ∨ (found = true ∧ first' = first)
  | [], first, found, rng, first', found', rng', h, hf => by
    simp only [firstScan, Except.ok.injEq, Prod.mk.injEq] at h
    obtain ⟨rfl, rfl, _⟩ := h
    exact Or.inr ⟨hf, rfl⟩
  | route :: rest, first, found, rng, first', found', rng', h, hf => by
    unfold firstScan at h
    split at h
    · exact absurd h (by simp)
    · split at h
      · rcases firstScan_mem RAND_MAX sqrt mem rest route true _ first' found' rng' h hf with
          hm | ⟨_, he⟩
        · exact Or.inl (List.mem_cons_of_mem _ hm)
        · exact Or.inl (he ▸ List.mem_cons_self _ _)
      · rcases firstScan_mem RAND_MAX sqrt mem rest first found _ first' found' rng' h hf with
          hm | hold
        · exact Or.inl (List.mem_cons_of_mem _ hm)
        · exact Or.inr hold

theorem firstLoop_mem (RAND_MAX : Nat) (sqrt : R → R) (mem : Nat → Node R)
    (population : List Route) :
    ∀ (fuel : Nat) (first : Route) (found : Bool) (rng : Rng) (first' : Route) (rng' : Rng),
      firstLoop RAND_MAX sqrt mem population fuel first found rng = .ok (first', rng') →
      (found = true → first ∈ population) → first' ∈ population
  | fuel, first, true, rng, first', rng', h, hin => by
    cases fuel <;>
    · simp only [firstLoop, Except.ok.injEq, Prod.mk.injEq] at h
      exact h.1 ▸ hin rfl
  | 0, first, false, rng, first', rng', h, _ => by
    simp [firstLoop] at h
  | fuel + 1, first, false, rng, first', rng', h, _ => by
    unfold firstLoop at h
    split at h
    · exact absurd h (by simp)
    · next f1 found1 rng1 hscan =>
      refine firstLoop_mem RAND_MAX sqrt mem population fuel f1 found1 rng1 first' rng' h ?_
      intro hf
      rcases firstScan_mem RAND_MAX sqrt mem population first false rng f1 found1 rng1 hscan hf
        with hm | ⟨hc, _⟩
      · exact hm
      · exact absurd hc (by simp)

theorem secondScan_mem (RAND_MAX : Nat) (sqrt : R → R) (mem : Nat → Node R) (first : Route) :
    ∀ (population : List Route) (second : Route) (found : Bool) (rng : Rng)
      (second' : Route) (found' : Bool) (rng' : Rng),
      secondScan RAND_MAX sqrt mem first population second found rng
        = .ok (second', found', rng') →
      found' = true →
      (second' ∈ population ∧ second'.nodes ≠ first.nodes) ∨ (found = true ∧ second' = second)
  | [], second, found, rng, second', found', rng', h, hf => by
    simp only [secondScan, Except.ok.injEq, Prod.mk.injEq] at h
    obtain ⟨rfl, rfl, _⟩ := h
    exact Or.inr ⟨hf, rfl⟩
  | route :: rest, second, found, rng, second', found', rng', h, hf => by
    unfold secondScan at h
    split at h
    · exact absurd h (by simp)
    · split at h
      · next hacc =>
        rcases secondScan_mem RAND_MAX sqrt mem first rest route true _ second' found' rng' h hf
          with ⟨hm, hne⟩ | ⟨_, he⟩
        · exact Or.inl ⟨List.mem_cons_of_mem _ hm, hne⟩
        · exact Or.inl ⟨he ▸ List.mem_cons_self _ _, he ▸ hacc.2⟩
      · rcases secondScan_mem RAND_MAX sqrt mem first rest second found _ second' found' rng' h hf
          with ⟨hm, hne⟩ | hold
        · exact Or.inl ⟨List.mem_cons_of_mem _ hm, hne⟩
        · exact Or.inr hold

theorem secondLoop_mem (RAND_MAX : Nat) (sqrt : R → R) (mem : Nat → Node R)
    (population : List Route) (first : Route) :
    ∀ (fuel : Nat) (second : Route) (found : Bool) (rng : Rng) (second' : Route) (rng' : Rng),
      secondLoop RAND_MAX sqrt mem population first fuel second found rng = .ok (second', rng') →
      (found = true → second ∈ population ∧ second.nodes ≠ first.nodes) →
      second' ∈ population ∧ second'.nodes ≠ first.nodes
  | fuel, second, true, rng, second', rng', h, hin => by
    cases fuel <;>
    · simp only [secondLoop, Except.ok.injEq, Prod.mk.injEq] at h
      exact h.1 ▸ hin rfl
  | 0, second, false, rng, second', rng', h, _ => by
    simp [secondLoop] at h
  | fuel + 1, second, false, rng, second', rng', h, _ => by
    unfold secondLoop at h
    split at h
    · exact absurd h (by simp)
    · next s1 found1 rng1 hscan =>
      refine secondLoop_mem RAND_MAX sqrt mem population first fuel s1 found1 rng1 second' rng'
        h ?_
      intro hf
      rcases secondScan_mem RAND_MAX sqrt mem first population second false rng s1 found1 rng1
        hscan hf with hm | ⟨hc, _⟩
      · exact hm
      · exact absurd hc (by simp)

theorem selection_sound (RAND_MAX : Nat) (sqrt : R → R) (mem : Nat → Node R) (fuel : Nat)
    (gen : Generation) (parents : Route × Route) (rng : Rng) (out : Route × Route)
    (rng' : Rng)
    (h : selection RAND_MAX sqrt mem fuel gen parents rng = .ok (out, rng')) :
    out.1 ∈ gen.population ∧ out.2 ∈ gen.population ∧ out.2.nodes ≠ out.1.nodes := by
  unfold selection at h
  split at h
  · exact absurd h (by simp)
  · next first rng1 h1 =>
    split at h
    · exact absurd h (by simp)
    · next second rng2 h2 =>
      simp only [Except.ok.injEq, Prod.mk.injEq] at h
      obtain ⟨rfl, _⟩ := h
      have hA := firstLoop_mem RAND_MAX sqrt mem gen.population fuel parents.1 false rng
        first rng1 h1 (by simp)
      have hB := secondLoop_mem RAND_MAX sqrt mem gen.population first fuel parents.2 false
        rng1 second rng2 h2 (by simp)
      exact ⟨hA, hB.1, hB.2⟩

end SelectionLemmas

theorem fitness_of_totDist {R : Type} [LinearOrderedField R] (sqrt : R → R)
    (mem : Nat → Node R) (route : Route) (t : R)
    (h : fitnessLoop sqrt mem route.nodes route.nodes.length 0 0 = .ok t) (ht : t ≠ 0) :
    route.fitness sqrt mem = .ok ((1 / t : R) : WithTop R) := by
  unfold Route.fitness
  rw [h]
  simp only [if_neg ht]

theorem squarePoly_totDist :
    fitnessLoop Real.sqrt (squareMem ℝ) squarePoly 4 0 0 = .ok 4 := by
  have hsq : squarePoly = [0, 1, 2, 3].map some := rfl
  rw [hsq, fitnessLoop_eq_sum Real.sqrt (squareMem ℝ) [0, 1, 2, 3] 4 0 0 (by decide)]
  simp [Finset.sum_range_succ, distance, squareMem]
  norm_num

theorem squareRoute2_totDist :
    fitnessLoop Real.sqrt (squareMem ℝ) squareRoute2.nodes 4 0 0 = .ok 4 := by
  have hsq : squareRoute2.nodes = [1, 0, 3, 2].map some := rfl
  rw [hsq, fitnessLoop_eq_sum Real.sqrt (squareMem ℝ) [1, 0, 3, 2] 4 0 0 (by decide)]
  simp [Finset.sum_range_succ, distance, squareMem]
  norm_num

theorem squarePoly_fitness :
    Route.fitness Real.sqrt (squareMem ℝ) ⟨squarePoly⟩ = .ok ((1 / 4 : ℝ) : WithTop ℝ) :=
  fitness_of_totDist Real.sqrt (squareMem ℝ) ⟨squarePoly⟩ 4 squarePoly_totDist (by norm_num)

theorem squareRoute2_fitness :
    Route.fitness Real.sqrt (squareMem ℝ) squareRoute2 = .ok ((1 / 4 : ℝ) : WithTop ℝ) :=
  fitness_of_totDist Real.sqrt (squareMem ℝ) squareRoute2 4 squareRoute2_totDist (by norm_num)

theorem squareGen_selection_of_draws (parents : Route × Route) (rng : Rng)
    (h0 : (rand rng).1 = 0) (h1 : (rand (rand rng).2).1 = 32767)
    (h2 : (rand (rand (rand rng).2).2).1 = 0)
    (h3 : (rand (rand (rand (rand rng).2).2).2).1 = 0) :
    selection 32767 Real.sqrt (squareMem ℝ) 4 squareGen parents rng
      = .ok ((⟨squarePoly⟩, squareRoute2), (rand (rand (rand (rand rng).2).2).2).2) := by
  have e0 : ((unitDraw 32767 0 : ℝ) : WithTop ℝ) < ((1 / 4 : ℝ) : WithTop ℝ) := by
    rw [WithTop.coe_lt_coe]
    simp [unitDraw]
  have e1 : ¬ ((unitDraw 32767 32767 : ℝ) : WithTop ℝ) < ((1 / 4 : ℝ) : WithTop ℝ) := by
    rw [WithTop.coe_lt_coe]
    simp [unitDraw]
    norm_num
  have hne : squareRoute2.nodes ≠ (Route.mk squarePoly).nodes := by decide
  simp only [selection, squareGen, firstLoop, firstScan, secondLoop, secondScan,
    squarePoly_fitness, squareRoute2_fitness, h0, h1, h2, h3, e0, e1, if_true, if_false, ne_eq,
    not_true_eq_false, and_false, hne, not_false_eq_true, and_true]

theorem squareGen_selection :
    selection 32767 Real.sqrt (squareMem ℝ) 4 squareGen (⟨[]⟩, ⟨[]⟩) (tape [0, 32767, 0, 0])
      = .ok ((⟨squarePoly⟩, squareRoute2),
          (rand (rand (rand (rand (tape [0, 32767, 0, 0])).2).2).2).2) :=
  squareGen_selection_of_draws _ _ rfl rfl rfl rfl

section ListLemmas

variable {α : Type}

theorem set_length_append (P : List α) (x g : α) (rest : List α) :
    (P ++ x :: rest).set P.length g = P ++ g :: rest := by
  induction P with
  | nil => rfl
  | cons p P ih => simp [ih]

theorem add_mod_inj (n k i j : Nat) (hk : k < n) (hi : i < n) (hj : j < n) :
    (k + j) % n = (i + k) % n ↔ j = i := by
  rw [mod_of_lt_two_mul n (k + j) (by omega), mod_of_lt_two_mul n (i + k) (by omega)]
  split <;> split <;> omega

theorem rotate_set (l : List α) (n k j : Nat) (g : α) (hl : l.length = n) (hk : k < n)
    (hj : j < n) : (l.set ((k + j) % n) g).rotate k = (l.rotate k).set j g := by
  apply List.ext_getElem
  · simp
  · intro i h1 h2
    have hi : i < n := by simpa [hl] using h1
    rw [List.getElem_rotate, List.getElem_set, List.getElem_set, List.getElem_rotate]
    simp only [List.length_set, hl]
    by_cases hji : j = i
    · subst hji; simp [Nat.add_comm]
    · have := (add_mod_inj n k i j hk hi hj).not.mpr hji
      simp [this, hji]

theorem getElem_not_mem_take (l : List α) (hnd : l.Nodup) (t : Nat) (ht : t < l.length) :
    l[t] ∉ l.take t := by
  intro hmem
  rw [List.mem_take_iff_getElem] at hmem
  obtain ⟨i, hi, he⟩ := hmem
  have hlt : i < t := lt_of_lt_of_le hi (min_le_left _ _)
  have := (hnd.getElem_inj_iff).mp he
  omega

theorem filter_take_eq_of_length (p : α → Bool) (l : List α) (t : Nat)
    (h : (l.filter p).length ≤ ((l.take t).filter p).length) :
    (l.take t).filter p = l.filter p :=
  ((List.take_sublist t l).filter p).eq_of_length
    (le_antisymm ((List.take_sublist t l).filter p).length_le h)

theorem take_succ_eq_append (l : List α) (t : Nat) (ht : t < l.length) :
    l.take (t + 1) = l.take t ++ [l[t]] := by
  rw [List.take_succ, List.getElem?_eq_getElem ht]
  rfl

end ListLemmas

section CrossoverLemmas

theorem fillLoop_spec (n k : Nat) (B block : List NodePtr) (hk : k < n) (hB : B.length = n)
    (hBnd : B.Nodup) (hBnn : none ∉ B) (m : Nat)
    (hm : ((B.rotate k).filter (fun g => decide (g ∉ block))).length = m) :
    ∀ (fuel t : Nat) (child P : List NodePtr),
      child.length = n → t ≤ n → n ≤ fuel + t →
      P = ((B.rotate k).take t).filter (fun g => decide (g ∉ block)) →
      child.rotate k = P ++ (List.replicate (m - P.length) none ++ block) →
      ∃ child', fillLoop n B fuel child ((k + P.length) % n) ((k + t) % n) (m - P.length)
          = .ok child' ∧ child'.length = n ∧
        child'.rotate k = (B.rotate k).filter (fun g => decide (g ∉ block)) ++ block := by
  have hrotlen : (B.rotate k).length = n := by simp [hB]
  -- once nothing is missing, the part placed so far is the whole filtered walk
  have hdone : ∀ (t : Nat) (child P : List NodePtr), child.length = n →
      P = ((B.rotate k).take t).filter (fun g => decide (g ∉ block)) →
      child.rotate k = P ++ (List.replicate (m - P.length) none ++ block) →
      m - P.length = 0 → ∀ fuel,
      ∃ child', fillLoop n B fuel child ((k + P.length) % n) ((k + t) % n) (m - P.length)
          = .ok child' ∧ child'.length = n ∧
        child'.rotate k = (B.rotate k).filter (fun g => decide (g ∉ block)) ++ block := by
    intro t child P hlen hP hrot h0 fuel
    have hfull : P = (B.rotate k).filter (fun g => decide (g ∉ block)) := by
      rw [hP]
      refine filter_take_eq_of_length _ _ _ ?_
      rw [← hP, hm]; omega
    refine ⟨child, ?_, hlen, ?_⟩
    · rw [h0]; cases fuel <;> rfl
    · rw [hrot, h0, ← hfull]; simp
  -- with everything walked, nothing is missing
  have hwalked : ∀ (P : List NodePtr),
      P = ((B.rotate k).take n).filter (fun g => decide (g ∉ block)) → m - P.length = 0 := by
    intro P hP
    rw [List.take_of_length_le (by omega)] at hP
    rw [hP, hm]; omega
  intro fuel
  induction fuel with
  | zero =>
    intro t child P hlen ht hfuel hP hrot
    have htn : t = n := by omega
    subst htn
    exact hdone _ child P hlen hP hrot (hwalked P hP) 0
  | succ fuel ih =>
    intro t child P hlen ht hfuel hP hrot
    rcases Nat.eq_zero_or_pos (m - P.length) with h0 | hpos
    · exact hdone t child P hlen hP hrot h0 (fuel + 1)
    · obtain ⟨missing, hmiss⟩ : ∃ missing, m - P.length = missing + 1 :=
        ⟨m - P.length - 1, by omega⟩
      have htlt : t < n := by
        rcases Nat.lt_or_ge t n with h | h
        · exact h
        · have htn : t = n := by omega
          subst htn
          have := hwalked P hP
          omega
      have hpid : (k + t) % n < B.length := by rw [hB]; exact Nat.mod_lt _ (by omega)
      have hg : B[(k + t) % n] = (B.rotate k)[t] := by
        rw [List.getElem_rotate]
        simp only [hB, Nat.add_comm]
      have hgB : B[(k + t) % n] ∈ B := List.getElem_mem _
      have hgnn : B[(k + t) % n] ≠ none := fun h => hBnn (h ▸ hgB)
      have hgP : B[(k + t) % n] ∉ P := by
        intro hin
        rw [hP] at hin
        have := (List.mem_filter.mp hin).1
        rw [hg] at this
        exact getElem_not_mem_take _ (List.nodup_rotate.mpr hBnd) t (by omega) this
      have htake : (B.rotate k).take (t + 1) = (B.rotate k).take t ++ [B[(k + t) % n]] := by
        rw [take_succ_eq_append _ t (by omega), hg]
      have hmem : B[(k + t) % n] ∈ child ↔ B[(k + t) % n] ∈ block := by
        rw [← List.mem_rotate (n := k), hrot]
        simp only [List.mem_append, List.mem_replicate]
        constructor
        · rintro (h | ⟨_, h⟩ | h)
          · exact absurd h hgP
          · exact absurd h hgnn
          · exact h
        · intro h; exact Or.inr (Or.inr h)
      have hpid' : ((k + t) % n + 1) % n = (k + (t + 1)) % n := by
        rw [Nat.mod_add_mod, Nat.add_assoc]
      rw [hmiss]
      unfold fillLoop
      rw [index_eq_ok B _ hpid]
      simp only
      by_cases hblock : B[(k + t) % n] ∈ block
      · rw [if_pos (hmem.mpr hblock), hpid', ← hmiss]
        refine ih (t + 1) child P hlen (by omega) (by omega) ?_ hrot
        rw [htake, List.filter_append, ← hP]
        simp [hblock]
      · rw [if_neg (fun h => hblock (hmem.mp h))]
        have hPlt : P.length < n := by
          have : (child.rotate k).length = n := by simp [hlen]
          rw [hrot] at this
          simp only [List.length_append, List.length_replicate] at this
          omega
        have hcid : (k + P.length) % n < child.length := by
          rw [hlen]; exact Nat.mod_lt _ (by omega)
        rw [if_pos hcid, hpid']
        have hcid' : ((k + P.length) % n + 1) % n = (k + (P ++ [B[(k + t) % n]]).length) % n := by
          rw [Nat.mod_add_mod, Nat.add_assoc]; simp
        have hmiss' : missing = m - (P ++ [B[(k + t) % n]]).length := by
          simp only [List.length_append, List.length_singleton]; omega
        rw [hcid', hmiss']
        refine ih (t + 1) _ (P ++ [B[(k + t) % n]]) (by simp [hlen]) (by omega) (by omega) ?_ ?_
        · rw [htake, List.filter_append, ← hP]
          simp [hblock]
        · rw [rotate_set child n k P.length _ hlen hk hPlt, hrot, hmiss, ← hmiss']
          rw [List.replicate_succ, List.cons_append, set_length_append]
          simp

theorem copyLoop_spec (A : List NodePtr) :
    ∀ (cnt i : Nat) (child : List NodePtr), i + cnt ≤ child.length → i + cnt ≤ A.length →
      copyLoop A cnt i child
        = .ok (child.take i ++ ((A.drop i).take cnt ++ child.drop (i + cnt)))
  | 0, i, child, _, _ => by simp [copyLoop]
  | cnt + 1, i, child, hc, hA => by
    have hi : i < A.length := by omega
    have hic : i < child.length := by omega
    unfold copyLoop
    rw [index_eq_ok A i hi]
    simp only [if_pos hic]
    rw [copyLoop_spec A cnt (i + 1) (child.set i A[i]) (by simp; omega) (by omega)]
    have h1 : (child.set i A[i]).take (i + 1) = child.take i ++ [A[i]] := by
      rw [take_succ_eq_append _ i (by simpa using hic)]
      congr 1
      · apply List.ext_getElem?
        intro q
        simp only [List.getElem?_take]
        split
        · next hq => rw [List.getElem?_set_ne (by omega)]
        · rfl
      · simp
    have h2 : (A.drop i).take (cnt + 1) = A[i] :: (A.drop (i + 1)).take cnt := by
      rw [List.drop_eq_getElem_cons hi, List.take_succ_cons]
    have h3 : (child.set i A[i]).drop (i + 1 + cnt) = child.drop (i + (cnt + 1)) := by
      rw [List.drop_set_of_lt _ _ (by omega)]
      congr 1
      omega
    rw [h1, h2, h3]
    simp

theorem filter_not_mem_mid {α : Type} (X M Y : List α) (p : α → Bool)
    (hp : ∀ a, p a = true ↔ a ∉ M) (hnd : (X ++ (M ++ Y)).Nodup) :
    (X ++ (M ++ Y)).filter p = X ++ Y := by
  have hXM : ∀ a ∈ X, a ∉ M := fun a ha hm =>
    List.disjoint_of_nodup_append hnd ha (List.mem_append_left _ hm)
  have hYM : ∀ a ∈ Y, a ∉ M := fun a ha hm =>
    List.disjoint_of_nodup_append hnd.of_append_right hm ha
  rw [List.filter_append, List.filter_append]
  have e1 : X.filter p = X := List.filter_eq_self.mpr (fun a ha => (hp a).mpr (hXM a ha))
  have e2 : M.filter p = [] :=
    List.filter_eq_nil_iff.mpr (fun a ha hpa => (hp a).mp hpa ha)
  have e3 : Y.filter p = Y := List.filter_eq_self.mpr (fun a ha => (hp a).mpr (hYM a ha))
  rw [e1, e2, e3]
  simp

theorem split_block {α : Type} (A : List α) (lo hi : Nat) (hlo : lo ≤ hi) :
    A = A.take lo ++ ((A.drop lo).take (hi + 1 - lo) ++ A.drop (hi + 1)) := by
  have h := List.take_append_drop (hi + 1 - lo) (A.drop lo)
  rw [List.drop_drop, show lo + (hi + 1 - lo) = hi + 1 by omega] at h
  rw [h, List.take_append_drop]

theorem copy_fill_spec (n lo hi fuel : Nat) (A B : List NodePtr) (hlo : lo ≤ hi) (hhi : hi < n)
    (hA : A.length = n) (hAnd : A.Nodup) (hBA : B.Perm A) (hBnn : none ∉ B)
    (hfuel : n ≤ fuel) :
    ∃ c0 c1, copyLoop A (hi + 1 - lo) lo (resize [] n) = .ok c0 ∧
      fillLoop n B fuel c0 ((hi + 1) % n) ((hi + 1) % n) (n - (hi - lo + 1)) = .ok c1 ∧
      c1.length = n ∧
      c1.rotate ((hi + 1) % n)
        = (B.rotate ((hi + 1) % n)).filter
            (fun g => decide (g ∉ (A.drop lo).take (hi + 1 - lo)))
          ++ (A.drop lo).take (hi + 1 - lo) ∧
      c1.Perm A := by
  obtain ⟨block, hblock⟩ : ∃ block, block = (A.drop lo).take (hi + 1 - lo) := ⟨_, rfl⟩
  obtain ⟨k, hkdef⟩ : ∃ k, k = (hi + 1) % n := ⟨_, rfl⟩
  obtain ⟨m, hmdef⟩ : ∃ m, m = n - (hi - lo + 1) := ⟨_, rfl⟩
  rw [← hblock, ← hkdef, ← hmdef]
  have hB : B.length = n := hBA.length_eq.trans hA
  have hBnd : B.Nodup := hBA.nodup_iff.mpr hAnd
  have hk : k < n := hkdef ▸ Nat.mod_lt _ (by omega)
  have hblen : block.length = hi + 1 - lo := by
    rw [hblock, List.length_take, List.length_drop, hA]; omega
  have hsplit : A = A.take lo ++ (block ++ A.drop (hi + 1)) := hblock ▸ split_block A lo hi hlo
  have hfiltA : A.filter (fun g => decide (g ∉ block)) = A.take lo ++ A.drop (hi + 1) := by
    have := filter_not_mem_mid (A.take lo) block (A.drop (hi + 1))
      (fun g => decide (g ∉ block)) (by simp) (by rw [← hsplit]; exact hAnd)
    rwa [← hsplit] at this
  have hfiltperm : ((B.rotate k).filter (fun g => decide (g ∉ block))).Perm
      (A.take lo ++ A.drop (hi + 1)) := by
    rw [← hfiltA]
    exact ((B.rotate_perm k).trans hBA).filter _
  have hm : ((B.rotate k).filter (fun g => decide (g ∉ block))).length = m := by
    rw [hfiltperm.length_eq, List.length_append, List.length_take, List.length_drop, hA, hmdef]
    omega
  have hc0 : copyLoop A (hi + 1 - lo) lo (resize [] n)
      = .ok (List.replicate lo none ++ (block ++ List.replicate (n - (hi + 1)) none)) := by
    have hres : resize [] n = List.replicate n none := by simp [resize]
    rw [hres, copyLoop_spec A (hi + 1 - lo) lo _ (by simp; omega) (by omega), ← hblock]
    rw [List.take_replicate, List.drop_replicate, Nat.min_eq_left (by omega),
      show n - (lo + (hi + 1 - lo)) = n - (hi + 1) by omega]
  have hc0len : (List.replicate lo none ++ (block ++ List.replicate (n - (hi + 1))
      (none : NodePtr))).length = n := by
    simp only [List.length_append, List.length_replicate, hblen]; omega
  have hrot0 : (List.replicate lo none ++ (block ++ List.replicate (n - (hi + 1))
      (none : NodePtr))).rotate k
      = [] ++ (List.replicate (m - ([] : List NodePtr).length) none ++ block) := by
    rcases Nat.lt_or_ge (hi + 1) n with h | h
    · have hkv : k = (List.replicate lo (none : NodePtr) ++ block).length := by
        rw [hkdef, Nat.mod_eq_of_lt h, List.length_append, List.length_replicate, hblen]; omega
      rw [← List.append_assoc, hkv, List.rotate_append_length_eq]
      simp only [List.nil_append, List.length_nil, Nat.sub_zero, ← List.append_assoc]
      congr 1
      rw [← List.replicate_add]
      congr 1
      omega
    · have hkv : k = 0 := by
        rw [hkdef, show hi + 1 = n by omega, Nat.mod_self]
      rw [hkv, List.rotate_zero, show n - (hi + 1) = 0 by omega]
      simp only [List.replicate_zero, List.append_nil, List.nil_append, List.length_nil,
        Nat.sub_zero]
      congr 2
      omega
  obtain ⟨c1, h1, h2, h3⟩ := fillLoop_spec n k B block hk hB hBnd hBnn m hm fuel 0 _ []
    hc0len (by omega) (by omega) (by simp) hrot0
  simp only [List.length_nil, Nat.add_zero, Nat.sub_zero, Nat.mod_eq_of_lt hk] at h1
  refine ⟨_, c1, hc0, h1, h2, h3, ?_⟩
  have hp1 : c1.Perm (c1.rotate k) := (List.rotate_perm c1 k).symm
  rw [h3] at hp1
  refine hp1.trans ((hfiltperm.append_right block).trans ?_)
  rw [List.append_assoc]
  conv_rhs => rw [hsplit]
  exact List.Perm.append_left _ List.perm_append_comm

theorem block_of_rotate_eq {α : Type} (ch F A : List α) (n lo hi : Nat) (hlo : lo ≤ hi)
    (hhi : hi < n) (hc : ch.length = n) (hA : A.length = n)
    (h : ch.rotate ((hi + 1) % n) = F ++ (A.drop lo).take (hi + 1 - lo)) :
    ∀ i, lo ≤ i → i ≤ hi → ch[i]? = A[i]? := by
  intro i h1 h2
  have hblen : ((A.drop lo).take (hi + 1 - lo)).length = hi + 1 - lo := by
    rw [List.length_take, List.length_drop, hA]; omega
  have hF : F.length = n - (hi + 1 - lo) := by
    have := congrArg List.length h
    rw [List.length_rotate, List.length_append, hblen, hc] at this
    omega
  have hj : F.length + (i - lo) < ch.length := by rw [hc, hF]; omega
  have hrot := List.getElem?_rotate (n := (hi + 1) % n) hj
  have hidx : (F.length + (i - lo) + (hi + 1) % n) % ch.length = i := by
    rw [hc, hF]
    rcases Nat.lt_or_ge (hi + 1) n with hlt | hge
    · rw [Nat.mod_eq_of_lt hlt, show n - (hi + 1 - lo) + (i - lo) + (hi + 1) = i + n by omega,
        Nat.add_mod_right]
      exact Nat.mod_eq_of_lt (by omega)
    · rw [show hi + 1 = n by omega, Nat.mod_self]
      exact (Nat.mod_eq_of_lt (by omega)).trans (by omega)
  rw [hidx, h, List.getElem?_append_right (by omega), Nat.add_sub_cancel_left,
    List.getElem?_take_of_lt (by omega), List.getElem?_drop,
    show lo + (i - lo) = i by omega] at hrot
  exact hrot.symm

end CrossoverLemmas

section CrossoverTop

variable {R : Type} [LinearOrderedField R]

theorem crossover_ordered (RAND_MAX fuel : Nat) (ga : GeneticAlgorithm R)
    (parents : Route × Route) (rng : Rng)
    (htaken : unitDraw RAND_MAX (rand rng).1 < ga.crossoverChance)
    (hn : 1 ≤ ga.testPoly.length) (hnd : ga.testPoly.Nodup) (hnn : none ∉ ga.testPoly)
    (hA : parents.1.nodes.Perm ga.testPoly) (hB : parents.2.nodes.Perm ga.testPoly)
    (hfuel : ga.testPoly.length ≤ fuel) (lo hi : Nat)
    (hlo : lo = min
      (randIndices ga.testPoly.length (rand (rand rng).2).1 (rand (rand (rand rng).2).2).1).1
      (randIndices ga.testPoly.length (rand (rand rng).2).1 (rand (rand (rand rng).2).2).1).2)
    (hhi : hi = max
      (randIndices ga.testPoly.length (rand (rand rng).2).1 (rand (rand (rand rng).2).2).1).1
      (randIndices ga.testPoly.length (rand (rand rng).2).1 (rand (rand (rand rng).2).2).1).2) :
    lo ≤ hi ∧ hi < ga.testPoly.length ∧
    ∃ nodes, crossover RAND_MAX fuel ga parents ⟨[]⟩ rng
        = .ok (⟨nodes⟩, (rand (rand (rand rng).2).2).2) ∧
      nodes.length = ga.testPoly.length ∧
      nodes.rotate ((hi + 1) % ga.testPoly.length)
        = (parents.2.nodes.rotate ((hi + 1) % ga.testPoly.length)).filter
            (fun g => decide (g ∉ (parents.1.nodes.drop lo).take (hi + 1 - lo)))
          ++ (parents.1.nodes.drop lo).take (hi + 1 - lo) ∧
      nodes.Perm ga.testPoly := by
  have hpos : 0 < ga.testPoly.length := hn
  have h1 := randIndices_fst_lt ga.testPoly.length (rand (rand rng).2).1
    (rand (rand (rand rng).2).2).1 hpos
  have h2 := randIndices_snd_lt ga.testPoly.length (rand (rand rng).2).1
    (rand (rand (rand rng).2).2).1 hpos
  have hlohi : lo ≤ hi := by
    rw [hlo, hhi]; exact le_trans (min_le_left _ _) (le_max_left _ _)
  have hhin : hi < ga.testPoly.length := by rw [hhi]; exact max_lt h1 h2
  have hBnn : none ∉ parents.2.nodes := fun h => hnn (hB.mem_iff.mp h)
  obtain ⟨c0, c1, e0, e1, hlen, hrot, hperm⟩ :=
    copy_fill_spec ga.testPoly.length lo hi fuel parents.1.nodes parents.2.nodes hlohi hhin
      hA.length_eq (hA.nodup_iff.mpr hnd) (hB.trans hA.symm) hBnn hfuel
  refine ⟨hlohi, hhin, c1, ?_, hlen, hrot, hperm.trans hA⟩
  unfold crossover
  rw [if_pos htaken]
  have hne : ga.testPoly.length ≠ 0 := by omega
  simp only [hne, if_false, ← hlo, ← hhi]
  rw [e0]
  simp only
  rw [e1]

end CrossoverTop

theorem squareEngine_draw_taken :
    unitDraw 32767 (rand (tape [0, 1, 1])).1 < (squareEngine ℝ).crossoverChance := by
  simp [unitDraw, rand, tape, squareEngine]

theorem squareEngine_crossover :
    crossover 32767 4 (squareEngine ℝ) (⟨squarePoly⟩, squareRouteRev) ⟨[]⟩ (tape [0, 1, 1])
      = .ok (⟨[some 3, some 1, some 2, some 0]⟩, (rand (rand (rand (tape [0, 1, 1])).2).2).2) := by
  unfold crossover
  rw [if_pos squareEngine_draw_taken]
  rfl

section GenerationLemmas

variable {R : Type} [LinearOrderedField R]

theorem fillLoop_fuel_succ (n : Nat) (B : List NodePtr) :
    ∀ (fuel : Nat) (child : List NodePtr) (childId parentId missing : Nat)
      (out : List NodePtr),
      fillLoop n B fuel child childId parentId missing = .ok out →
      fillLoop n B (fuel + 1) child childId parentId missing = .ok out
  | fuel, child, childId, parentId, 0, out, h => by
    cases fuel <;> simpa [fillLoop] using h
  | 0, child, childId, parentId, missing + 1, out, h => by
    simp [fillLoop] at h
  | fuel + 1, child, childId, parentId, missing + 1, out, h => by
    unfold fillLoop at h
    unfold fillLoop
    split at h
    · exact absurd h (by simp)
    · next g hg =>
      split at h
      · next hin =>
        rw [if_pos hin]
        exact fillLoop_fuel_succ n B fuel _ _ _ _ out h
      · next hin =>
        rw [if_neg hin]
        split at h
        · next hc =>
          rw [if_pos hc]
          exact fillLoop_fuel_succ n B fuel _ _ _ _ out h
        · exact absurd h (by simp)

theorem fillLoop_fuel_add (n : Nat) (B : List NodePtr) (fuel : Nat) (child : List NodePtr)
    (childId parentId missing : Nat) (out : List NodePtr)
    (h : fillLoop n B fuel child childId parentId missing = .ok out) :
    ∀ d, fillLoop n B (fuel + d) child childId parentId missing = .ok out
  | 0 => h
  | d + 1 => fillLoop_fuel_succ n B (fuel + d) _ _ _ _ out (fillLoop_fuel_add n B fuel child
      childId parentId missing out h d)

theorem crossover_fuel_add (RAND_MAX fuel : Nat) (ga : GeneticAlgorithm R)
    (parents : Route × Route) (child : Route) (rng : Rng) (out : Route × Rng)
    (h : crossover RAND_MAX fuel ga parents child rng = .ok out) (d : Nat) :
    crossover RAND_MAX (fuel + d) ga parents child rng = .ok out := by
  unfold crossover at h ⊢
  split
  · next htaken =>
    rw [if_pos htaken] at h
    by_cases hz : ga.testPoly.length = 0
    · simp [hz] at h
    · simp only [hz, if_false] at h ⊢
      split at h
      · exact absurd h (by simp)
      · next nodes1 h1 =>
        split at h
        · exact absurd h (by simp)
        · next nodes2 h2 =>
          rw [fillLoop_fuel_add _ _ _ _ _ _ _ _ h2 d]
          exact h
  · next htaken =>
    rw [if_neg htaken] at h
    exact h

theorem crossover_ok_perm (RAND_MAX fuel : Nat) (ga : GeneticAlgorithm R)
    (parents : Route × Route) (rng : Rng) (child : Route) (rng' : Rng)
    (hnd : ga.testPoly.Nodup) (hnn : none ∉ ga.testPoly)
    (hA : parents.1.nodes.Perm ga.testPoly) (hB : parents.2.nodes.Perm ga.testPoly)
    (h : crossover RAND_MAX fuel ga parents ⟨[]⟩ rng = .ok (child, rng')) :
    child.nodes.Perm ga.testPoly := by
  by_cases htaken : unitDraw RAND_MAX (rand rng).1 < ga.crossoverChance
  · by_cases hz : ga.testPoly.length = 0
    · unfold crossover at h
      simp [htaken, hz] at h
    · have h' := crossover_fuel_add RAND_MAX fuel ga parents ⟨[]⟩ rng _ h ga.testPoly.length
      obtain ⟨_, _, nodes, he, _, _, hperm⟩ :=
        crossover_ordered RAND_MAX (fuel + ga.testPoly.length) ga parents rng htaken
          (by omega) hnd hnn hA hB (by omega) _ _ rfl rfl
      rw [h'] at he
      simp only [Except.ok.injEq, Prod.mk.injEq] at he
      rw [he.1]
      exact hperm
  · unfold crossover at h
    rw [if_neg htaken] at h
    simp only [Except.ok.injEq, Prod.mk.injEq] at h
    rw [← h.1]
    exact hA

theorem index_ok_lt {α : Type} (v : List α) (i : Nat) (a : α) (h : index v i = .ok a) :
    ∃ hi : i < v.length, v[i] = a := by
  unfold index at h
  split at h
  · next b hb =>
    obtain ⟨hi, he⟩ := List.getElem?_eq_some_iff.mp hb
    simp only [Except.ok.injEq] at h
    exact ⟨hi, he.trans h⟩
  · exact absurd h (by simp)

theorem swapAt_ok_perm (v : List NodePtr) (i j : Nat) (out : List NodePtr)
    (h : swapAt v i j = .ok out) : out.Perm v := by
  unfold swapAt at h
  split at h
  · exact absurd h (by simp)
  · next a ha =>
    split at h
    · exact absurd h (by simp)
    · next b hb =>
      obtain ⟨hi, rfl⟩ := index_ok_lt v i a ha
      obtain ⟨hj, rfl⟩ := index_ok_lt v j b hb
      simp only [Except.ok.injEq] at h
      rw [← h]
      exact set_set_perm v i j hi hj

theorem mutate_ok_perm (RAND_MAX : Nat) (ga : GeneticAlgorithm R) (child : Route) (rng : Rng)
    (child' : Route) (rng' : Rng) (h : mutate RAND_MAX ga child rng = .ok (child', rng')) :
    child'.nodes.Perm child.nodes := by
  unfold mutate at h
  split at h
  · by_cases hz : ga.testPoly.length = 0
    · simp [hz] at h
    · simp only [hz, if_false] at h
      split at h
      · exact absurd h (by simp)
      · next nodes hs =>
        simp only [Except.ok.injEq, Prod.mk.injEq] at h
        rw [← h.1]
        exact swapAt_ok_perm _ _ _ _ hs
  · simp only [Except.ok.injEq, Prod.mk.injEq] at h
    rw [← h.1]

theorem generationLoop_spec (RAND_MAX : Nat) (sqrt : R → R) (mem : Nat → Node R) (fuel : Nat) :
    ∀ (k : Nat) (ga : GeneticAlgorithm R) (rng : Rng) (ga' : GeneticAlgorithm R) (rng' : Rng),
      generationLoop RAND_MAX sqrt mem fuel k ga rng = .ok (ga', rng') →
      ga'.nextGen.population.length = ga'.currGen.population.length ∧
      ga'.currGen = ga.currGen ∧ ga'.testPoly = ga.testPoly ∧
      ∃ appended, ga'.nextGen.population = ga.nextGen.population ++ appended ∧
        (ga.testPoly.Nodup → none ∉ ga.testPoly →
          (∀ r ∈ ga.currGen.population, r.nodes.Perm ga.testPoly) →
          ga.currChild.nodes = [] →
          (∀ r ∈ appended, r.nodes.Perm ga.testPoly) ∧ ga'.currChild.nodes = [])
  | 0, ga, rng, ga', rng', h => by
    unfold generationLoop at h
    split at h
    · exact absurd h (by simp)
    · next hsize =>
      simp only [Except.ok.injEq, Prod.mk.injEq] at h
      obtain ⟨rfl, _⟩ := h
      exact ⟨not_not.mp hsize, rfl, rfl, [], by simp, fun _ _ _ hc => ⟨by simp, hc⟩⟩
  | k + 1, ga, rng, ga', rng', h => by
    unfold generationLoop at h
    split at h
    · split at h
      · exact absurd h (by simp)
      · next parents rng1 hsel =>
        split at h
        · exact absurd h (by simp)
        · next child rng2 hcross =>
          split at h
          · exact absurd h (by simp)
          · next child' rng3 hmut =>
            obtain ⟨hlen, hcur, hpoly, appended, happ, hinv⟩ :=
              generationLoop_spec RAND_MAX sqrt mem fuel k _ rng3 ga' rng' h
            refine ⟨hlen, hcur, hpoly, child' :: appended, ?_, ?_⟩
            · rw [happ]; simp
            · intro hnd hnn hgood hchild
              have hsound := selection_sound RAND_MAX sqrt mem fuel ga.currGen ga.currParents
                rng parents rng1 hsel
              have hempty : ga.currChild = ⟨[]⟩ := by
                cases hc : ga.currChild
                rw [hc] at hchild
                simp only at hchild
                rw [hchild]
              rw [hempty] at hcross
              have hcperm := crossover_ok_perm RAND_MAX fuel ga parents rng1 child rng2 hnd hnn
                (hgood _ hsound.1) (hgood _ hsound.2.1) hcross
              have hmperm := mutate_ok_perm RAND_MAX ga child rng2 child' rng3 hmut
              obtain ⟨hall, hc'⟩ := hinv hnd hnn hgood rfl
              refine ⟨?_, hc'⟩
              intro r hr
              rcases List.mem_cons.mp hr with rfl | hr
              · exact hmperm.trans hcperm
              · exact hall r hr
    · next hsize =>
      simp only [Except.ok.injEq, Prod.mk.injEq] at h
      obtain ⟨rfl, _⟩ := h
      exact ⟨not_not.mp hsize, rfl, rfl, [], by simp, fun _ _ _ hc => ⟨by simp, hc⟩⟩

theorem generationStep_spec (RAND_MAX : Nat) (sqrt : R → R) (mem : Nat → Node R) (fuel : Nat)
    (ga : GeneticAlgorithm R) (rng : Rng) (ga' : GeneticAlgorithm R) (rng' : Rng)
    (h : generationStep RAND_MAX sqrt mem fuel ga rng = .ok (ga', rng')) :
    ga'.currGen.population.length = ga.currGen.population.length ∧
    ga'.nextGen.population = [] ∧ ga'.testPoly = ga.testPoly ∧
    ∃ appended, ga'.currGen.population = ga.nextGen.population ++ appended ∧
      (ga.testPoly.Nodup → none ∉ ga.testPoly →
        (∀ r ∈ ga.currGen.population, r.nodes.Perm ga.testPoly) →
        ga.currChild.nodes = [] →
        (∀ r ∈ appended, r.nodes.Perm ga.testPoly) ∧ ga'.currChild.nodes = []) := by
  unfold generationStep at h
  split at h
  · exact absurd h (by simp)
  · next ga1 rng1 hloop =>
    simp only [Except.ok.injEq, Prod.mk.injEq] at h
    obtain ⟨rfl, _⟩ := h
    obtain ⟨hlen, hcur, hpoly, appended, happ, hinv⟩ :=
      generationLoop_spec RAND_MAX sqrt mem fuel fuel _ rng ga1 rng1 hloop
    refine ⟨?_, rfl, hpoly, appended, happ, hinv⟩
    simp only
    rw [hlen, hcur]

end GenerationLemmas

section StepExample

theorem crossover_of_not_taken {R : Type} [LinearOrderedField R] (RAND_MAX fuel : Nat)
    (ga : GeneticAlgorithm R) (parents : Route × Route) (child : Route) (rng : Rng)
    (h : ¬ unitDraw RAND_MAX (rand rng).1 < ga.crossoverChance) :
    crossover RAND_MAX fuel ga parents child rng = .ok (parents.1, (rand rng).2) := by
  unfold crossover
  rw [if_neg h]

theorem mutate_of_not_taken {R : Type} [LinearOrderedField R] (RAND_MAX : Nat)
    (ga : GeneticAlgorithm R) (child : Route) (rng : Rng)
    (h : ¬ unitDraw RAND_MAX (rand rng).1 < ga.mutationChance) :
    mutate RAND_MAX ga child rng = .ok (child, (rand rng).2) := by
  unfold mutate
  rw [if_neg h]

theorem generationLoop_done {R : Type} [LinearOrderedField R] (RAND_MAX : Nat) (sqrt : R → R)
    (mem : Nat → Node R) (fuel k : Nat) (ga : GeneticAlgorithm R) (rng : Rng)
    (hsize : ga.nextGen.population.length = ga.currGen.population.length) :
    generationLoop RAND_MAX sqrt mem fuel k ga rng = .ok (ga, rng) := by
  cases k <;> simp [generationLoop, hsize]

theorem generationLoop_round {R : Type} [LinearOrderedField R] (RAND_MAX : Nat) (sqrt : R → R)
    (mem : Nat → Node R) (fuel k : Nat) (ga : GeneticAlgorithm R) (rng : Rng)
    (parents : Route × Route) (rng1 : Rng) (child : Route) (rng2 : Rng) (child' : Route)
    (rng3 : Rng)
    (hsize : ga.nextGen.population.length ≠ ga.currGen.population.length)
    (hsel : selection RAND_MAX sqrt mem fuel ga.currGen ga.currParents rng = .ok (parents, rng1))
    (hcross : crossover RAND_MAX fuel ga parents ga.currChild rng1 = .ok (child, rng2))
    (hmut : mutate RAND_MAX ga child rng2 = .ok (child', rng3)) :
    generationLoop RAND_MAX sqrt mem fuel (k + 1) ga rng
      = generationLoop RAND_MAX sqrt mem fuel k
          { ga with
            nextGen := ⟨ga.nextGen.population ++ [child']⟩
            currParents := (⟨[]⟩, ⟨[]⟩)
            currChild := ⟨[]⟩ }
          rng3 := by
  rw [generationLoop, if_pos hsize]
  simp only [hsel, hcross, hmut]

theorem square_crossover_of_draws (ga : GeneticAlgorithm ℝ) (hpoly : ga.testPoly = squarePoly)
    (hc : ga.crossoverChance = 3 / 10) (rng : Rng)
    (h0 : (rand rng).1 = 0) (h1 : (rand (rand rng).2).1 = 1)
    (h2 : (rand (rand (rand rng).2).2).1 = 1) :
    crossover 32767 4 ga (⟨squarePoly⟩, squareRoute2) ⟨[]⟩ rng
      = .ok (⟨[some 3, some 1, some 2, some 0]⟩, (rand (rand (rand rng).2).2).2) := by
  unfold crossover
  rw [if_pos (by rw [h0, hc]; simp [unitDraw])]
  simp only [hpoly, h1, h2]
  rfl

theorem square_mutate_of_draws (ga : GeneticAlgorithm ℝ) (hpoly : ga.testPoly = squarePoly)
    (hc : ga.mutationChance = 1 / 20) (rng : Rng)
    (h0 : (rand rng).1 = 0) (h1 : (rand (rand rng).2).1 = 2)
    (h2 : (rand (rand (rand rng).2).2).1 = 3) :
    mutate 32767 ga ⟨squarePoly⟩ rng
      = .ok (⟨[some 0, some 2, some 1, some 3]⟩, (rand (rand (rand rng).2).2).2) := by
  unfold mutate
  rw [if_pos (by rw [h0, hc]; simp [unitDraw])]
  simp only [hpoly, h1, h2]
  rfl

theorem unitDraw_max_not_lt (x : ℝ) (hx : x ≤ 1) : ¬ (unitDraw 32767 32767 : ℝ) < x := by
  have : (unitDraw 32767 32767 : ℝ) = 1 := by simp [unitDraw]
  rw [this]
  exact not_lt.mpr hx

theorem squareState_step :
    ∃ ga' rng', generationStep 32767 Real.sqrt (squareMem ℝ) 4 (squareState ℝ) (tape stepDraws)
        = .ok (ga', rng') ∧
      ga'.currGen.population
        = [⟨[some 3, some 1, some 2, some 0]⟩, ⟨[some 0, some 2, some 1, some 3]⟩] := by
  have hc : (3 / 10 : ℝ) ≤ 1 := by norm_num
  have hm : (1 / 20 : ℝ) ≤ 1 := by norm_num
  have hloop : ∃ ga1 rng1, generationLoop 32767 Real.sqrt (squareMem ℝ) 4 4
        { squareState ℝ with iteration := (squareState ℝ).iteration + 1 } (tape stepDraws)
        = .ok (ga1, rng1) ∧
      ga1.nextGen.population
        = [⟨[some 3, some 1, some 2, some 0]⟩, ⟨[some 0, some 2, some 1, some 3]⟩] := by
    refine ⟨?ga1, ?rng1, ?h1, ?h2⟩
    case h1 =>
      refine (generationLoop_round _ _ _ _ _ _ _ (⟨squarePoly⟩, squareRoute2) ?r1
        ⟨[some 3, some 1, some 2, some 0]⟩ ?r2 ⟨[some 3, some 1, some 2, some 0]⟩ ?r3
        ?hsize ?hsel ?hcross ?hmut).trans ?rest
      case hsize => decide
      case hsel => refine squareGen_selection_of_draws _ _ ?_ ?_ ?_ ?_ <;> rfl
      case hcross => refine square_crossover_of_draws _ ?_ ?_ _ ?_ ?_ ?_ <;> rfl
      case hmut =>
        refine mutate_of_not_taken (R := ℝ) _ _ _ _ ?_
        exact unitDraw_max_not_lt _ hm
      case rest =>
        refine (generationLoop_round _ _ _ _ _ _ _ (⟨squarePoly⟩, squareRoute2) ?s1
          ⟨squarePoly⟩ ?s2 ⟨[some 0, some 2, some 1, some 3]⟩ ?s3
          ?gsize ?gsel ?gcross ?gmut).trans ?grest
        case gsize => decide
        case gsel => refine squareGen_selection_of_draws _ _ ?_ ?_ ?_ ?_ <;> rfl
        case gcross =>
          refine crossover_of_not_taken (R := ℝ) _ _ _ _ _ _ ?_
          exact unitDraw_max_not_lt _ hc
        case gmut => refine square_mutate_of_draws _ ?_ ?_ _ ?_ ?_ ?_ <;> rfl
        case grest =>
          refine generationLoop_done (R := ℝ) _ _ _ _ _ _ _ ?_
          decide
    case h2 => rfl
  obtain ⟨ga1, rng1, h1, h2⟩ := hloop
  unfold generationStep
  rw [h1]
  exact ⟨_, _, rfl, h2⟩

end StepExample

/-! ## The claims -/

section Claims

variable {R : Type} [LinearOrderedField R]

/-- C1: for a polygon of `n ≥ 1` distinct non-null vertices, parents whose node lists are both
permutations of its vertices, every state of the generator and a child whose node list is
empty on entry, `crossover` returns (its loop needs at most `n` rounds) and leaves in the
child a permutation of the vertex set: length `n`, no duplicate, no missing vertex, no null
slot. -/
theorem crossover_child_is_permutation (RAND_MAX fuel : Nat) (ga : GeneticAlgorithm R)
    (parents : Route × Route) (rng : Rng)
    (hn : 1 ≤ ga.testPoly.length) (hnd : ga.testPoly.Nodup) (hnn : none ∉ ga.testPoly)
    (hA : parents.1.nodes.Perm ga.testPoly) (hB : parents.2.nodes.Perm ga.testPoly)
    (hfuel : ga.testPoly.length ≤ fuel) :
    ∃ child rng', crossover RAND_MAX fuel ga parents ⟨[]⟩ rng = .ok (child, rng') ∧
      child.nodes.Perm ga.testPoly ∧ child.nodes.length = ga.testPoly.length ∧
      child.nodes.Nodup ∧ (∀ v ∈ ga.testPoly, v ∈ child.nodes) ∧ none ∉ child.nodes := by
  have key : ∃ child rng', crossover RAND_MAX fuel ga parents ⟨[]⟩ rng = .ok (child, rng') ∧
      child.nodes.Perm ga.testPoly := by
    by_cases htaken : unitDraw RAND_MAX (rand rng).1 < ga.crossoverChance
    · obtain ⟨_, _, nodes, he, _, _, hperm⟩ :=
        crossover_ordered RAND_MAX fuel ga parents rng htaken hn hnd hnn hA hB hfuel _ _ rfl rfl
      exact ⟨⟨nodes⟩, _, he, hperm⟩
    · refine ⟨parents.1, (rand rng).2, ?_, hA⟩
      unfold crossover
      rw [if_neg htaken]
  obtain ⟨child, rng', he, hperm⟩ := key
  exact ⟨child, rng', he, hperm, hperm.length_eq, hperm.nodup_iff.mpr hnd,
    fun v hv => hperm.mem_iff.mpr hv, fun h => hnn (hperm.mem_iff.mp h)⟩

/-- C1, at a concrete input: the four-vertex polygon, the parents `[p0,p1,p2,p3]` and
`[p3,p2,p1,p0]`, the draws `0, 1, 1`. -/
theorem crossover_child_is_permutation_witness :
    (1 ≤ (squareEngine ℝ).testPoly.length ∧ (squareEngine ℝ).testPoly.Nodup ∧
      none ∉ (squareEngine ℝ).testPoly ∧
      (Route.mk squarePoly, squareRouteRev).1.nodes.Perm (squareEngine ℝ).testPoly ∧
      (Route.mk squarePoly, squareRouteRev).2.nodes.Perm (squareEngine ℝ).testPoly ∧
      (squareEngine ℝ).testPoly.length ≤ 4) ∧
    ∃ child rng', crossover 32767 4 (squareEngine ℝ) (⟨squarePoly⟩, squareRouteRev) ⟨[]⟩
        (tape [0, 1, 1]) = .ok (child, rng') ∧
      child.nodes.Perm (squareEngine ℝ).testPoly ∧
      child.nodes.length = (squareEngine ℝ).testPoly.length ∧
      child.nodes.Nodup ∧ (∀ v ∈ (squareEngine ℝ).testPoly, v ∈ child.nodes) ∧
      none ∉ child.nodes :=
  ⟨⟨by decide, by decide, by decide, by decide, by decide, by decide⟩,
    crossover_child_is_permutation 32767 4 (squareEngine ℝ) (⟨squarePoly⟩, squareRouteRev)
      (tape [0, 1, 1]) (by decide) (by decide) (by decide) (by decide) (by decide)
      (by decide)⟩

/-- C5: when the ordered-crossover branch is taken, with `lo ≤ hi` the smaller and the larger
of the two indices drawn (parents permutations of the polygon's `n ≥ 1` distinct non-null
vertices, child empty on entry), `crossover` returns a child of length `n` with
`child[i] = parentA[i]` for every `lo ≤ i ≤ hi`, whose other `n - (hi - lo + 1)` positions,
read cyclically from `(hi + 1) mod n`, hold parentB's nodes read cyclically from
`(hi + 1) mod n` with the nodes of parentA's block left out, in that order. -/
theorem crossover_matches_ordered_crossover (RAND_MAX fuel : Nat) (ga : GeneticAlgorithm R)
    (parents : Route × Route) (rng : Rng)
    (htaken : unitDraw RAND_MAX (rand rng).1 < ga.crossoverChance)
    (hn : 1 ≤ ga.testPoly.length) (hnd : ga.testPoly.Nodup) (hnn : none ∉ ga.testPoly)
    (hA : parents.1.nodes.Perm ga.testPoly) (hB : parents.2.nodes.Perm ga.testPoly)
    (hfuel : ga.testPoly.length ≤ fuel) (lo hi : Nat)
    (hlo : lo = min
      (randIndices ga.testPoly.length (rand (rand rng).2).1 (rand (rand (rand rng).2).2).1).1
      (randIndices ga.testPoly.length (rand (rand rng).2).1 (rand (rand (rand rng).2).2).1).2)
    (hhi : hi = max
      (randIndices ga.testPoly.length (rand (rand rng).2).1 (rand (rand (rand rng).2).2).1).1
      (randIndices ga.testPoly.length (rand (rand rng).2).1 (rand (rand (rand rng).2).2).1).2) :
    lo ≤ hi ∧ hi < ga.testPoly.length ∧
    ∃ child rng', crossover RAND_MAX fuel ga parents ⟨[]⟩ rng = .ok (child, rng') ∧
      child.nodes.length = ga.testPoly.length ∧
      (∀ i, lo ≤ i → i ≤ hi → child.nodes[i]? = parents.1.nodes[i]?) ∧
      (child.nodes.rotate ((hi + 1) % ga.testPoly.length)).take
          (ga.testPoly.length - (hi - lo + 1))
        = (parents.2.nodes.rotate ((hi + 1) % ga.testPoly.length)).filter
            (fun g => decide (g ∉ (parents.1.nodes.drop lo).take (hi + 1 - lo))) := by
  obtain ⟨hlohi, hhin, nodes, he, hlen, hrot, _⟩ :=
    crossover_ordered RAND_MAX fuel ga parents rng htaken hn hnd hnn hA hB hfuel lo hi hlo hhi
  refine ⟨hlohi, hhin, ⟨nodes⟩, _, he, hlen, ?_, ?_⟩
  · exact block_of_rotate_eq nodes _ parents.1.nodes ga.testPoly.length lo hi hlohi hhin hlen
      hA.length_eq hrot
  · have hblen : ((parents.1.nodes.drop lo).take (hi + 1 - lo)).length = hi + 1 - lo := by
      rw [List.length_take, List.length_drop, hA.length_eq]; omega
    have hF := congrArg List.length hrot
    rw [List.length_rotate, List.length_append, hblen, hlen] at hF
    simp only [hrot]
    rw [List.take_append_of_le_length (by omega), List.take_of_length_le (by omega)]

/-- C5, at the input of the claim: `n = 4`, `A = [p0,p1,p2,p3]`, `B = [p3,p2,p1,p0]`, and the
draws `0, 1, 1`, which take the branch with `lo = 1` and `hi = 2`; the child is
`[p3,p1,p2,p0]`. -/
theorem crossover_matches_ordered_crossover_witness :
    crossover 32767 4 (squareEngine ℝ) (⟨squarePoly⟩, squareRouteRev) ⟨[]⟩ (tape [0, 1, 1])
      = .ok (⟨[some 3, some 1, some 2, some 0]⟩, (rand (rand (rand (tape [0, 1, 1])).2).2).2) ∧
    (1 ≤ 2 ∧ 2 < (squareEngine ℝ).testPoly.length ∧
    ∃ child rng', crossover 32767 4 (squareEngine ℝ) (⟨squarePoly⟩, squareRouteRev) ⟨[]⟩
        (tape [0, 1, 1]) = .ok (child, rng') ∧
      child.nodes.length = (squareEngine ℝ).testPoly.length ∧
      (∀ i, 1 ≤ i → i ≤ 2 → child.nodes[i]? = (Route.mk squarePoly, squareRouteRev).1.nodes[i]?) ∧
      (child.nodes.rotate ((2 + 1) % (squareEngine ℝ).testPoly.length)).take
          ((squareEngine ℝ).testPoly.length - (2 - 1 + 1))
        = ((Route.mk squarePoly, squareRouteRev).2.nodes.rotate
            ((2 + 1) % (squareEngine ℝ).testPoly.length)).filter
            (fun g => decide (g ∉ ((Route.mk squarePoly, squareRouteRev).1.nodes.drop 1).take
              (2 + 1 - 1)))) :=
  ⟨squareEngine_crossover,
    crossover_matches_ordered_crossover 32767 4 (squareEngine ℝ) (⟨squarePoly⟩, squareRouteRev)
      (tape [0, 1, 1]) squareEngine_draw_taken (by decide) (by decide) (by decide) (by decide)
      (by decide) (by decide) 1 2 (by decide) (by decide)⟩

/-- C2: the Route invariant is preserved by a generation step.  For a polygon of distinct
non-null vertices, if every route of the current generation is a permutation of the polygon's
vertices and the step is entered, as after construction and after every earlier step, with
an empty `currChild`, then whenever the step returns, every route the loop has appended to
the next generation (the new current generation is the old `nextGen` followed by them) is a
permutation of the polygon's vertices; `currChild` is empty again. -/
theorem generation_step_preserves_route_invariant (RAND_MAX : Nat) (sqrt : R → R)
    (mem : Nat → Node R) (fuel : Nat) (ga : GeneticAlgorithm R) (rng : Rng)
    (ga' : GeneticAlgorithm R) (rng' : Rng)
    (hnd : ga.testPoly.Nodup) (hnn : none ∉ ga.testPoly)
    (hcur : ∀ r ∈ ga.currGen.population, r.nodes.Perm ga.testPoly)
    (hchild : ga.currChild.nodes = [])
    (hstep : generationStep RAND_MAX sqrt mem fuel ga rng = .ok (ga', rng')) :
    ga'.testPoly = ga.testPoly ∧ ga'.currChild.nodes = [] ∧
    ∃ appended, ga'.currGen.population = ga.nextGen.population ++ appended ∧
      ∀ r ∈ appended, r.nodes.Perm ga.testPoly := by
  obtain ⟨_, _, hpoly, appended, happ, hinv⟩ :=
    generationStep_spec RAND_MAX sqrt mem fuel ga rng ga' rng' hstep
  obtain ⟨hall, hc⟩ := hinv hnd hnn hcur hchild
  exact ⟨hpoly, hc, appended, happ, hall⟩

/-- C2, at a concrete input: a step over two routes round the unit square; the first child
comes from ordered crossover, the second from a copy followed by a swap. -/
theorem generation_step_preserves_route_invariant_witness :
    ((squareState ℝ).testPoly.Nodup ∧ none ∉ (squareState ℝ).testPoly ∧
      (∀ r ∈ (squareState ℝ).currGen.population, r.nodes.Perm (squareState ℝ).testPoly) ∧
      (squareState ℝ).currChild.nodes = []) ∧
    ∃ ga' rng', generationStep 32767 Real.sqrt (squareMem ℝ) 4 (squareState ℝ) (tape stepDraws)
        = .ok (ga', rng') ∧
      ga'.currGen.population
        = [⟨[some 3, some 1, some 2, some 0]⟩, ⟨[some 0, some 2, some 1, some 3]⟩] ∧
      (ga'.testPoly = (squareState ℝ).testPoly ∧ ga'.currChild.nodes = [] ∧
        ∃ appended,
          ga'.currGen.population = (squareState ℝ).nextGen.population ++ appended ∧
          ∀ r ∈ appended, r.nodes.Perm (squareState ℝ).testPoly) := by
  have h1 : (squareState ℝ).testPoly.Nodup := by decide
  have h2 : none ∉ (squareState ℝ).testPoly := by decide
  have h3 : ∀ r ∈ (squareState ℝ).currGen.population,
      r.nodes.Perm (squareState ℝ).testPoly := by decide
  have h4 : (squareState ℝ).currChild.nodes = [] := rfl
  obtain ⟨ga', rng', hstep, hpop⟩ := squareState_step
  exact ⟨⟨h1, h2, h3, h4⟩, ga', rng', hstep, hpop,
    generation_step_preserves_route_invariant 32767 Real.sqrt (squareMem ℝ) 4 (squareState ℝ)
      (tape stepDraws) ga' rng' h1 h2 h3 h4 hstep⟩

/-- C3: whenever the generation step of `OnUserUpdate` returns, the population that replaces
the current one has exactly as many routes as the current one had, `nextGen` is empty
afterwards, and the new population is the old `nextGen` (empty when the step is entered)
followed by the children appended one per round of the loop. -/
theorem generation_step_keeps_population_size (RAND_MAX : Nat) (sqrt : R → R)
    (mem : Nat → Node R) (fuel : Nat) (ga : GeneticAlgorithm R) (rng : Rng)
    (ga' : GeneticAlgorithm R) (rng' : Rng)
    (hstep : generationStep RAND_MAX sqrt mem fuel ga rng = .ok (ga', rng')) :
    ga'.currGen.population.length = ga.currGen.population.length ∧
    ga'.nextGen.population = [] ∧
    ∃ appended, ga'.currGen.population = ga.nextGen.population ++ appended ∧
      ga.nextGen.population.length + appended.length = ga.currGen.population.length := by
  obtain ⟨hlen, hnext, _, appended, happ, _⟩ :=
    generationStep_spec RAND_MAX sqrt mem fuel ga rng ga' rng' hstep
  refine ⟨hlen, hnext, appended, happ, ?_⟩
  rw [← hlen, happ, List.length_append]

/-- C3, at a concrete input: a step over a generation of two routes returns a generation of
two routes. -/
theorem generation_step_keeps_population_size_witness :
    ∃ ga' rng', generationStep 32767 Real.sqrt (squareMem ℝ) 4 (squareState ℝ) (tape stepDraws)
        = .ok (ga', rng') ∧
      (ga'.currGen.population.length = (squareState ℝ).currGen.population.length ∧
        ga'.nextGen.population = [] ∧
        ∃ appended,
          ga'.currGen.population = (squareState ℝ).nextGen.population ++ appended ∧
          (squareState ℝ).nextGen.population.length + appended.length
            = (squareState ℝ).currGen.population.length) := by
  obtain ⟨ga', rng', hstep, _⟩ := squareState_step
  exact ⟨ga', rng', hstep,
    generation_step_keeps_population_size 32767 Real.sqrt (squareMem ℝ) 4 (squareState ℝ)
      (tape stepDraws) ga' rng' hstep⟩

/-- C4: whenever `selection` returns, for every generation, every previous content of
`parents` and every state of the generator, both routes it stores in `parents` are elements
of `gen.population`, and the node sequence of the second differs from that of the first. -/
theorem selection_returns_two_distinct_members (RAND_MAX : Nat) (sqrt : R → R)
    (mem : Nat → Node R) (fuel : Nat) (gen : Generation) (parents : Route × Route) (rng : Rng)
    (out : Route × Route) (rng' : Rng)
    (h : selection RAND_MAX sqrt mem fuel gen parents rng = .ok (out, rng')) :
    out.1 ∈ gen.population ∧ out.2 ∈ gen.population ∧ out.2.nodes ≠ out.1.nodes :=
  selection_sound RAND_MAX sqrt mem fuel gen parents rng out rng' h

/-- C4, at a concrete input: two routes round the unit square, both of fitness `1/4`, under
the draws `0, RAND_MAX, 0, 0`; selection returns the first and the second route. -/
theorem selection_returns_two_distinct_members_witness :
    selection 32767 Real.sqrt (squareMem ℝ) 4 squareGen (⟨[]⟩, ⟨[]⟩) (tape [0, 32767, 0, 0])
      = .ok ((⟨squarePoly⟩, squareRoute2),
          (rand (rand (rand (rand (tape [0, 32767, 0, 0])).2).2).2).2) ∧
    (Route.mk squarePoly ∈ squareGen.population ∧ squareRoute2 ∈ squareGen.population ∧
      squareRoute2.nodes ≠ (Route.mk squarePoly).nodes) :=
  ⟨squareGen_selection,
    selection_returns_two_distinct_members 32767 Real.sqrt (squareMem ℝ) 4 squareGen
      (⟨[]⟩, ⟨[]⟩) (tape [0, 32767, 0, 0]) (⟨squarePoly⟩, squareRoute2) _ squareGen_selection⟩

/-- C7: with `crossoverChance = 0`, for every pair of parents, every child passed in and every
state of the generator, `crossover` returns with the child an exact copy of the first parent
(the ordered-crossover branch is not taken); one draw is consumed. -/
theorem crossover_chance_zero (RAND_MAX fuel : Nat) (ga : GeneticAlgorithm R)
    (parents : Route × Route) (child : Route) (rng : Rng) :
    crossover RAND_MAX fuel { ga with crossoverChance := 0 } parents child rng
      = .ok (parents.1, (rand rng).2) := by
  unfold crossover
  exact if_neg (not_lt.mpr (unitDraw_nonneg RAND_MAX _))

/-- C8: with `mutationChance = 0`, for every route and every state of the generator, `mutate`
returns and leaves the route's node sequence exactly as it was; one draw is consumed. -/
theorem mutate_chance_zero (RAND_MAX : Nat) (ga : GeneticAlgorithm R) (child : Route)
    (rng : Rng) :
    mutate RAND_MAX { ga with mutationChance := 0 } child rng = .ok (child, (rand rng).2) := by
  unfold mutate
  exact if_neg (not_lt.mpr (unitDraw_nonneg RAND_MAX _))

/-- C6: for a route whose node list has the polygon's length `n ≥ 1` and every state of the
generator, `mutate` returns a route that is the input with the entries at two positions
`i, j < n` exchanged (the input itself when `i = j`); its length is the same and its node list
is a permutation of the input's, so the multiset of nodes is unchanged. -/
theorem mutate_exchanges_two_positions (RAND_MAX : Nat) (ga : GeneticAlgorithm R)
    (child : Route) (rng : Rng) (hn : 1 ≤ ga.testPoly.length)
    (hlen : child.nodes.length = ga.testPoly.length) :
    ∃ child' rng' i j, mutate RAND_MAX ga child rng = .ok (child', rng') ∧
      i < ga.testPoly.length ∧ j < ga.testPoly.length ∧
      child'.nodes[i]? = child.nodes[j]? ∧ child'.nodes[j]? = child.nodes[i]? ∧
      (∀ q, q ≠ i → q ≠ j → child'.nodes[q]? = child.nodes[q]?) ∧
      (i = j → child' = child) ∧
      child'.nodes.length = child.nodes.length ∧
      child'.nodes.Perm child.nodes := by
  unfold mutate
  split
  · have hne : ga.testPoly.length ≠ 0 := by omega
    simp only [hne, if_false]
    obtain ⟨i, hieq⟩ : ∃ i, (randIndices ga.testPoly.length (rand (rand rng).2).1
      (rand (rand (rand rng).2).2).1).1 = i := ⟨_, rfl⟩
    obtain ⟨j, hjeq⟩ : ∃ j, (randIndices ga.testPoly.length (rand (rand rng).2).1
      (rand (rand (rand rng).2).2).1).2 = j := ⟨_, rfl⟩
    have hi : i < child.nodes.length := by
      rw [← hieq, hlen]; exact randIndices_fst_lt _ _ _ (by omega)
    have hj : j < child.nodes.length := by
      rw [← hjeq, hlen]; exact randIndices_snd_lt _ _ _ (by omega)
    rw [hieq, hjeq]
    rw [swapAt_eq_ok child.nodes i j hi hj]
    refine ⟨_, _, i, j, rfl, hlen ▸ hi, hlen ▸ hj, ?_, ?_, ?_, ?_, ?_, ?_⟩
    · by_cases hij : i = j
      · subst hij; simp [List.getElem?_set, hi]
      · simp [List.getElem?_set, hi, hj, hij, Ne.symm hij, List.getElem?_eq_getElem]
    · simp [List.getElem?_set, hi, hj, List.getElem?_eq_getElem]
    · intro q hqi hqj
      simp [List.getElem?_set, Ne.symm hqi, Ne.symm hqj]
    · intro hij
      have : (child.nodes.set i child.nodes[j]).set j child.nodes[i] = child.nodes := by
        subst hij; simp [set_getElem_same _ _ hi]
      cases child; simp_all
    · simp
    · exact set_set_perm child.nodes i j hi hj
  · refine ⟨child, _, 0, 0, rfl, by omega, by omega, rfl, rfl, fun _ _ _ => rfl,
      fun _ => rfl, rfl, List.Perm.refl _⟩

/-- C6, at a concrete input: the four-vertex route under the draws `0, 2, 3`. -/
theorem mutate_exchanges_two_positions_witness :
    (1 ≤ (squareEngine ℝ).testPoly.length ∧
      (Route.mk squarePoly).nodes.length = (squareEngine ℝ).testPoly.length) ∧
    ∃ child' rng' i j, mutate 32767 (squareEngine ℝ) ⟨squarePoly⟩ (tape [0, 2, 3]) = .ok (child', rng') ∧
      i < (squareEngine ℝ).testPoly.length ∧ j < (squareEngine ℝ).testPoly.length ∧
      child'.nodes[i]? = (Route.mk squarePoly).nodes[j]? ∧
      child'.nodes[j]? = (Route.mk squarePoly).nodes[i]? ∧
      (∀ q, q ≠ i → q ≠ j → child'.nodes[q]? = (Route.mk squarePoly).nodes[q]?) ∧
      (i = j → child' = ⟨squarePoly⟩) ∧
      child'.nodes.length = (Route.mk squarePoly).nodes.length ∧
      child'.nodes.Perm (Route.mk squarePoly).nodes :=
  ⟨⟨by decide, by decide⟩,
    mutate_exchanges_two_positions 32767 (squareEngine ℝ) ⟨squarePoly⟩ (tape [0, 2, 3])
      (by decide) (by decide)⟩

/-- C9: for `n ≥ 1` and raw draws `a`, `b`, the indices `rand1 = a % n` and
`rand2 = (rand1 + b % n) % n` of `crossover` (`baseIndex` and `otherIndex` of `mutate`) lie
in `[0, n)` and depend on the residues of `a` and `b` only; `loindex = min` and
`hiindex = max` satisfy `loindex ≤ hiindex < n`; and the map from the pair of residues to
`(rand1, rand2)` is a bijection of `[0, n) × [0, n)`: every pair `(i1, i2)`, `i1 = i2`
included, arises from exactly one pair of residues. -/
theorem randIndices_bijection (n : Nat) (hn : 1 ≤ n) :
    (∀ a b, (randIndices n a b).1 < n ∧ (randIndices n a b).2 < n ∧
      randIndices n a b = randIndices n (a % n) (b % n) ∧
      min (randIndices n a b).1 (randIndices n a b).2
        ≤ max (randIndices n a b).1 (randIndices n a b).2 ∧
      max (randIndices n a b).1 (randIndices n a b).2 < n) ∧
    (∀ i1 i2, i1 < n → i2 < n →
      ∃! p : Nat × Nat, p.1 < n ∧ p.2 < n ∧ randIndices n p.1 p.2 = (i1, i2)) := by
  have hpos : 0 < n := hn
  refine ⟨fun a b => ?_, fun i1 i2 h1 h2 => ?_⟩
  · have h1 := randIndices_fst_lt n a b hpos
    have h2 := randIndices_snd_lt n a b hpos
    refine ⟨h1, h2, ?_, ?_, max_lt h1 h2⟩
    · simp [randIndices, Nat.mod_mod]
    · exact le_trans (min_le_left _ _) (le_max_left _ _)
  · by_cases hle : i1 ≤ i2
    · refine ⟨(i1, i2 - i1), ⟨h1, by simp only; omega, ?_⟩, ?_⟩
      · rw [randIndices_of_lt n i1 (i2 - i1) h1 (by omega)]
        simp only [Prod.mk.injEq, true_and]
        split <;> omega
      · rintro ⟨x, y⟩ ⟨hx, hy, he⟩
        simp only at hx hy
        rw [randIndices_of_lt n x y hx hy] at he
        simp only [Prod.mk.injEq] at he ⊢
        obtain ⟨rfl, he2⟩ := he
        refine ⟨rfl, ?_⟩
        split at he2 <;> omega
    · refine ⟨(i1, i2 + n - i1), ⟨h1, by simp only; omega, ?_⟩, ?_⟩
      · rw [randIndices_of_lt n i1 (i2 + n - i1) h1 (by omega)]
        simp only [Prod.mk.injEq, true_and]
        split <;> omega
      · rintro ⟨x, y⟩ ⟨hx, hy, he⟩
        simp only at hx hy
        rw [randIndices_of_lt n x y hx hy] at he
        simp only [Prod.mk.injEq] at he ⊢
        obtain ⟨rfl, he2⟩ := he
        refine ⟨rfl, ?_⟩
        split at he2 <;> omega

/-- C9, at the concrete vertex count `n = 4`. -/
theorem randIndices_bijection_witness :
    1 ≤ 4 ∧
    ((∀ a b, (randIndices 4 a b).1 < 4 ∧ (randIndices 4 a b).2 < 4 ∧
      randIndices 4 a b = randIndices 4 (a % 4) (b % 4) ∧
      min (randIndices 4 a b).1 (randIndices 4 a b).2
        ≤ max (randIndices 4 a b).1 (randIndices 4 a b).2 ∧
      max (randIndices 4 a b).1 (randIndices 4 a b).2 < 4) ∧
    (∀ i1 i2, i1 < 4 → i2 < 4 →
      ∃! p : Nat × Nat, p.1 < 4 ∧ p.2 < 4 ∧ randIndices 4 p.1 p.2 = (i1, i2))) :=
  ⟨by decide, randIndices_bijection 4 (by decide)⟩

/-- C10: for every route of non-null nodes, `fitness()` returns `1` divided by the sum, over
every position `i` of the node list, of the Euclidean distance between node `i` and node
`(i + 1) mod length` (distances over the exact reals), so the edge from the last node back
to the first is part of the sum; where that sum is zero the quotient `1.0f / 0.0f` is `+inf`;
and the route `(0,0), (1,0), (1,1), (0,1)` has total cyclic distance `4` and fitness
`0.25`. -/
theorem fitness_eq_inv_cyclic_distance :
    (∀ (mem : Nat → Node ℝ) (addrs : List Nat),
      Route.fitness Real.sqrt mem ⟨addrs.map some⟩
        = .ok (if (∑ i ∈ Finset.range addrs.length,
            Real.sqrt
              (((mem (addrs.getD ((i + 1) % addrs.length) 0)).x - (mem (addrs.getD i 0)).x) ^ 2
                + ((mem (addrs.getD ((i + 1) % addrs.length) 0)).y
                    - (mem (addrs.getD i 0)).y) ^ 2)) = 0
          then ⊤
          else ((1 / ∑ i ∈ Finset.range addrs.length,
            Real.sqrt
              (((mem (addrs.getD ((i + 1) % addrs.length) 0)).x - (mem (addrs.getD i 0)).x) ^ 2
                + ((mem (addrs.getD ((i + 1) % addrs.length) 0)).y
                    - (mem (addrs.getD i 0)).y) ^ 2) : ℝ) : WithTop ℝ))) ∧
    fitnessLoop Real.sqrt (squareMem ℝ) squarePoly 4 0 0 = .ok 4 ∧
    Route.fitness Real.sqrt (squareMem ℝ) ⟨squarePoly⟩ = .ok ((0.25 : ℝ) : WithTop ℝ) := by
  refine ⟨fun mem addrs => ?_, squarePoly_totDist, ?_⟩
  · unfold Route.fitness
    simp only [List.length_map]
    rw [fitnessLoop_eq_sum Real.sqrt mem addrs addrs.length 0 0 (by omega)]
    simp only [distance, zero_add, sq]
  · rw [squarePoly_fitness]
    norm_num

end Claims

/-! ## Random draws against a chance -/

section Draws

variable {R : Type} [LinearOrderedField R]

theorem unitDraw_self (RAND_MAX : Nat) (hM : 0 < RAND_MAX) :
    (unitDraw RAND_MAX RAND_MAX : R) = 1 := by
  have h : (RAND_MAX : R) ≠ 0 := Nat.cast_ne_zero.mpr (by omega)
  simp [unitDraw, h]

theorem unitDraw_le_one (RAND_MAX r : Nat) (hM : 0 < RAND_MAX) (hr : r ≤ RAND_MAX) :
    (unitDraw RAND_MAX r : R) ≤ 1 := by
  have h : (0 : R) < (RAND_MAX : R) := Nat.cast_pos.mpr hM
  unfold unitDraw
  rw [div_le_one h, Nat.cast_le]
  exact hr

/-- C13 fails as stated: the draw `rand() = RAND_MAX` gives the value `1`, which is not below
`1`; with `crossoverChance = 1` that draw makes `crossover` copy the first parent, and with
`mutationChance = 1` it makes `mutate` leave the route as it is. -/
theorem unit_draw_reaches_one :
    (unitDraw 32767 32767 : ℝ) = 1 ∧ ¬ (unitDraw 32767 32767 : ℝ) < 1 ∧
    crossover 32767 4 { squareEngine ℝ with crossoverChance := 1 }
        (⟨squarePoly⟩, squareRouteRev) ⟨[]⟩ (tape [32767, 1, 1])
      = .ok (⟨squarePoly⟩, (rand (tape [32767, 1, 1])).2) ∧
    mutate 32767 { squareEngine ℝ with mutationChance := 1 } ⟨squarePoly⟩ (tape [32767, 2, 3])
      = .ok (⟨squarePoly⟩, (rand (tape [32767, 2, 3])).2) := by
  have h1 : (unitDraw 32767 32767 : ℝ) = 1 := unitDraw_self 32767 (by decide)
  have h2 : ¬ (unitDraw 32767 32767 : ℝ) < 1 := by rw [h1]; exact lt_irrefl 1
  exact ⟨h1, h2, crossover_of_not_taken _ _ _ _ _ _ h2, mutate_of_not_taken _ _ _ _ h2⟩

/-- C13, amended: for `RAND_MAX > 0` and a raw draw `0 ≤ r ≤ RAND_MAX`, the quotient
`rand() / RAND_MAX` lies in the closed interval `[0, 1]`, and at the draw `RAND_MAX` it is
equal to `1`.  So with `crossoverChance = 1` the ordered-crossover branch is taken unless the
quotient is `1`, and on the draw `RAND_MAX` the first parent is copied; with
`mutationChance = 1` the swap is performed unless the quotient is `1`, and on the draw
`RAND_MAX` the route is left as it is. -/
theorem unit_draw_in_closed_interval (RAND_MAX r : Nat) (hM : 0 < RAND_MAX)
    (hr : r ≤ RAND_MAX) :
    (0 : R) ≤ unitDraw RAND_MAX r ∧ (unitDraw RAND_MAX r : R) ≤ 1 ∧
    (unitDraw RAND_MAX RAND_MAX : R) = 1 ∧
    (∀ (fuel : Nat) (ga : GeneticAlgorithm R) (parents : Route × Route) (child : Route)
        (rng : Rng), ga.crossoverChance = 1 → (rand rng).1 = r →
      ((unitDraw RAND_MAX (rand rng).1 < ga.crossoverChance
          ↔ (unitDraw RAND_MAX (rand rng).1 : R) ≠ 1) ∧
        (r = RAND_MAX →
          crossover RAND_MAX fuel ga parents child rng = .ok (parents.1, (rand rng).2)))) ∧
    (∀ (ga : GeneticAlgorithm R) (child : Route) (rng : Rng),
      ga.mutationChance = 1 → (rand rng).1 = r →
      ((unitDraw RAND_MAX (rand rng).1 < ga.mutationChance
          ↔ (unitDraw RAND_MAX (rand rng).1 : R) ≠ 1) ∧
        (r = RAND_MAX → mutate RAND_MAX ga child rng = .ok (child, (rand rng).2)))) := by
  have hle : (unitDraw RAND_MAX r : R) ≤ 1 := unitDraw_le_one RAND_MAX r hM hr
  have hone : (unitDraw RAND_MAX RAND_MAX : R) = 1 := unitDraw_self RAND_MAX hM
  refine ⟨unitDraw_nonneg RAND_MAX r, hle, hone, ?_, ?_⟩
  · intro fuel ga parents child rng hc hd
    refine ⟨?_, fun hmax => ?_⟩
    · rw [hc, hd]
      exact lt_iff_le_and_ne.trans (and_iff_right hle)
    · refine crossover_of_not_taken _ _ _ _ _ _ ?_
      rw [hc, hd, hmax, hone]
      exact lt_irrefl 1
  · intro ga child rng hc hd
    refine ⟨?_, fun hmax => ?_⟩
    · rw [hc, hd]
      exact lt_iff_le_and_ne.trans (and_iff_right hle)
    · refine mutate_of_not_taken _ _ _ _ ?_
      rw [hc, hd, hmax, hone]
      exact lt_irrefl 1

/-- C13 amended, at the concrete draw `r = 5` with `RAND_MAX = 32767`, over the reals. -/
theorem unit_draw_in_closed_interval_witness :
    (0 < 32767 ∧ 5 ≤ 32767) ∧
    ((0 : ℝ) ≤ unitDraw 32767 5 ∧ (unitDraw 32767 5 : ℝ) ≤ 1 ∧
      (unitDraw 32767 32767 : ℝ) = 1) := by
  have h := unit_draw_in_closed_interval (R := ℝ) 32767 5 (by decide) (by decide)
  exact ⟨⟨by decide, by decide⟩, h.1, h.2.1, h.2.2.1⟩

end Draws

/-! ## Selection on a population of equal routes -/

section EqualRoutes

variable {R : Type} [LinearOrderedField R]

/-- C16: if all routes of a population have the same node sequence (in particular if the
population has one route), then for every state of the generator no scan of the second loop
of `selection` with a first parent from the population sets `foundSecondParent`, so
`selection` does not return, whatever the number of scans allowed; and a generation step
over such a population that has to produce a child (the sizes of `nextGen` and `currGen`
differ, as they do on entry with a non-empty population) does not return either. -/
theorem selection_never_returns_on_equal_routes (RAND_MAX : Nat) (sqrt : R → R)
    (mem : Nat → Node R) (gen : Generation)
    (hsame : ∀ r1 ∈ gen.population, ∀ r2 ∈ gen.population, r1.nodes = r2.nodes) :
    (∀ (first : Route), first ∈ gen.population → ∀ (second : Route) (rng : Rng)
        (out : Route × Bool × Rng),
      secondScan RAND_MAX sqrt mem first gen.population second false rng = .ok out →
      out.2.1 = false) ∧
    (∀ (fuel : Nat) (parents : Route × Route) (rng : Rng),
      ∃ e, selection RAND_MAX sqrt mem fuel gen parents rng = .error e) ∧
    (∀ (fuel : Nat) (ga : GeneticAlgorithm R) (rng : Rng), ga.currGen = gen →
      ga.nextGen.population.length ≠ ga.currGen.population.length →
      ∃ e, generationStep RAND_MAX sqrt mem fuel ga rng = .error e) := by
  have hsel : ∀ (fuel : Nat) (parents : Route × Route) (rng : Rng),
      ∃ e, selection RAND_MAX sqrt mem fuel gen parents rng = .error e := by
    intro fuel parents rng
    cases h : selection RAND_MAX sqrt mem fuel gen parents rng with
    | error e => exact ⟨e, rfl⟩
    | ok out =>
      obtain ⟨out, rng'⟩ := out
      have hs := selection_sound RAND_MAX sqrt mem fuel gen parents rng out rng' h
      exact absurd (hsame _ hs.2.1 _ hs.1) hs.2.2
  refine ⟨?_, hsel, ?_⟩
  · intro first hfirst second rng out hout
    obtain ⟨second', found', rng'⟩ := out
    cases hf : found' with
    | false => rfl
    | true =>
      rcases secondScan_mem RAND_MAX sqrt mem first gen.population second false rng
        second' found' rng' hout hf with ⟨hm, hne⟩ | ⟨hc, _⟩
      · exact absurd (hsame _ hm _ hfirst) hne
      · exact absurd hc (by simp)
  · intro fuel ga rng hgen hsize
    unfold generationStep
    have hloop : ∃ e, generationLoop RAND_MAX sqrt mem fuel fuel
        { ga with iteration := ga.iteration + 1 } rng = .error e := by
      cases fuel with
      | zero =>
        refine ⟨.outOfFuel, ?_⟩
        unfold generationLoop
        exact if_pos hsize
      | succ k =>
        obtain ⟨e, he⟩ := hsel (k + 1) ga.currParents rng
        refine ⟨e, ?_⟩
        unfold generationLoop
        rw [if_pos hsize]
        simp only [hgen, he]
    obtain ⟨e, he⟩ := hloop
    exact ⟨e, by rw [he]⟩

/-- C16, at a population of size one. -/
theorem selection_never_returns_on_equal_routes_witness :
    (∀ r1 ∈ (Generation.mk [⟨squarePoly⟩]).population,
      ∀ r2 ∈ (Generation.mk [⟨squarePoly⟩]).population, r1.nodes = r2.nodes) ∧
    (∀ (fuel : Nat) (parents : Route × Route) (rng : Rng),
      ∃ e, selection 32767 Real.sqrt (squareMem ℝ) fuel ⟨[⟨squarePoly⟩]⟩ parents rng
        = .error e) := by
  have h : ∀ r1 ∈ (Generation.mk [⟨squarePoly⟩]).population,
      ∀ r2 ∈ (Generation.mk [⟨squarePoly⟩]).population, r1.nodes = r2.nodes := by
    intro r1 h1 r2 h2
    simp only [List.mem_singleton] at h1 h2
    rw [h1, h2]
  exact ⟨h, (selection_never_returns_on_equal_routes 32767 Real.sqrt (squareMem ℝ)
    ⟨[⟨squarePoly⟩]⟩ h).2.1⟩

end EqualRoutes

/-! ## The diagonal route over the unit square -/

section Diagonal

theorem diagRoute_totDist :
    fitnessLoop Real.sqrt (squareMem ℝ) diagRoute.nodes 4 0 0
      = .ok (2 + 2 * Real.sqrt 2) := by
  have hsq : diagRoute.nodes = [0, 2, 1, 3].map some := rfl
  rw [hsq, fitnessLoop_eq_sum Real.sqrt (squareMem ℝ) [0, 2, 1, 3] 4 0 0 (by decide)]
  simp [Finset.sum_range_succ, distance, squareMem]
  norm_num
  ring

theorem sqrt_two_bounds : (1.414 : ℝ) < Real.sqrt 2 ∧ Real.sqrt 2 < 1.4145 := by
  constructor
  · rw [Real.lt_sqrt (by norm_num)]
    norm_num
  · rw [Real.sqrt_lt' (by norm_num)]
    norm_num

/-- C12 fails as stated: the total cyclic distance that `fitness()` computes for the route
`(0,0), (1,1), (1,0), (0,1)` is not `2 + √2 + 1 + √2` (about `5.828`). -/
theorem diag_total_is_not_claimed_sum :
    fitnessLoop Real.sqrt (squareMem ℝ) diagRoute.nodes 4 0 0
      ≠ .ok (2 + Real.sqrt 2 + 1 + Real.sqrt 2) := by
  rw [diagRoute_totDist]
  intro h
  simp only [Except.ok.injEq] at h
  linarith

/-- C12, amended: the route `(0,0), (1,1), (1,0), (0,1)` has total cyclic distance
`√2 + 1 + √2 + 1 = 2 + 2√2`, between `4.828` and `4.829`, as computed by `fitness()`, and its
fitness `1 / (2 + 2√2)` is lower than the fitness `0.25` of the square order
`(0,0), (1,0), (1,1), (0,1)`. -/
theorem diag_total_and_fitness :
    fitnessLoop Real.sqrt (squareMem ℝ) diagRoute.nodes 4 0 0
      = .ok (Real.sqrt 2 + 1 + Real.sqrt 2 + 1) ∧
    (4.828 : ℝ) < Real.sqrt 2 + 1 + Real.sqrt 2 + 1 ∧
    Real.sqrt 2 + 1 + Real.sqrt 2 + 1 < (4.829 : ℝ) ∧
    Route.fitness Real.sqrt (squareMem ℝ) diagRoute
      = .ok ((1 / (Real.sqrt 2 + 1 + Real.sqrt 2 + 1) : ℝ) : WithTop ℝ) ∧
    Route.fitness Real.sqrt (squareMem ℝ) ⟨squarePoly⟩ = .ok ((0.25 : ℝ) : WithTop ℝ) ∧
    1 / (Real.sqrt 2 + 1 + Real.sqrt 2 + 1) < (0.25 : ℝ) := by
  obtain ⟨hlo, hhi⟩ := sqrt_two_bounds
  have hsum : (2 : ℝ) + 2 * Real.sqrt 2 = Real.sqrt 2 + 1 + Real.sqrt 2 + 1 := by ring
  have htot := diagRoute_totDist
  rw [hsum] at htot
  refine ⟨htot, by linarith, by linarith, ?_, ?_, ?_⟩
  · exact fitness_of_totDist Real.sqrt (squareMem ℝ) diagRoute _ htot (by linarith)
  · rw [squarePoly_fitness]
    norm_num
  · rw [div_lt_iff₀ (by linarith)]
    linarith

end Diagonal

/-! ## Indices of crossover and mutate -/

section Bounds

variable {R : Type} [LinearOrderedField R]

theorem length_resize (v : List NodePtr) (n : Nat) : (resize v n).length = n := by
  simp only [resize, List.length_append, List.length_take, List.length_replicate]
  omega

theorem fillLoop_fault_is_fuel (n : Nat) (B : List NodePtr) (hn : 0 < n) (hB : B.length = n) :
    ∀ (fuel : Nat) (child : List NodePtr) (childId parentId missing : Nat) (e : Fault),
      child.length = n → childId < n → parentId < n →
      fillLoop n B fuel child childId parentId missing = .error e → e = .outOfFuel
  | fuel, child, childId, parentId, 0, e, _, _, _, h => by
    cases fuel <;> simp [fillLoop] at h
  | 0, child, childId, parentId, missing + 1, e, _, _, _, h => by
    simp only [fillLoop, Except.error.injEq] at h
    exact h.symm
  | fuel + 1, child, childId, parentId, missing + 1, e, hlen, hc, hp, h => by
    unfold fillLoop at h
    rw [index_eq_ok B parentId (by omega)] at h
    simp only at h
    split at h
    · exact fillLoop_fault_is_fuel n B hn hB fuel child childId _ _ e hlen hc
        (Nat.mod_lt _ hn) h
    · rw [if_pos (by omega)] at h
      exact fillLoop_fault_is_fuel n B hn hB fuel _ _ _ _ e (by simp [hlen])
        (Nat.mod_lt _ hn) (Nat.mod_lt _ hn) h

theorem mutate_returns (RAND_MAX : Nat) (ga : GeneticAlgorithm R) (child : Route) (rng : Rng)
    (hn : 1 ≤ ga.testPoly.length) (hlen : child.nodes.length = ga.testPoly.length) :
    ∃ out, mutate RAND_MAX ga child rng = .ok out := by
  unfold mutate
  split
  · have hne : ga.testPoly.length ≠ 0 := by omega
    simp only [hne, if_false]
    rw [swapAt_eq_ok child.nodes _ _
      (hlen ▸ randIndices_fst_lt _ _ _ (by omega)) (hlen ▸ randIndices_snd_lt _ _ _ (by omega))]
    exact ⟨_, rfl⟩
  · exact ⟨_, rfl⟩

/-- C18: for a polygon of `n ≥ 1` vertices, every index that `crossover` and `mutate` use is
in `[0, n)` and no modulo by zero occurs.  With parents of length `n`, whatever the child
passed in, the draws and the number of rounds its loop runs, `crossover` reads
`parents.first.nodes[i]`, `parents.second.nodes[parentId]` and writes `child.nodes[i]`,
`child.nodes[childId]` inside the vectors: it ends in no fault other than its loop not
having ended yet.  With a route of length `n`, `mutate` returns: `baseIndex` and `otherIndex`
are inside the vector. -/
theorem crossover_mutate_indices_in_bounds (RAND_MAX : Nat) (ga : GeneticAlgorithm R)
    (hn : 1 ≤ ga.testPoly.length) :
    (∀ a b, (randIndices ga.testPoly.length a b).1 < ga.testPoly.length ∧
      (randIndices ga.testPoly.length a b).2 < ga.testPoly.length) ∧
    (∀ (fuel : Nat) (parents : Route × Route) (child : Route) (rng : Rng) (e : Fault),
      parents.1.nodes.length = ga.testPoly.length →
      parents.2.nodes.length = ga.testPoly.length →
      crossover RAND_MAX fuel ga parents child rng = .error e → e = .outOfFuel) ∧
    (∀ (child : Route) (rng : Rng), child.nodes.length = ga.testPoly.length →
      ∃ out, mutate RAND_MAX ga child rng = .ok out) := by
  have hpos : 0 < ga.testPoly.length := hn
  have hne : ga.testPoly.length ≠ 0 := by omega
  refine ⟨fun a b => ⟨randIndices_fst_lt _ a b hpos, randIndices_snd_lt _ a b hpos⟩, ?_, ?_⟩
  · intro fuel parents child rng e hA hB h
    unfold crossover at h
    split at h
    · simp only [hne, if_false] at h
      have h1 := randIndices_fst_lt ga.testPoly.length (rand (rand rng).2).1
        (rand (rand (rand rng).2).2).1 hpos
      have h2 := randIndices_snd_lt ga.testPoly.length (rand (rand rng).2).1
        (rand (rand (rand rng).2).2).1 hpos
      obtain ⟨lo, hlo⟩ : ∃ lo, lo = min
        (randIndices ga.testPoly.length (rand (rand rng).2).1 (rand (rand (rand rng).2).2).1).1
        (randIndices ga.testPoly.length (rand (rand rng).2).1 (rand (rand (rand rng).2).2).1).2 :=
        ⟨_, rfl⟩
      obtain ⟨hi, hhi⟩ : ∃ hi, hi = max
        (randIndices ga.testPoly.length (rand (rand rng).2).1 (rand (rand (rand rng).2).2).1).1
        (randIndices ga.testPoly.length (rand (rand rng).2).1 (rand (rand (rand rng).2).2).1).2 :=
        ⟨_, rfl⟩
      have hlohi : lo ≤ hi := by
        rw [hlo, hhi]; exact le_trans (min_le_left _ _) (le_max_left _ _)
      have hhin : hi < ga.testPoly.length := by rw [hhi]; exact max_lt h1 h2
      rw [← hlo, ← hhi] at h
      rw [copyLoop_spec parents.1.nodes (hi + 1 - lo) lo _
        (by rw [length_resize]; omega) (by omega)] at h
      simp only at h
      split at h
      · next e' hfill =>
        simp only [Except.error.injEq] at h
        rw [← h]
        refine fillLoop_fault_is_fuel ga.testPoly.length parents.2.nodes hpos hB fuel _ _ _ _ e'
          ?_ (Nat.mod_lt _ hpos) (Nat.mod_lt _ hpos) hfill
        simp only [List.length_append, List.length_take, List.length_drop, length_resize, hA]
        omega
      · exact absurd h (by simp)
    · exact absurd h (by simp)
  · intro child rng hlen
    exact mutate_returns RAND_MAX ga child rng hn hlen

/-- C18, at the four-vertex polygon. -/
theorem crossover_mutate_indices_in_bounds_witness :
    1 ≤ (squareEngine ℝ).testPoly.length ∧
    (∀ (fuel : Nat) (parents : Route × Route) (child : Route) (rng : Rng) (e : Fault),
      parents.1.nodes.length = (squareEngine ℝ).testPoly.length →
      parents.2.nodes.length = (squareEngine ℝ).testPoly.length →
      crossover 32767 fuel (squareEngine ℝ) parents child rng = .error e → e = .outOfFuel) ∧
    (∀ (child : Route) (rng : Rng),
      child.nodes.length = (squareEngine ℝ).testPoly.length →
      ∃ out, mutate 32767 (squareEngine ℝ) child rng = .ok out) :=
  ⟨by decide, (crossover_mutate_indices_in_bounds 32767 (squareEngine ℝ) (by decide)).2⟩

end Bounds

/-! ## What the scans of selection accept -/

section Scans

variable {R : Type} [LinearOrderedField R]

theorem skip_rand (k : Nat) (rng : Rng) : skip k (rand rng).2 = skip (k + 1) rng := rfl

theorem skip_skip (a b : Nat) (rng : Rng) : skip a (skip b rng) = skip (a + b) rng := by
  funext i
  simp only [skip, Nat.add_assoc]

theorem skip_zero (rng : Rng) : skip 0 rng = rng := rfl

theorem getLast?_cons_some {α : Type} (x a : α) (l : List α)
    (h : (x :: l).getLast? = some a) : (l = [] ∧ a = x) ∨ l.getLast? = some a := by
  rw [List.getLast?_cons] at h
  cases hl : l.getLast? with
  | none =>
    rw [hl] at h
    simp only [Option.getD_none, Option.some.injEq] at h
    exact Or.inl ⟨List.getLast?_eq_none_iff.mp hl, h.symm⟩
  | some b =>
    rw [hl] at h
    simp only [Option.getD_some, Option.some.injEq] at h
    exact Or.inr (by rw [h])

theorem firstScan_char (RAND_MAX : Nat) (sqrt : R → R) (mem : Nat → Node R) :
    ∀ (population : List Route) (first : Route) (found : Bool) (rng : Rng)
      (out : Route × Bool × Rng),
      firstScan RAND_MAX sqrt mem population first found rng = .ok out →
      out.2.2 = skip population.length rng ∧
      (belowFitness RAND_MAX sqrt mem population rng = [] → out.1 = first ∧ out.2.1 = found) ∧
      (∀ a, (belowFitness RAND_MAX sqrt mem population rng).getLast? = some a →
        out.1 = a ∧ out.2.1 = true)
  | [], first, found, rng, out, h => by
    simp only [firstScan, Except.ok.injEq] at h
    subst h
    exact ⟨rfl, fun _ => ⟨rfl, rfl⟩, fun a ha => by simp [belowFitness] at ha⟩
  | route :: rest, first, found, rng, out, h => by
    unfold firstScan at h
    unfold belowFitness
    split at h
    · exact absurd h (by simp)
    · next p hp =>
      split at h
      · next hacc =>
        obtain ⟨h1, h2, h3⟩ := firstScan_char RAND_MAX sqrt mem rest route true _ out h
        simp only [hacc, if_true]
        refine ⟨h1, fun hnil => absurd hnil (by simp), fun a ha => ?_⟩
        rcases getLast?_cons_some _ _ _ ha with ⟨hnil, rfl⟩ | hlast
        · exact h2 hnil
        · exact h3 a hlast
      · next hacc =>
        obtain ⟨h1, h2, h3⟩ := firstScan_char RAND_MAX sqrt mem rest first found _ out h
        simp only [hacc, if_false]
        exact ⟨h1, h2, h3⟩

theorem secondScan_char (RAND_MAX : Nat) (sqrt : R → R) (mem : Nat → Node R) (first : Route) :
    ∀ (population : List Route) (second : Route) (found : Bool) (rng : Rng)
      (out : Route × Bool × Rng),
      secondScan RAND_MAX sqrt mem first population second found rng = .ok out →
      out.2.2 = skip population.length rng ∧
      (belowFitnessOther RAND_MAX sqrt mem first population rng = [] →
        out.1 = second ∧ out.2.1 = found) ∧
      (∀ a, (belowFitnessOther RAND_MAX sqrt mem first population rng).getLast? = some a →
        out.1 = a ∧ out.2.1 = true)
  | [], second, found, rng, out, h => by
    simp only [secondScan, Except.ok.injEq] at h
    subst h
    exact ⟨rfl, fun _ => ⟨rfl, rfl⟩, fun a ha => by simp [belowFitnessOther] at ha⟩
  | route :: rest, second, found, rng, out, h => by
    unfold secondScan at h
    unfold belowFitnessOther
    split at h
    · exact absurd h (by simp)
    · next p hp =>
      split at h
      · next hacc =>
        obtain ⟨h1, h2, h3⟩ := secondScan_char RAND_MAX sqrt mem first rest route true _ out h
        rw [if_pos hacc]
        refine ⟨h1, fun hnil => absurd hnil (by simp), fun a ha => ?_⟩
        rcases getLast?_cons_some _ _ _ ha with ⟨hnil, rfl⟩ | hlast
        · exact h2 hnil
        · exact h3 a hlast
      · next hacc =>
        obtain ⟨h1, h2, h3⟩ := secondScan_char RAND_MAX sqrt mem first rest second found _ out h
        rw [if_neg hacc]
        exact ⟨h1, h2, h3⟩

theorem skip_zero_mul (n : Nat) (rng : Rng) : skip (0 * n) rng = rng := by
  funext i
  simp [skip]

theorem skip_succ_mul (s n : Nat) (rng : Rng) :
    skip (s * n) (skip n rng) = skip ((s + 1) * n) rng := by
  rw [skip_skip, Nat.succ_mul]

theorem firstLoop_found (RAND_MAX : Nat) (sqrt : R → R) (mem : Nat → Node R)
    (population : List Route) (fuel : Nat) (first : Route) (rng : Rng) :
    firstLoop RAND_MAX sqrt mem population fuel first true rng = .ok (first, rng) := by
  cases fuel <;> rfl

theorem secondLoop_found (RAND_MAX : Nat) (sqrt : R → R) (mem : Nat → Node R)
    (population : List Route) (first : Route) (fuel : Nat) (second : Route) (rng : Rng) :
    secondLoop RAND_MAX sqrt mem population first fuel second true rng = .ok (second, rng) := by
  cases fuel <;> rfl

theorem firstLoop_char (RAND_MAX : Nat) (sqrt : R → R) (mem : Nat → Node R)
    (population : List Route) :
    ∀ (fuel : Nat) (first : Route) (rng : Rng) (a : Route) (rng' : Rng),
      firstLoop RAND_MAX sqrt mem population fuel first false rng = .ok (a, rng') →
      ∃ s1, s1 < fuel ∧
        (∀ s, s < s1 →
          belowFitness RAND_MAX sqrt mem population (skip (s * population.length) rng) = []) ∧
        (belowFitness RAND_MAX sqrt mem population
          (skip (s1 * population.length) rng)).getLast? = some a ∧
        rng' = skip ((s1 + 1) * population.length) rng
  | 0, first, rng, a, rng', h => by simp [firstLoop] at h
  | fuel + 1, first, rng, a, rng', h => by
    unfold firstLoop at h
    split at h
    · exact absurd h (by simp)
    · next f1 found1 rng1 hscan =>
      obtain ⟨h1, h2, h3⟩ := firstScan_char RAND_MAX sqrt mem population first false rng _ hscan
      simp only at h1 h2 h3
      cases hl : (belowFitness RAND_MAX sqrt mem population rng).getLast? with
      | none =>
        have hnil := List.getLast?_eq_none_iff.mp hl
        obtain ⟨_, hf⟩ := h2 hnil
        rw [hf, h1] at h
        obtain ⟨s1, hs1, hbefore, hlast, hrng⟩ :=
          firstLoop_char RAND_MAX sqrt mem population fuel f1 _ a rng' h
        refine ⟨s1 + 1, by omega, ?_, ?_, ?_⟩
        · intro s hs
          cases s with
          | zero => rw [skip_zero_mul]; exact hnil
          | succ s => rw [← skip_succ_mul]; exact hbefore s (by omega)
        · rw [← skip_succ_mul]; exact hlast
        · rw [hrng, skip_succ_mul]
      | some x =>
        obtain ⟨hx, hf⟩ := h3 x hl
        rw [hf, firstLoop_found] at h
        simp only [Except.ok.injEq, Prod.mk.injEq] at h
        refine ⟨0, by omega, fun s hs => absurd hs (by omega), ?_, ?_⟩
        · rw [skip_zero_mul, hl, ← hx, h.1]
        · rw [← h.2, h1]
          simp

theorem secondLoop_char (RAND_MAX : Nat) (sqrt : R → R) (mem : Nat → Node R)
    (population : List Route) (first : Route) :
    ∀ (fuel : Nat) (second : Route) (rng : Rng) (b : Route) (rng' : Rng),
      secondLoop RAND_MAX sqrt mem population first fuel second false rng = .ok (b, rng') →
      ∃ s2, s2 < fuel ∧
        (∀ s, s < s2 →
          belowFitnessOther RAND_MAX sqrt mem first population
            (skip (s * population.length) rng) = []) ∧
        (belowFitnessOther RAND_MAX sqrt mem first population
          (skip (s2 * population.length) rng)).getLast? = some b ∧
        rng' = skip ((s2 + 1) * population.length) rng
  | 0, second, rng, b, rng', h => by simp [secondLoop] at h
  | fuel + 1, second, rng, b, rng', h => by
    unfold secondLoop at h
    split at h
    · exact absurd h (by simp)
    · next f1 found1 rng1 hscan =>
      obtain ⟨h1, h2, h3⟩ :=
        secondScan_char RAND_MAX sqrt mem first population second false rng _ hscan
      simp only at h1 h2 h3
      cases hl : (belowFitnessOther RAND_MAX sqrt mem first population rng).getLast? with
      | none =>
        have hnil := List.getLast?_eq_none_iff.mp hl
        obtain ⟨_, hf⟩ := h2 hnil
        rw [hf, h1] at h
        obtain ⟨s2, hs2, hbefore, hlast, hrng⟩ :=
          secondLoop_char RAND_MAX sqrt mem population first fuel f1 _ b rng' h
        refine ⟨s2 + 1, by omega, ?_, ?_, ?_⟩
        · intro s hs
          cases s with
          | zero => rw [skip_zero_mul]; exact hnil
          | succ s => rw [← skip_succ_mul]; exact hbefore s (by omega)
        · rw [← skip_succ_mul]; exact hlast
        · rw [hrng, skip_succ_mul]
      | some x =>
        obtain ⟨hx, hf⟩ := h3 x hl
        rw [hf, secondLoop_found] at h
        simp only [Except.ok.injEq, Prod.mk.injEq] at h
        refine ⟨0, by omega, fun s hs => absurd hs (by omega), ?_, ?_⟩
        · rw [skip_zero_mul, hl, ← hx, h.1]
        · rw [← h.2, h1]
          simp

theorem belowFitness_eq_nil (RAND_MAX : Nat) (sqrt : R → R) (mem : Nat → Node R) :
    ∀ (rest : List Route) (rng : Rng),
      (∀ (i : Nat) (route : Route) (p : WithTop R), rest[i]? = some route →
        route.fitness sqrt mem = .ok p → p ≤ ((unitDraw RAND_MAX (rng i) : R) : WithTop R)) →
      belowFitness RAND_MAX sqrt mem rest rng = []
  | [], _, _ => rfl
  | route :: rest, rng, h => by
    have ih := belowFitness_eq_nil RAND_MAX sqrt mem rest (rand rng).2
      (fun i r p hi hp => h (i + 1) r p (by simpa using hi) hp)
    unfold belowFitness
    split
    · exact ih
    · next p hp =>
      have hge : ¬ ((unitDraw RAND_MAX (rand rng).1 : R) : WithTop R) < p :=
        not_lt.mpr (h 0 route p (by simp) hp)
      rw [if_neg hge]
      exact ih

theorem belowFitness_scan_eq_nil (RAND_MAX : Nat) (sqrt : R → R) (mem : Nat → Node R)
    (population : List Route) (rng : Rng)
    (hdraw : ∀ (j : Nat) (route : Route) (p : WithTop R),
      population[j % population.length]? = some route →
      route.fitness sqrt mem = .ok p → p ≤ ((unitDraw RAND_MAX (rng j) : R) : WithTop R))
    (s : Nat) :
    belowFitness RAND_MAX sqrt mem population (skip (s * population.length) rng) = [] := by
  refine belowFitness_eq_nil RAND_MAX sqrt mem population _ (fun i route p hi hp => ?_)
  have hlt : i < population.length := (List.getElem?_eq_some_iff.mp hi).1
  have hmod : (i + s * population.length) % population.length = i := by
    rw [Nat.add_mul_mod_self_right, Nat.mod_eq_of_lt hlt]
  exact hdraw (i + s * population.length) route p (by rw [hmod]; exact hi) hp

/-- C15: if every random draw is at least as large as the fitness of the route it is tested
against (draw number `j` of selection is tested against the route at position
`j mod size` of the population), then every scan of the first loop of `selection` leaves
`parents.first` and `foundFirstParent = false` as they were and consumes one draw per route,
so the first loop and `selection` do not return, whatever the number of scans allowed.  A
fitness of `0` is one that no draw is below: the quotient `rand() / RAND_MAX` is never
negative. -/
theorem selection_never_accepts_first (RAND_MAX : Nat) (sqrt : R → R) (mem : Nat → Node R)
    (gen : Generation) :
    (∀ (rng : Rng) (j : Nat),
      (0 : WithTop R) ≤ ((unitDraw RAND_MAX (rng j) : R) : WithTop R)) ∧
    (∀ (rng : Rng),
      (∀ (j : Nat) (route : Route) (p : WithTop R),
        gen.population[j % gen.population.length]? = some route →
        route.fitness sqrt mem = .ok p →
        p ≤ ((unitDraw RAND_MAX (rng j) : R) : WithTop R)) →
      (∀ (s : Nat) (first : Route) (out : Route × Bool × Rng),
        firstScan RAND_MAX sqrt mem gen.population first false
            (skip (s * gen.population.length) rng) = .ok out →
        out = (first, false, skip ((s + 1) * gen.population.length) rng)) ∧
      (∀ (fuel : Nat) (first : Route),
        ∃ e, firstLoop RAND_MAX sqrt mem gen.population fuel first false rng = .error e) ∧
      (∀ (fuel : Nat) (parents : Route × Route),
        ∃ e, selection RAND_MAX sqrt mem fuel gen parents rng = .error e)) := by
  constructor
  · intro rng j
    rw [← WithTop.coe_zero, WithTop.coe_le_coe]
    exact unitDraw_nonneg RAND_MAX _
  · intro rng hdraw
    have hloop : ∀ (fuel : Nat) (first : Route),
        ∃ e, firstLoop RAND_MAX sqrt mem gen.population fuel first false rng = .error e := by
      intro fuel first
      cases h : firstLoop RAND_MAX sqrt mem gen.population fuel first false rng with
      | error e => exact ⟨e, rfl⟩
      | ok out =>
        obtain ⟨a, rng'⟩ := out
        obtain ⟨s1, _, _, hlast, _⟩ :=
          firstLoop_char RAND_MAX sqrt mem gen.population fuel first rng a rng' h
        rw [belowFitness_scan_eq_nil RAND_MAX sqrt mem gen.population rng hdraw s1] at hlast
        exact absurd hlast (by simp)
    refine ⟨?_, hloop, ?_⟩
    · intro s first out hout
      obtain ⟨h1, h2, _⟩ := firstScan_char RAND_MAX sqrt mem gen.population first false _ _ hout
      obtain ⟨h3, h4⟩ :=
        h2 (belowFitness_scan_eq_nil RAND_MAX sqrt mem gen.population rng hdraw s)
      obtain ⟨o1, o2, o3⟩ := out
      simp only at h1 h3 h4
      rw [h1, h3, h4, skip_skip, Nat.succ_mul, Nat.add_comm]
    · intro fuel parents
      obtain ⟨e, he⟩ := hloop fuel parents.1
      refine ⟨e, ?_⟩
      unfold selection
      rw [he]

theorem squareGen_draws_not_below (j : Nat) (route : Route) (p : WithTop ℝ)
    (hj : squareGen.population[j % squareGen.population.length]? = some route)
    (hp : route.fitness Real.sqrt (squareMem ℝ) = .ok p) :
    p ≤ ((unitDraw 32767 (maxDraws j) : ℝ) : WithTop ℝ) := by
  have hone : (unitDraw 32767 (maxDraws j) : ℝ) = 1 := unitDraw_self 32767 (by decide)
  have hmem : route ∈ squareGen.population := List.getElem?_mem hj
  simp only [squareGen, List.mem_cons, List.mem_singleton, List.not_mem_nil, or_false] at hmem
  rcases hmem with rfl | rfl
  · rw [squarePoly_fitness] at hp
    simp only [Except.ok.injEq] at hp
    rw [← hp, WithTop.coe_le_coe, hone]; norm_num
  · rw [squareRoute2_fitness] at hp
    simp only [Except.ok.injEq] at hp
    rw [← hp, WithTop.coe_le_coe, hone]; norm_num

/-- C15, at a concrete input: two routes of fitness `1/4` and a generator whose every draw is
`RAND_MAX`. -/
theorem selection_never_accepts_first_witness :
    (∀ (j : Nat) (route : Route) (p : WithTop ℝ),
      squareGen.population[j % squareGen.population.length]? = some route →
      route.fitness Real.sqrt (squareMem ℝ) = .ok p →
      p ≤ ((unitDraw 32767 (maxDraws j) : ℝ) : WithTop ℝ)) ∧
    (∀ (fuel : Nat) (parents : Route × Route),
      ∃ e, selection 32767 Real.sqrt (squareMem ℝ) fuel squareGen parents maxDraws
        = .error e) :=
  ⟨squareGen_draws_not_below,
    ((selection_never_accepts_first 32767 Real.sqrt (squareMem ℝ) squareGen).2 maxDraws
      squareGen_draws_not_below).2.2⟩

theorem squareGen_selection_all_below (parents : Route × Route) (rng : Rng)
    (h0 : (rand rng).1 = 0) (h1 : (rand (rand rng).2).1 = 0)
    (h2 : (rand (rand (rand rng).2).2).1 = 0)
    (h3 : (rand (rand (rand (rand rng).2).2).2).1 = 0) :
    selection 32767 Real.sqrt (squareMem ℝ) 4 squareGen parents rng
      = .ok ((squareRoute2, ⟨squarePoly⟩), (rand (rand (rand (rand rng).2).2).2).2) := by
  have e0 : ((unitDraw 32767 0 : ℝ) : WithTop ℝ) < ((1 / 4 : ℝ) : WithTop ℝ) := by
    rw [WithTop.coe_lt_coe]
    simp [unitDraw]
  have hne : (Route.mk squarePoly).nodes ≠ squareRoute2.nodes := by decide
  simp only [selection, squareGen, firstLoop, firstScan, secondLoop, secondScan,
    squarePoly_fitness, squareRoute2_fitness, h0, h1, h2, h3, e0, if_true, ne_eq,
    not_true_eq_false, and_false, hne, not_false_eq_true, and_true, if_false]

/-- C17: selection does not stop a scan at the first acceptance.  Whenever it returns the
parents `(a, b)`, there are scan numbers `s1` and `s2` such that no route had its draw below
its fitness in the scans before scan `s1` of the first loop, `a` is the last route, in
population order, of scan `s1` whose draw was below its fitness, no route of the `s2` next
scans of the second loop had its draw below its fitness and a node sequence other than that
of `a`, `b` is the last such route of the scan after them, and the generator has moved on by
one draw per route of each of these `s1 + 1 + s2 + 1` scans; each single scan consumes one
draw per route. -/
theorem selection_returns_last_accepted (RAND_MAX : Nat) (sqrt : R → R) (mem : Nat → Node R)
    (fuel : Nat) (gen : Generation) (parents : Route × Route) (rng : Rng) (a b : Route)
    (rng' : Rng)
    (h : selection RAND_MAX sqrt mem fuel gen parents rng = .ok ((a, b), rng')) :
    (∃ s1 s2,
      (∀ s, s < s1 → belowFitness RAND_MAX sqrt mem gen.population
        (skip (s * gen.population.length) rng) = []) ∧
      (belowFitness RAND_MAX sqrt mem gen.population
        (skip (s1 * gen.population.length) rng)).getLast? = some a ∧
      (∀ s, s < s2 → belowFitnessOther RAND_MAX sqrt mem a gen.population
        (skip ((s1 + 1 + s) * gen.population.length) rng) = []) ∧
      (belowFitnessOther RAND_MAX sqrt mem a gen.population
        (skip ((s1 + 1 + s2) * gen.population.length) rng)).getLast? = some b ∧
      rng' = skip ((s1 + 1 + s2 + 1) * gen.population.length) rng) ∧
    (∀ (first : Route) (found : Bool) (rng0 : Rng) (out : Route × Bool × Rng),
      firstScan RAND_MAX sqrt mem gen.population first found rng0 = .ok out →
      out.2.2 = skip gen.population.length rng0) ∧
    (∀ (first second : Route) (found : Bool) (rng0 : Rng) (out : Route × Bool × Rng),
      secondScan RAND_MAX sqrt mem first gen.population second found rng0 = .ok out →
      out.2.2 = skip gen.population.length rng0) := by
  refine ⟨?_, fun first found rng0 out ho =>
      (firstScan_char RAND_MAX sqrt mem gen.population first found rng0 out ho).1,
    fun first second found rng0 out ho =>
      (secondScan_char RAND_MAX sqrt mem first gen.population second found rng0 out ho).1⟩
  unfold selection at h
  split at h
  · exact absurd h (by simp)
  · next first rng1 hfirst =>
    split at h
    · exact absurd h (by simp)
    · next second rng2 hsecond =>
      simp only [Except.ok.injEq, Prod.mk.injEq] at h
      obtain ⟨⟨rfl, rfl⟩, rfl⟩ := h
      obtain ⟨s1, _, hb1, hl1, hr1⟩ :=
        firstLoop_char RAND_MAX sqrt mem gen.population fuel parents.1 rng first rng1 hfirst
      obtain ⟨s2, _, hb2, hl2, hr2⟩ :=
        secondLoop_char RAND_MAX sqrt mem gen.population first fuel parents.2 rng1 second rng2
          hsecond
      have hshift : ∀ s, skip (s * gen.population.length) rng1
          = skip ((s1 + 1 + s) * gen.population.length) rng := by
        intro s
        rw [hr1, skip_skip, Nat.add_mul (s1 + 1) s, Nat.add_comm]
      refine ⟨s1, s2, hb1, hl1, ?_, ?_, ?_⟩
      · intro s hs
        rw [← hshift]
        exact hb2 s hs
      · rw [← hshift]
        exact hl2
      · rw [hr2, hshift, Nat.add_assoc (s1 + 1) s2 1]

/-- C17, at a concrete input: both routes have their draw below their fitness in the first
scan, and the first parent returned is the second route. -/
theorem selection_returns_last_accepted_witness :
    selection 32767 Real.sqrt (squareMem ℝ) 4 squareGen (⟨[]⟩, ⟨[]⟩) (tape [0, 0, 0, 0])
      = .ok ((squareRoute2, ⟨squarePoly⟩),
          (rand (rand (rand (rand (tape [0, 0, 0, 0])).2).2).2).2) ∧
    ∃ s1 s2,
      (∀ s, s < s1 → belowFitness 32767 Real.sqrt (squareMem ℝ) squareGen.population
        (skip (s * squareGen.population.length) (tape [0, 0, 0, 0])) = []) ∧
      (belowFitness 32767 Real.sqrt (squareMem ℝ) squareGen.population
        (skip (s1 * squareGen.population.length) (tape [0, 0, 0, 0]))).getLast?
        = some squareRoute2 ∧
      (∀ s, s < s2 → belowFitnessOther 32767 Real.sqrt (squareMem ℝ) squareRoute2
        squareGen.population
        (skip ((s1 + 1 + s) * squareGen.population.length) (tape [0, 0, 0, 0])) = []) ∧
      (belowFitnessOther 32767 Real.sqrt (squareMem ℝ) squareRoute2 squareGen.population
        (skip ((s1 + 1 + s2) * squareGen.population.length) (tape [0, 0, 0, 0]))).getLast?
        = some ⟨squarePoly⟩ ∧
      (rand (rand (rand (rand (tape [0, 0, 0, 0])).2).2).2).2
        = skip ((s1 + 1 + s2 + 1) * squareGen.population.length) (tape [0, 0, 0, 0]) :=
  ⟨squareGen_selection_all_below _ _ rfl rfl rfl rfl,
    (selection_returns_last_accepted 32767 Real.sqrt (squareMem ℝ) 4 squareGen (⟨[]⟩, ⟨[]⟩)
      (tape [0, 0, 0, 0]) squareRoute2 ⟨squarePoly⟩ _
      (squareGen_selection_all_below _ _ rfl rfl rfl rfl)).1⟩

end Scans

/-! ## Fitness under rotation and reversal -/

section Cyclic

variable {R : Type} [LinearOrderedField R]

theorem distance_comm (sqrt : R → R) (a b : Node R) : distance sqrt a b = distance sqrt b a := by
  unfold distance
  congr 1
  ring

theorem fitnessLoop_eq_list_sum (sqrt : R → R) (mem : Nat → Node R) (addrs : List Nat) :
    ∀ (cnt i : Nat) (totDist : R), i + cnt = addrs.length →
      fitnessLoop sqrt mem (addrs.map some) cnt i totDist
        = .ok (totDist + ((List.zipWith (distance sqrt) (addrs.map mem)
            ((addrs.map mem).rotate 1)).drop i).sum)
  | 0, i, totDist, h => by
    rw [List.drop_of_length_le (by simp; omega)]
    simp [fitnessLoop]
  | cnt + 1, i, totDist, h => by
    have hi : i < addrs.length := by omega
    have hi' : (i + 1) % (addrs.map some).length < addrs.length := by
      simpa using Nat.mod_lt (i + 1) (by omega : 0 < addrs.length)
    have hz : i < (List.zipWith (distance sqrt) (addrs.map mem)
        ((addrs.map mem).rotate 1)).length := by simp; omega
    unfold fitnessLoop
    rw [index_map_some addrs i hi, index_map_some addrs _ hi']
    simp only [deref]
    rw [fitnessLoop_eq_list_sum sqrt mem addrs cnt (i + 1) _ (by omega),
      List.drop_eq_getElem_cons hz, List.sum_cons, List.getElem_zipWith, List.getElem_rotate]
    simp only [List.getElem_map, List.length_map, List.getD_eq_getElem _ _ hi,
      List.getD_eq_getElem _ _ (by simpa using hi' : (i + 1) % addrs.length < addrs.length)]
    rw [add_assoc]

theorem fitnessLoop_null (sqrt : R → R) (mem : Nat → Node R) (nodes : List NodePtr) :
    ∀ (cnt i : Nat) (totDist : R), i + cnt = nodes.length →
      (∃ j, i ≤ j ∧ nodes[j]? = some none) →
      fitnessLoop sqrt mem nodes cnt i totDist = .error .nullDeref
  | 0, i, totDist, h, ⟨j, hj, hnone⟩ => by
    have := (List.getElem?_eq_some_iff.mp hnone).1
    omega
  | cnt + 1, i, totDist, h, ⟨j, hj, hnone⟩ => by
    have hi : i < nodes.length := by omega
    have hi' : (i + 1) % nodes.length < nodes.length := Nat.mod_lt _ (by omega)
    unfold fitnessLoop
    rw [index_eq_ok nodes i hi, index_eq_ok nodes _ hi']
    simp only
    cases h1 : nodes[i] with
    | none => rfl
    | some a =>
      cases h2 : nodes[(i + 1) % nodes.length] with
      | none => rfl
      | some b =>
        simp only [deref]
        refine fitnessLoop_null sqrt mem nodes cnt (i + 1) _ (by omega) ⟨j, ?_, hnone⟩
        rcases Nat.lt_or_ge i j with hlt | hge
        · exact hlt
        · have hji : j = i := by omega
          rw [hji, List.getElem?_eq_getElem hi, h1] at hnone
          simp at hnone

theorem fitness_of_null (sqrt : R → R) (mem : Nat → Node R) (nodes : List NodePtr)
    (h : none ∈ nodes) : Route.fitness sqrt mem ⟨nodes⟩ = .error .nullDeref := by
  obtain ⟨j, hj⟩ := List.mem_iff_getElem?.mp h
  unfold Route.fitness
  rw [fitnessLoop_null sqrt mem nodes nodes.length 0 0 (by omega) ⟨j, by omega, hj⟩]

theorem fitness_of_addrs (sqrt : R → R) (mem : Nat → Node R) (addrs : List Nat) :
    Route.fitness sqrt mem ⟨addrs.map some⟩
      = .ok (if (List.zipWith (distance sqrt) (addrs.map mem)
            ((addrs.map mem).rotate 1)).sum = 0 then ⊤
          else ((1 / (List.zipWith (distance sqrt) (addrs.map mem)
            ((addrs.map mem).rotate 1)).sum : R) : WithTop R)) := by
  unfold Route.fitness
  simp only [List.length_map]
  rw [fitnessLoop_eq_list_sum sqrt mem addrs addrs.length 0 0 (by omega)]
  simp only [List.drop_zero, zero_add]

theorem eq_map_some_of_not_mem (nodes : List NodePtr) (h : none ∉ nodes) :
    nodes = (nodes.map (fun p => p.getD 0)).map some := by
  rw [List.map_map]
  conv_lhs => rw [← List.map_id nodes]
  refine List.map_congr_left (fun p hp => ?_)
  cases p with
  | none => exact absurd hp h
  | some a => rfl

theorem cyclic_sum_rotate {α : Type} (d : α → α → R) (L : List α) (k : Nat) :
    (List.zipWith d (L.rotate k) ((L.rotate k).rotate 1)).sum
      = (List.zipWith d L (L.rotate 1)).sum := by
  rw [List.rotate_rotate, Nat.add_comm, ← List.rotate_rotate,
    ← List.zipWith_rotate_distrib d L (L.rotate 1) k (by simp)]
  exact (List.rotate_perm _ k).sum_eq

theorem sub_one_mod_add_one_mod (n : Nat) (hn : 0 < n) : (n - 1 % n + 1) % n = 0 := by
  rcases Nat.lt_or_ge n 2 with h | h
  · have h1 : n = 1 := by omega
    subst h1
    rfl
  · have h1 : 1 % n = 1 := Nat.mod_eq_of_lt (by omega)
    rw [h1, Nat.sub_add_cancel (by omega), Nat.mod_self]

theorem cyclic_sum_reverse {α : Type} (d : α → α → R) (hd : ∀ a b, d a b = d b a)
    (L : List α) :
    (List.zipWith d L.reverse (L.reverse.rotate 1)).sum
      = (List.zipWith d L (L.rotate 1)).sum := by
  by_cases hL : L = []
  · subst hL
    simp
  · have hn : 0 < L.length := List.length_pos.mpr hL
    have hback : (L.rotate (L.length - 1 % L.length)).rotate 1 = L := by
      rw [List.rotate_rotate, ← List.rotate_mod, sub_one_mod_add_one_mod _ hn, List.rotate_zero]
    rw [List.rotate_reverse, ← List.reverse_zipWith (by simp), List.sum_reverse,
      List.zipWith_comm_of_comm d hd]
    have hstep : List.zipWith d (L.rotate (L.length - 1 % L.length)) L
        = List.zipWith d (L.rotate (L.length - 1 % L.length))
            ((L.rotate (L.length - 1 % L.length)).rotate 1) := by
      rw [hback]
    rw [hstep]
    exact cyclic_sum_rotate d L _

theorem lt_two_pow_bitLengthAux :
    ∀ (fuel m : Nat), m ≤ fuel → m < 2 ^ bitLengthAux fuel m
  | 0, m, h => by
    have hm : m = 0 := by omega
    subst hm
    simp [bitLengthAux]
  | fuel + 1, m, h => by
    unfold bitLengthAux
    split
    · next hm => subst hm; simp
    · next hm =>
      have ih := lt_two_pow_bitLengthAux fuel (m / 2) (by omega)
      rw [Nat.pow_succ]
      omega

theorem lt_two_pow_bitLength (m : Nat) : m < 2 ^ bitLength m :=
  lt_two_pow_bitLengthAux m m (Nat.le_refl m)

theorem isqrtAux_spec (n : Nat) :
    ∀ (k r : Nat), r * r ≤ n → n < (r + 2 ^ k) * (r + 2 ^ k) →
      isqrtAux n k r * isqrtAux n k r ≤ n ∧ n < (isqrtAux n k r + 1) * (isqrtAux n k r + 1)
  | 0, r, h1, h2 => by
    simpa [isqrtAux] using And.intro h1 h2
  | k + 1, r, h1, h2 => by
    unfold isqrtAux
    split
    · next hle =>
      refine isqrtAux_spec n k (r + 2 ^ k) hle ?_
      rw [Nat.add_assoc, ← Nat.two_mul, ← Nat.pow_succ']
      exact h2
    · next hlt =>
      exact isqrtAux_spec n k r h1 (Nat.lt_of_not_le hlt)

/-- The function `isqrt` returns the integer square root. -/
theorem isqrt_spec (n : Nat) : isqrt n * isqrt n ≤ n ∧ n < (isqrt n + 1) * (isqrt n + 1) := by
  refine isqrtAux_spec n (bitLength n) 0 (Nat.zero_le n) ?_
  have h := lt_two_pow_bitLength n
  have h1 : 1 ≤ 2 ^ bitLength n := Nat.one_le_two_pow
  rw [Nat.zero_add]
  calc n < 2 ^ bitLength n := h
    _ = 2 ^ bitLength n * 1 := (Nat.mul_one _).symm
    _ ≤ 2 ^ bitLength n * 2 ^ bitLength n := Nat.mul_le_mul_left _ h1

set_option maxRecDepth 100000

/-- Known values of binary32 arithmetic: `1.0f` is `2^23 * 2^-23`; `1.0f / 3.0f` has the
bits `0x3EAAAAAB` and `1.0f / 10.0f` the bits `0x3DCCCCCD`; `sqrtf(2.0f)` has the bits
`0x3FB504F3`; `2^24 + 1` is a tie and is rounded to the even `2^24`, `2^24 + 3` is a tie and
is rounded to the even `2^24 + 4`; `1.0f / 0.0f` is `+inf`. -/
theorem binary32_values :
    F32.ofNat 1 = .finite false 8388608 (-23) ∧
    F32.div (F32.ofNat 1) (F32.ofNat 3) = .finite false 11184811 (-25) ∧
    F32.div (F32.ofNat 1) (F32.ofNat 10) = .finite false 13421773 (-27) ∧
    F32.sqrt (F32.ofNat 2) = .finite false 11863283 (-23) ∧
    F32.add (F32.ofNat 16777216) (F32.ofNat 1) = F32.ofNat 16777216 ∧
    F32.add (F32.ofNat 16777216) (F32.ofNat 3) = F32.ofNat 16777220 ∧
    F32.div (F32.ofNat 1) (F32.ofNat 0) = .inf false := by
  refine ⟨?_, ?_, ?_, ?_, ?_, ?_, ?_⟩ <;> rfl

/-- The distances along the route over `(0,0), (0,1), (2^24,1), (2^24,2), (2^24,0)` are the
`float` values `1, 2^24, 1, 2, 2^24`: every operation inside `distance` is exact but the sum
`2^48 + 4` under the last root, which is rounded to `2^48`. -/
theorem wide_distances :
    distance32 (wideMem 0) (wideMem 1) = F32.ofNat 1 ∧
    distance32 (wideMem 1) (wideMem 2) = F32.ofNat 16777216 ∧
    distance32 (wideMem 2) (wideMem 3) = F32.ofNat 1 ∧
    distance32 (wideMem 3) (wideMem 4) = F32.ofNat 2 ∧
    distance32 (wideMem 4) (wideMem 0) = F32.ofNat 16777216 := by
  refine ⟨?_, ?_, ?_, ?_, ?_⟩ <;> rfl

/-- The partial sums of these distances in `float`.  In the order `1, 2^24, 1, 2, 2^24` they
are `1, 2^24, 2^24, 2^24 + 2, 2^25`; in the order `1, 2, 2^24, 1, 2^24` of the rotation by 2
they are `1, 3, 2^24 + 4, 2^24 + 4, 2^25 + 4`. -/
theorem wide_partial_sums :
    (F32.add (F32.ofNat 0) (F32.ofNat 1) = F32.ofNat 1 ∧
      F32.add (F32.ofNat 1) (F32.ofNat 16777216) = F32.ofNat 16777216 ∧
      F32.add (F32.ofNat 16777216) (F32.ofNat 1) = F32.ofNat 16777216 ∧
      F32.add (F32.ofNat 16777216) (F32.ofNat 2) = F32.ofNat 16777218 ∧
      F32.add (F32.ofNat 16777218) (F32.ofNat 16777216) = F32.ofNat 33554432) ∧
    (F32.add (F32.ofNat 0) (F32.ofNat 1) = F32.ofNat 1 ∧
      F32.add (F32.ofNat 1) (F32.ofNat 2) = F32.ofNat 3 ∧
      F32.add (F32.ofNat 3) (F32.ofNat 16777216) = F32.ofNat 16777220 ∧
      F32.add (F32.ofNat 16777220) (F32.ofNat 1) = F32.ofNat 16777220 ∧
      F32.add (F32.ofNat 16777220) (F32.ofNat 16777216) = F32.ofNat 33554436) := by
  refine ⟨⟨?_, ?_, ?_, ?_, ?_⟩, ⟨?_, ?_, ?_, ?_, ?_⟩⟩ <;> rfl

/-- C11 fails as stated: the `float` that `fitness()` returns depends on the node at which
the sum of the distances starts and on its direction.  For the route over the points
`(0,0), (0,1), (2^24,1), (2^24,2), (2^24,0)` the distances `1, 2^24, 1, 2, 2^24` are exact
and their `float` sum in this order is `2^25` (fitness `2^-25`), while after a rotation by 2
(`1, 2, 2^24, 1, 2^24`) and after the reversal (`2, 1, 2^24, 1, 2^24`) it is `2^25 + 4`
(fitness `16777214 * 2^-49`).  For the route over `(0,0), (0,1), (1,0), (2,2)` the fitness is
`8973322 * 2^-26`, and `8973323 * 2^-26` after a rotation by 1 and after the reversal. -/
theorem fitness_depends_on_summation_order :
    (fitnessLoop32 wideMem fiveRoute.nodes 5 0 (F32.ofNat 0) = .ok (.finite false 8388608 2) ∧
      fitnessLoop32 wideMem (fiveRoute.nodes.rotate 2) 5 0 (F32.ofNat 0)
        = .ok (.finite false 8388609 2) ∧
      fitnessLoop32 wideMem fiveRoute.nodes.reverse 5 0 (F32.ofNat 0)
        = .ok (.finite false 8388609 2)) ∧
    (Route.fitness32 wideMem fiveRoute = .ok (.finite false 8388608 (-48)) ∧
      Route.fitness32 wideMem ⟨fiveRoute.nodes.rotate 2⟩ = .ok (.finite false 16777214 (-49)) ∧
      Route.fitness32 wideMem ⟨fiveRoute.nodes.reverse⟩
        = .ok (.finite false 16777214 (-49))) ∧
    (Route.fitness32 wideMem ⟨fiveRoute.nodes.rotate 2⟩ ≠ Route.fitness32 wideMem fiveRoute ∧
      Route.fitness32 wideMem ⟨fiveRoute.nodes.reverse⟩ ≠ Route.fitness32 wideMem fiveRoute) ∧
    (Route.fitness32 gridMem ⟨squarePoly⟩ = .ok (.finite false 8973322 (-26)) ∧
      Route.fitness32 gridMem ⟨squarePoly.rotate 1⟩ = .ok (.finite false 8973323 (-26)) ∧
      Route.fitness32 gridMem ⟨squarePoly.reverse⟩ = .ok (.finite false 8973323 (-26))) ∧
    (Route.fitness32 gridMem ⟨squarePoly.rotate 1⟩ ≠ Route.fitness32 gridMem ⟨squarePoly⟩ ∧
      Route.fitness32 gridMem ⟨squarePoly.reverse⟩ ≠ Route.fitness32 gridMem ⟨squarePoly⟩) := by
  have w0 : Route.fitness32 wideMem fiveRoute = .ok (.finite false 8388608 (-48)) := by rfl
  have w1 : Route.fitness32 wideMem ⟨fiveRoute.nodes.rotate 2⟩
      = .ok (.finite false 16777214 (-49)) := by rfl
  have w2 : Route.fitness32 wideMem ⟨fiveRoute.nodes.reverse⟩
      = .ok (.finite false 16777214 (-49)) := by rfl
  have g0 : Route.fitness32 gridMem ⟨squarePoly⟩ = .ok (.finite false 8973322 (-26)) := by rfl
  have g1 : Route.fitness32 gridMem ⟨squarePoly.rotate 1⟩
      = .ok (.finite false 8973323 (-26)) := by rfl
  have g2 : Route.fitness32 gridMem ⟨squarePoly.reverse⟩
      = .ok (.finite false 8973323 (-26)) := by rfl
  refine ⟨⟨by rfl, by rfl, by rfl⟩, ⟨w0, w1, w2⟩, ⟨?_, ?_⟩, ⟨g0, g1, g2⟩, ⟨?_, ?_⟩⟩
  · rw [w0, w1]; simp
  · rw [w0, w2]; simp
  · rw [g0, g1]; simp
  · rw [g0, g2]; simp

/-- C11, amended: for every route, `fitness()` with its distances and their sum taken as
exact numbers is invariant under rotation and under reversal of the node order: the route
whose node list is the original rotated by `k` positions, for every `k`, and the route whose
node list is the original reversed, have the same fitness as the original (the same value,
over exact arithmetic with any square-root function, or the same null-pointer fault when the
route holds a null node). -/
theorem fitness_rotation_reversal_invariant (sqrt : R → R) (mem : Nat → Node R)
    (route : Route) :
    (∀ k, Route.fitness sqrt mem ⟨route.nodes.rotate k⟩ = Route.fitness sqrt mem route) ∧
    Route.fitness sqrt mem ⟨route.nodes.reverse⟩ = Route.fitness sqrt mem route := by
  obtain ⟨nodes⟩ := route
  simp only
  by_cases hnull : none ∈ nodes
  · refine ⟨fun k => ?_, ?_⟩
    · rw [fitness_of_null sqrt mem _ (List.mem_rotate.mpr hnull),
        fitness_of_null sqrt mem _ hnull]
    · rw [fitness_of_null sqrt mem _ (List.mem_reverse.mpr hnull),
        fitness_of_null sqrt mem _ hnull]
  · have hnodes := eq_map_some_of_not_mem nodes hnull
    obtain ⟨addrs, haddrs⟩ : ∃ addrs : List Nat, addrs = nodes.map (fun p => p.getD 0) :=
      ⟨_, rfl⟩
    rw [← haddrs] at hnodes
    rw [hnodes]
    refine ⟨fun k => ?_, ?_⟩
    · rw [← List.map_rotate, fitness_of_addrs, fitness_of_addrs, List.map_rotate,
        cyclic_sum_rotate]
    · rw [← List.map_reverse, fitness_of_addrs, fitness_of_addrs, List.map_reverse,
        cyclic_sum_reverse _ (distance_comm sqrt)]

end Cyclic

/-! ## The rounds of the loops of crossover -/

section Rounds

theorem copyLoopLog_fst (A : List NodePtr) :
    ∀ (cnt i : Nat) (child : List NodePtr),
      copyLoop A cnt i child = (copyLoopLog A cnt i child).map Prod.fst
  | 0, _, _ => rfl
  | cnt + 1, i, child => by
    unfold copyLoop copyLoopLog
    cases index A i with
    | error e => rfl
    | ok g =>
      simp only
      split
      · rw [copyLoopLog_fst A cnt (i + 1) (child.set i g)]
        cases copyLoopLog A cnt (i + 1) (child.set i g) <;> rfl
      · rfl

theorem copyLoopLog_written (A : List NodePtr) :
    ∀ (cnt i : Nat) (child out : List NodePtr) (written : List Nat),
      copyLoopLog A cnt i child = .ok (out, written) → written = List.range' i cnt
  | 0, i, child, out, written, h => by
    simp only [copyLoopLog, Except.ok.injEq, Prod.mk.injEq] at h
    rw [← h.2]
    rfl
  | cnt + 1, i, child, out, written, h => by
    unfold copyLoopLog at h
    split at h
    · exact absurd h (by simp)
    · split at h
      · split at h
        · exact absurd h (by simp)
        · next out' written' hrec =>
          simp only [Except.ok.injEq, Prod.mk.injEq] at h
          rw [← h.2, copyLoopLog_written A cnt (i + 1) _ out' written' hrec, List.range'_succ]
      · exact absurd h (by simp)

theorem fillLoopLog_fst (n : Nat) (B : List NodePtr) :
    ∀ (fuel : Nat) (child : List NodePtr) (childId parentId missing : Nat),
      fillLoop n B fuel child childId parentId missing
        = (fillLoopLog n B fuel child childId parentId missing).map Prod.fst
  | fuel, child, childId, parentId, 0 => by
    cases fuel <;> rfl
  | 0, child, childId, parentId, missing + 1 => rfl
  | fuel + 1, child, childId, parentId, missing + 1 => by
    unfold fillLoop fillLoopLog
    cases index B parentId with
    | error e => rfl
    | ok g =>
      simp only
      split
      · rw [fillLoopLog_fst n B fuel child childId]
        cases fillLoopLog n B fuel child childId ((parentId + 1) % n) (missing + 1) <;> rfl
      · split
        · rw [fillLoopLog_fst n B fuel (child.set childId g)]
          cases fillLoopLog n B fuel (child.set childId g) ((childId + 1) % n)
            ((parentId + 1) % n) missing <;> rfl
        · rfl

theorem map_add_mod_range_succ (n a len : Nat) :
    (List.range (len + 1)).map (fun q => (a + q) % n)
      = a % n :: (List.range len).map (fun q => ((a + 1) % n + q) % n) := by
  rw [List.range_succ_eq_map, List.map_cons, List.map_map]
  congr 1
  refine List.map_congr_left (fun q _ => ?_)
  simp only [Function.comp, Nat.mod_add_mod]
  congr 1
  omega

theorem fillLoopLog_shape (n : Nat) (B : List NodePtr) :
    ∀ (fuel : Nat) (child : List NodePtr) (childId parentId missing : Nat)
      (out : List NodePtr) (m : Nat) (log : List FillStep),
      childId < n → parentId < n →
      fillLoopLog n B fuel child childId parentId missing = .ok (out, m, log) →
      m = 0 ∧ log.length ≤ fuel ∧
      log.map FillStep.parentId
        = (List.range log.length).map (fun q => (parentId + q) % n) ∧
      (log.filter (fun s => s.wrote)).map FillStep.childId
        = (List.range missing).map (fun j => (childId + j) % n)
  | fuel, child, childId, parentId, 0, out, m, log, _, _, h => by
    have h' : (child, 0, ([] : List FillStep)) = (out, m, log) := by
      cases fuel <;> simpa [fillLoopLog] using h
    simp only [Prod.mk.injEq] at h'
    obtain ⟨_, rfl, rfl⟩ := h'
    simp
  | 0, child, childId, parentId, missing + 1, out, m, log, _, _, h => by
    simp [fillLoopLog] at h
  | fuel + 1, child, childId, parentId, missing + 1, out, m, log, hc, hp, h => by
    have hn : 0 < n := by omega
    unfold fillLoopLog at h
    split at h
    · exact absurd h (by simp)
    · next g hg =>
      split at h
      · split at h
        · exact absurd h (by simp)
        · next out' m' log' hrec =>
          simp only [Except.ok.injEq, Prod.mk.injEq] at h
          obtain ⟨_, rfl, rfl⟩ := h
          obtain ⟨h1, h2, h3, h4⟩ := fillLoopLog_shape n B fuel child childId _ _ out' m' log'
            hc (Nat.mod_lt _ hn) hrec
          refine ⟨h1, by simp; omega, ?_, ?_⟩
          · rw [List.length_cons, map_add_mod_range_succ, List.map_cons, h3,
              Nat.mod_eq_of_lt hp]
          · rw [List.filter_cons_of_neg (by simp)]
            exact h4
      · split at h
        · split at h
          · exact absurd h (by simp)
          · next out' m' log' hrec =>
            simp only [Except.ok.injEq, Prod.mk.injEq] at h
            obtain ⟨_, rfl, rfl⟩ := h
            obtain ⟨h1, h2, h3, h4⟩ := fillLoopLog_shape n B fuel _ _ _ _ out' m' log'
              (Nat.mod_lt _ hn) (Nat.mod_lt _ hn) hrec
            refine ⟨h1, by simp; omega, ?_, ?_⟩
            · rw [List.length_cons, map_add_mod_range_succ, List.map_cons, h3,
                Nat.mod_eq_of_lt hp]
            · rw [List.filter_cons_of_pos (by simp), List.map_cons, h4,
                map_add_mod_range_succ, Nat.mod_eq_of_lt hc]
        · exact absurd h (by simp)

theorem fill_position (n lo hi j : Nat) (hlo : lo ≤ hi) (hhi : hi < n)
    (hj : j < n - (hi - lo + 1)) :
    ((hi + 1) % n + j) % n < n ∧
    ¬ (lo ≤ ((hi + 1) % n + j) % n ∧ ((hi + 1) % n + j) % n < lo + (hi + 1 - lo)) := by
  rcases Nat.lt_or_ge (hi + 1) n with h | h
  · rw [Nat.mod_eq_of_lt h, mod_of_lt_two_mul n (hi + 1 + j) (by omega)]
    split <;> omega
  · rw [show hi + 1 = n by omega, Nat.mod_self, Nat.zero_add, Nat.mod_eq_of_lt (by omega)]
    omega

theorem add_mod_inj_left (n k i j : Nat) (hk : k < n) (hi : i < n) (hj : j < n)
    (h : (k + i) % n = (k + j) % n) : i = j := by
  rw [Nat.add_comm k j] at h
  exact (add_mod_inj n k j i hk hj hi).mp h

theorem perm_range_of_nodup (l : List Nat) (n : Nat) (hnd : l.Nodup) (hlt : ∀ x ∈ l, x < n)
    (hlen : l.length = n) : l.Perm (List.range n) :=
  (List.subperm_of_subset hnd (fun x hx => List.mem_range.mpr (hlt x hx))).perm_of_length_le
    (by simp [hlen])

/-- C14: the fill loop of `crossover` terminates.  For `lo ≤ hi < n` and parents that are
permutations of the same `n` distinct non-null vertices, with the child empty on entry, the
loop `while (missing > 0)` run after the copy loop ends within `n` rounds with
`missing = 0`; the positions `parentId` it reads in the second parent are below `n` and
pairwise different; and the positions of the child written by the copy loop followed by
those written by the fill loop are the positions `0 .. n-1`, each exactly once. -/
theorem fill_loop_terminates (n lo hi : Nat) (A B poly : List NodePtr) (hlo : lo ≤ hi)
    (hhi : hi < n) (hlen : poly.length = n) (hnd : poly.Nodup) (hnn : none ∉ poly)
    (hA : A.Perm poly) (hB : B.Perm poly) :
    ∃ c0 written c1 log,
      copyLoopLog A (hi + 1 - lo) lo (resize [] n) = .ok (c0, written) ∧
      fillLoopLog n B n c0 ((hi + 1) % n) ((hi + 1) % n) (n - (hi - lo + 1))
        = .ok (c1, 0, log) ∧
      fillLoop n B n c0 ((hi + 1) % n) ((hi + 1) % n) (n - (hi - lo + 1)) = .ok c1 ∧
      log.length ≤ n ∧
      (log.map FillStep.parentId).Nodup ∧ (∀ p ∈ log.map FillStep.parentId, p < n) ∧
      (written ++ (log.filter (fun s => s.wrote)).map FillStep.childId).Perm
        (List.range n) := by
  have hn : 0 < n := by omega
  have hk : (hi + 1) % n < n := Nat.mod_lt _ hn
  obtain ⟨c0, c1, e0, e1, _, _, _⟩ :=
    copy_fill_spec n lo hi n A B hlo hhi (hA.length_eq.trans hlen) (hA.nodup_iff.mpr hnd)
      (hB.trans hA.symm) (fun h => hnn (hB.mem_iff.mp h)) (le_refl n)
  rw [copyLoopLog_fst] at e0
  have e1' := e1
  rw [fillLoopLog_fst] at e1'
  cases hcl : copyLoopLog A (hi + 1 - lo) lo (resize [] n) with
  | error e => rw [hcl] at e0; exact absurd e0 (by simp [Except.map])
  | ok r0 =>
    obtain ⟨x0, written⟩ := r0
    rw [hcl] at e0
    simp only [Except.map, Except.ok.injEq] at e0
    subst e0
    have hw := copyLoopLog_written A _ _ _ _ _ hcl
    cases hfl : fillLoopLog n B n x0 ((hi + 1) % n) ((hi + 1) % n) (n - (hi - lo + 1)) with
    | error e => rw [hfl] at e1'; exact absurd e1' (by simp [Except.map])
    | ok r1 =>
      obtain ⟨x1, m, log⟩ := r1
      rw [hfl] at e1'
      simp only [Except.map, Except.ok.injEq] at e1'
      subst e1'
      obtain ⟨hm, hll, hreads, hwrites⟩ := fillLoopLog_shape n B n _ _ _ _ _ _ _ hk hk hfl
      subst hm
      refine ⟨x0, written, x1, log, rfl, hfl, e1, hll, ?_, ?_, ?_⟩
      · rw [hreads]
        refine List.Nodup.map_on (fun x hx y hy hxy => ?_) (List.nodup_range _)
        exact add_mod_inj_left n _ x y hk (by have := List.mem_range.mp hx; omega)
          (by have := List.mem_range.mp hy; omega) hxy
      · intro p hp
        rw [hreads] at hp
        obtain ⟨q, _, rfl⟩ := List.mem_map.mp hp
        exact Nat.mod_lt _ hn
      · rw [hw, hwrites]
        refine perm_range_of_nodup _ n ?_ ?_ ?_
        · refine List.Nodup.append (List.nodup_range' _ _) ?_ ?_
          · refine List.Nodup.map_on (fun x hx y hy hxy => ?_) (List.nodup_range _)
            exact add_mod_inj_left n _ x y hk (by have := List.mem_range.mp hx; omega)
              (by have := List.mem_range.mp hy; omega) hxy
          · intro x hx1 hx2
            obtain ⟨j, hj, rfl⟩ := List.mem_map.mp hx2
            exact (fill_position n lo hi j hlo hhi (List.mem_range.mp hj)).2
              (List.mem_range'_1.mp hx1)
        · intro x hx
          rcases List.mem_append.mp hx with h | h
          · have := List.mem_range'_1.mp h
            omega
          · obtain ⟨j, _, rfl⟩ := List.mem_map.mp h
            exact Nat.mod_lt _ hn
        · simp only [List.length_append, List.length_range', List.length_map,
            List.length_range]
          omega

/-- C14, at the input `n = 4`, `lo = 1`, `hi = 2`, `A = [p0,p1,p2,p3]`,
`B = [p3,p2,p1,p0]`. -/
theorem fill_loop_terminates_witness :
    (1 ≤ 2 ∧ 2 < 4 ∧ squarePoly.length = 4 ∧ squarePoly.Nodup ∧ none ∉ squarePoly ∧
      squarePoly.Perm squarePoly ∧ squareRouteRev.nodes.Perm squarePoly) ∧
    ∃ c0 written c1 log,
      copyLoopLog squarePoly (2 + 1 - 1) 1 (resize [] 4) = .ok (c0, written) ∧
      fillLoopLog 4 squareRouteRev.nodes 4 c0 ((2 + 1) % 4) ((2 + 1) % 4) (4 - (2 - 1 + 1))
        = .ok (c1, 0, log) ∧
      fillLoop 4 squareRouteRev.nodes 4 c0 ((2 + 1) % 4) ((2 + 1) % 4) (4 - (2 - 1 + 1))
        = .ok c1 ∧
      log.length ≤ 4 ∧
      (log.map FillStep.parentId).Nodup ∧ (∀ p ∈ log.map FillStep.parentId, p < 4) ∧
      (written ++ (log.filter (fun s => s.wrote)).map FillStep.childId).Perm
        (List.range 4) :=
  ⟨⟨by decide, by decide, by decide, by decide, by decide, by decide, by decide⟩,
    fill_loop_terminates 4 1 2 squarePoly squareRouteRev.nodes squarePoly (by decide)
      (by decide) (by decide) (by decide) (by decide) (by decide) (by decide)⟩

end Rounds

/-! ## The child passed to crossover -/

section EmptyChild

theorem fillLoopLog_rounds (n k : Nat) (B block : List NodePtr) (hk : k < n)
    (hB : B.length = n) (hBnd : B.Nodup) (hBnn : none ∉ B) (m : Nat)
    (hm : ((B.rotate k).filter (fun g => decide (g ∉ block))).length = m) :
    ∀ (fuel t : Nat) (child P : List NodePtr),
      child.length = n → t ≤ n →
      P = ((B.rotate k).take t).filter (fun g => decide (g ∉ block)) →
      child.rotate k = P ++ (List.replicate (m - P.length) none ++ block) →
      ∀ (out : List NodePtr) (mm : Nat) (log : List FillStep),
        fillLoopLog n B fuel child ((k + P.length) % n) ((k + t) % n) (m - P.length)
          = .ok (out, mm, log) →
        ∀ (q : Nat) (s : FillStep), log[q]? = some s →
          s.parentId = (k + (t + q)) % n ∧
          s.child.rotate k
            = ((B.rotate k).take (t + q)).filter (fun g => decide (g ∉ block))
              ++ (List.replicate
                  (m - (((B.rotate k).take (t + q)).filter
                    (fun g => decide (g ∉ block))).length) none ++ block) ∧
          ∀ g, B[s.parentId]? = some g →
            (g ∈ s.child ↔
              g ∈ block ∨
                g ∈ ((B.rotate k).take (t + q)).filter (fun g => decide (g ∉ block))) ∧
            (s.wrote = true ↔ g ∉ s.child) := by
  have hrotlen : (B.rotate k).length = n := by simp [hB]
  have hwalked : ∀ (P : List NodePtr),
      P = ((B.rotate k).take n).filter (fun g => decide (g ∉ block)) → m - P.length = 0 := by
    intro P hP
    rw [List.take_of_length_le (by omega)] at hP
    rw [hP, hm]; omega
  intro fuel
  induction fuel with
  | zero =>
    intro t child P hlen ht hP hrot out mm log h q s hq
    rcases Nat.eq_zero_or_pos (m - P.length) with h0 | hpos
    · rw [h0] at h
      simp only [fillLoopLog, Except.ok.injEq, Prod.mk.injEq] at h
      rw [← h.2.2] at hq
      simp at hq
    · obtain ⟨missing, hmiss⟩ : ∃ missing, m - P.length = missing + 1 :=
        ⟨m - P.length - 1, by omega⟩
      rw [hmiss] at h
      simp [fillLoopLog] at h
  | succ fuel ih =>
    intro t child P hlen ht hP hrot out mm log h q s hq
    rcases Nat.eq_zero_or_pos (m - P.length) with h0 | hpos
    · rw [h0] at h
      simp only [fillLoopLog, Except.ok.injEq, Prod.mk.injEq] at h
      rw [← h.2.2] at hq
      simp at hq
    · obtain ⟨missing, hmiss⟩ : ∃ missing, m - P.length = missing + 1 :=
        ⟨m - P.length - 1, by omega⟩
      have htlt : t < n := by
        rcases Nat.lt_or_ge t n with h' | h'
        · exact h'
        · have htn : t = n := by omega
          subst htn
          have := hwalked P hP
          omega
      have hpid : (k + t) % n < B.length := by rw [hB]; exact Nat.mod_lt _ (by omega)
      have hg : B[(k + t) % n] = (B.rotate k)[t] := by
        rw [List.getElem_rotate]
        simp only [hB, Nat.add_comm]
      have hgB : B[(k + t) % n] ∈ B := List.getElem_mem _
      have hgnn : B[(k + t) % n] ≠ none := fun h' => hBnn (h' ▸ hgB)
      have hgP : B[(k + t) % n] ∉ P := by
        intro hin
        rw [hP] at hin
        have := (List.mem_filter.mp hin).1
        rw [hg] at this
        exact getElem_not_mem_take _ (List.nodup_rotate.mpr hBnd) t (by omega) this
      have htake : (B.rotate k).take (t + 1) = (B.rotate k).take t ++ [B[(k + t) % n]] := by
        rw [take_succ_eq_append _ t (by omega), hg]
      have hmem : B[(k + t) % n] ∈ child ↔ B[(k + t) % n] ∈ block := by
        rw [← List.mem_rotate (n := k), hrot]
        simp only [List.mem_append, List.mem_replicate]
        constructor
        · rintro (h' | ⟨_, h'⟩ | h')
          · exact absurd h' hgP
          · exact absurd h' hgnn
          · exact h'
        · intro h'; exact Or.inr (Or.inr h')
      have hpid' : ((k + t) % n + 1) % n = (k + (t + 1)) % n := by
        rw [Nat.mod_add_mod, Nat.add_assoc]
      -- what the round at hand records
      have hnow : ∀ (w : Bool), (w = true ↔ B[(k + t) % n] ∉ child) →
          (FillStep.mk ((k + t) % n) ((k + P.length) % n) child w).parentId = (k + (t + 0)) % n ∧
          (FillStep.mk ((k + t) % n) ((k + P.length) % n) child w).child.rotate k
            = ((B.rotate k).take (t + 0)).filter (fun g => decide (g ∉ block))
              ++ (List.replicate
                  (m - (((B.rotate k).take (t + 0)).filter
                    (fun g => decide (g ∉ block))).length) none ++ block) ∧
          ∀ g, B[(FillStep.mk ((k + t) % n) ((k + P.length) % n) child w).parentId]? = some g →
            (g ∈ (FillStep.mk ((k + t) % n) ((k + P.length) % n) child w).child ↔
              g ∈ block ∨
                g ∈ ((B.rotate k).take (t + 0)).filter (fun g => decide (g ∉ block))) ∧
            ((FillStep.mk ((k + t) % n) ((k + P.length) % n) child w).wrote = true ↔
              g ∉ (FillStep.mk ((k + t) % n) ((k + P.length) % n) child w).child) := by
        intro w hw
        simp only [Nat.add_zero, ← hP]
        refine ⟨trivial, hrot, fun g hgeq => ?_⟩
        rw [List.getElem?_eq_getElem hpid, Option.some.injEq] at hgeq
        subst hgeq
        exact ⟨⟨fun h' => Or.inl (hmem.mp h'), fun h' => h'.elim hmem.mpr
          (fun h'' => absurd h'' hgP)⟩, hw⟩
      rw [hmiss] at h
      unfold fillLoopLog at h
      rw [index_eq_ok B _ hpid] at h
      simp only at h
      by_cases hblock : B[(k + t) % n] ∈ block
      · rw [if_pos (hmem.mpr hblock), hpid', ← hmiss] at h
        split at h
        · exact absurd h (by simp)
        · next out' mm' log' hrec =>
          simp only [Except.ok.injEq, Prod.mk.injEq] at h
          obtain ⟨_, _, rfl⟩ := h
          have hP' : P = ((B.rotate k).take (t + 1)).filter (fun g => decide (g ∉ block)) := by
            rw [htake, List.filter_append, ← hP]
            simp [hblock]
          cases q with
          | zero =>
            simp only [List.getElem?_cons_zero, Option.some.injEq] at hq
            subst hq
            exact hnow false (by simp [hmem.mpr hblock])
          | succ q =>
            simp only [List.getElem?_cons_succ] at hq
            have := ih (t + 1) child P hlen (by omega) hP' hrot out' mm' log' hrec q s hq
            rwa [show t + 1 + q = t + (q + 1) by omega] at this
      · rw [if_neg (fun h' => hblock (hmem.mp h'))] at h
        have hPlt : P.length < n := by
          have : (child.rotate k).length = n := by simp [hlen]
          rw [hrot] at this
          simp only [List.length_append, List.length_replicate] at this
          omega
        have hcid : (k + P.length) % n < child.length := by
          rw [hlen]; exact Nat.mod_lt _ (by omega)
        rw [if_pos hcid, hpid'] at h
        have hcid' : ((k + P.length) % n + 1) % n
            = (k + (P ++ [B[(k + t) % n]]).length) % n := by
          rw [Nat.mod_add_mod, Nat.add_assoc]; simp
        have hmiss' : missing = m - (P ++ [B[(k + t) % n]]).length := by
          simp only [List.length_append, List.length_singleton]; omega
        rw [hcid', hmiss'] at h
        split at h
        · exact absurd h (by simp)
        · next out' mm' log' hrec =>
          simp only [Except.ok.injEq, Prod.mk.injEq] at h
          obtain ⟨_, _, rfl⟩ := h
          cases q with
          | zero =>
            simp only [List.getElem?_cons_zero, Option.some.injEq] at hq
            subst hq
            exact hnow true (iff_of_true rfl (fun h' => hblock (hmem.mp h')))
          | succ q =>
            simp only [List.getElem?_cons_succ] at hq
            have := ih (t + 1) _ (P ++ [B[(k + t) % n]]) (by simp [hlen]) (by omega)
              (by rw [htake, List.filter_append, ← hP]; simp [hblock])
              (by
                rw [rotate_set child n k P.length _ hlen hk hPlt, hrot, hmiss, ← hmiss']
                rw [List.replicate_succ, List.cons_append, set_length_append]
                simp)
              out' mm' log' hrec q s hq
            rwa [show t + 1 + q = t + (q + 1) by omega] at this

theorem copy_empty_state (n lo hi : Nat) (A B : List NodePtr) (hlo : lo ≤ hi) (hhi : hi < n)
    (hA : A.length = n) (hAnd : A.Nodup) (hBA : B.Perm A) (block : List NodePtr)
    (hblock : block = (A.drop lo).take (hi + 1 - lo)) (k : Nat) (hkdef : k = (hi + 1) % n)
    (m : Nat) (hmdef : m = n - (hi - lo + 1)) :
    copyLoop A (hi + 1 - lo) lo (resize [] n)
      = .ok (List.replicate lo none ++ (block ++ List.replicate (n - (hi + 1)) none)) ∧
    (List.replicate lo none ++ (block ++ List.replicate (n - (hi + 1))
      (none : NodePtr))).length = n ∧
    (List.replicate lo none ++ (block ++ List.replicate (n - (hi + 1))
      (none : NodePtr))).rotate k
      = [] ++ (List.replicate (m - ([] : List NodePtr).length) none ++ block) ∧
    ((B.rotate k).filter (fun g => decide (g ∉ block))).length = m := by
  have hblen : block.length = hi + 1 - lo := by
    rw [hblock, List.length_take, List.length_drop, hA]; omega
  have hsplit : A = A.take lo ++ (block ++ A.drop (hi + 1)) := hblock ▸ split_block A lo hi hlo
  have hfiltA : A.filter (fun g => decide (g ∉ block)) = A.take lo ++ A.drop (hi + 1) := by
    have := filter_not_mem_mid (A.take lo) block (A.drop (hi + 1))
      (fun g => decide (g ∉ block)) (by simp) (by rw [← hsplit]; exact hAnd)
    rwa [← hsplit] at this
  have hfiltperm : ((B.rotate k).filter (fun g => decide (g ∉ block))).Perm
      (A.take lo ++ A.drop (hi + 1)) := by
    rw [← hfiltA]
    exact ((B.rotate_perm k).trans hBA).filter _
  refine ⟨?_, ?_, ?_, ?_⟩
  · have hres : resize [] n = List.replicate n none := by simp [resize]
    rw [hres, copyLoop_spec A (hi + 1 - lo) lo _ (by simp; omega) (by omega), ← hblock]
    rw [List.take_replicate, List.drop_replicate, Nat.min_eq_left (by omega),
      show n - (lo + (hi + 1 - lo)) = n - (hi + 1) by omega]
  · simp only [List.length_append, List.length_replicate, hblen]; omega
  · rcases Nat.lt_or_ge (hi + 1) n with h | h
    · have hkv : k = (List.replicate lo (none : NodePtr) ++ block).length := by
        rw [hkdef, Nat.mod_eq_of_lt h, List.length_append, List.length_replicate, hblen]; omega
      rw [← List.append_assoc, hkv, List.rotate_append_length_eq]
      simp only [List.nil_append, List.length_nil, Nat.sub_zero, ← List.append_assoc]
      congr 1
      rw [← List.replicate_add]
      congr 1
      omega
    · have hkv : k = 0 := by
        rw [hkdef, show hi + 1 = n by omega, Nat.mod_self]
      rw [hkv, List.rotate_zero, show n - (hi + 1) = 0 by omega]
      simp only [List.replicate_zero, List.append_nil, List.nil_append, List.length_nil,
        Nat.sub_zero]
      congr 2
      omega
  · rw [hfiltperm.length_eq, List.length_append, List.length_take, List.length_drop, hA, hmdef]
    omega

section Calls

variable {R : Type} [LinearOrderedField R]

theorem crossover_congr (RAND_MAX fuel : Nat) (ga1 ga2 : GeneticAlgorithm R)
    (hpoly : ga1.testPoly = ga2.testPoly) (hc : ga1.crossoverChance = ga2.crossoverChance)
    (parents : Route × Route) (child : Route) (rng : Rng) :
    crossover RAND_MAX fuel ga1 parents child rng
      = crossover RAND_MAX fuel ga2 parents child rng := by
  unfold crossover
  rw [hpoly, hc]

theorem generationLoopLog_fst (RAND_MAX : Nat) (sqrt : R → R) (mem : Nat → Node R)
    (fuel : Nat) :
    ∀ (k : Nat) (ga : GeneticAlgorithm R) (rng : Rng),
      generationLoop RAND_MAX sqrt mem fuel k ga rng
        = (generationLoopLog RAND_MAX sqrt mem fuel k ga rng).map (fun r => (r.1, r.2.1))
  | 0, ga, rng => by
    unfold generationLoop generationLoopLog
    split <;> rfl
  | k + 1, ga, rng => by
    unfold generationLoop generationLoopLog
    split
    · cases selection RAND_MAX sqrt mem fuel ga.currGen ga.currParents rng with
      | error e => rfl
      | ok r1 =>
        obtain ⟨parents, rng1⟩ := r1
        simp only
        cases crossover RAND_MAX fuel ga parents ga.currChild rng1 with
        | error e => rfl
        | ok r2 =>
          obtain ⟨child, rng2⟩ := r2
          simp only
          cases mutate RAND_MAX ga child rng2 with
          | error e => rfl
          | ok r3 =>
            obtain ⟨child', rng3⟩ := r3
            simp only
            rw [generationLoopLog_fst RAND_MAX sqrt mem fuel k]
            cases generationLoopLog RAND_MAX sqrt mem fuel k
              { ga with
                nextGen := ⟨ga.nextGen.population ++ [child']⟩
                currParents := (⟨[]⟩, ⟨[]⟩)
                currChild := ⟨[]⟩ } rng3 <;> rfl
    · rfl

theorem generationLoopLog_calls (RAND_MAX : Nat) (sqrt : R → R) (mem : Nat → Node R)
    (fuel : Nat) :
    ∀ (k : Nat) (ga : GeneticAlgorithm R) (rng : Rng) (ga' : GeneticAlgorithm R) (rng' : Rng)
      (calls : List CrossoverCall),
      ga.currChild.nodes = [] →
      generationLoopLog RAND_MAX sqrt mem fuel k ga rng = .ok (ga', rng', calls) →
      ga'.currChild.nodes = [] ∧
      ∀ c ∈ calls, c.child.nodes = [] ∧
        ∃ rng2, crossover RAND_MAX fuel ga c.parents ⟨[]⟩ c.rng = .ok (c.result, rng2)
  | 0, ga, rng, ga', rng', calls, hchild, h => by
    unfold generationLoopLog at h
    split at h
    · exact absurd h (by simp)
    · simp only [Except.ok.injEq, Prod.mk.injEq] at h
      obtain ⟨rfl, _, rfl⟩ := h
      exact ⟨hchild, fun c hc => absurd hc (by simp)⟩
  | k + 1, ga, rng, ga', rng', calls, hchild, h => by
    unfold generationLoopLog at h
    split at h
    · split at h
      · exact absurd h (by simp)
      · next parents rng1 hsel =>
        split at h
        · exact absurd h (by simp)
        · next child rng2 hcross =>
          split at h
          · exact absurd h (by simp)
          · next child' rng3 hmut =>
            split at h
            · exact absurd h (by simp)
            · next ga1 rng4 calls1 hrec =>
              simp only [Except.ok.injEq, Prod.mk.injEq] at h
              obtain ⟨rfl, _, rfl⟩ := h
              obtain ⟨hc1, hcalls⟩ :=
                generationLoopLog_calls RAND_MAX sqrt mem fuel k _ rng3 ga1 rng4 calls1 rfl hrec
              have hempty : ga.currChild = ⟨[]⟩ := by
                cases hc : ga.currChild
                rw [hc] at hchild
                simp only at hchild
                rw [hchild]
              refine ⟨hc1, fun c hc => ?_⟩
              rcases List.mem_cons.mp hc with rfl | hc
              · refine ⟨hchild, rng2, ?_⟩
                rw [← hempty]
                exact hcross
              · obtain ⟨h1, rng2', h2⟩ := hcalls c hc
                refine ⟨h1, rng2', ?_⟩
                rw [← h2]
                exact crossover_congr RAND_MAX fuel _ _ rfl rfl _ _ _
    · simp only [Except.ok.injEq, Prod.mk.injEq] at h
      obtain ⟨rfl, _, rfl⟩ := h
      exact ⟨hchild, fun c hc => absurd hc (by simp)⟩

end Calls

section ClaimEmptyChild

variable {R : Type} [LinearOrderedField R]

/-- C19: the child passed to `crossover` is always empty, and what follows from it.

First part: when the loop of `OnUserUpdate` is entered with `currChild` empty (as after
construction), every call of `crossover` it makes is passed a child with an empty node list
and `currChild` is empty again at the end; so the child each call leaves is the one
`crossover` computes from the parents and the generator state of that call on an empty
child.

Second part: for `lo ≤ hi < n` and parents `A`, `B` that are permutations of `n` distinct
non-null vertices, `resize(n)` on the empty child gives `n` null slots, the copy loop leaves
every slot outside `lo..hi` null, and at the start of every round `q` of the fill loop the
child, read cyclically from `(hi + 1) mod n`, is the nodes placed from `B` so far (those of
the first `q` read that are not in `A`'s block), then null slots, then `A`'s block; so the
test "already in child" on the node read is true exactly when that node is in `A`'s block
or already placed from `B`, and the round writes exactly when the test is false. -/
theorem crossover_child_is_always_empty (RAND_MAX : Nat) (sqrt : R → R) (mem : Nat → Node R)
    (fuel : Nat) :
    (∀ (k : Nat) (ga : GeneticAlgorithm R) (rng : Rng) (ga' : GeneticAlgorithm R) (rng' : Rng)
        (calls : List CrossoverCall),
      ga.currChild.nodes = [] →
      generationLoopLog RAND_MAX sqrt mem fuel k ga rng = .ok (ga', rng', calls) →
      generationLoop RAND_MAX sqrt mem fuel k ga rng = .ok (ga', rng') ∧
      ga'.currChild.nodes = [] ∧
      ∀ c ∈ calls, c.child.nodes = [] ∧
        ∃ rng2, crossover RAND_MAX fuel ga c.parents ⟨[]⟩ c.rng = .ok (c.result, rng2)) ∧
    (∀ (n lo hi : Nat) (A B poly block : List NodePtr) (k m : Nat),
      lo ≤ hi → hi < n → poly.length = n → poly.Nodup → none ∉ poly →
      A.Perm poly → B.Perm poly →
      block = (A.drop lo).take (hi + 1 - lo) → k = (hi + 1) % n → m = n - (hi - lo + 1) →
      resize [] n = List.replicate n none ∧
      copyLoop A (hi + 1 - lo) lo (resize [] n)
        = .ok (List.replicate lo none ++ (block ++ List.replicate (n - (hi + 1)) none)) ∧
      ∀ (out : List NodePtr) (mm : Nat) (log : List FillStep),
        fillLoopLog n B fuel
            (List.replicate lo none ++ (block ++ List.replicate (n - (hi + 1)) none)) k k m
          = .ok (out, mm, log) →
        ∀ (q : Nat) (s : FillStep), log[q]? = some s →
          s.child.rotate k
            = ((B.rotate k).take q).filter (fun g => decide (g ∉ block))
              ++ (List.replicate
                  (m - (((B.rotate k).take q).filter (fun g => decide (g ∉ block))).length)
                  none ++ block) ∧
          ∀ g, B[s.parentId]? = some g →
            (g ∈ s.child ↔
              g ∈ block ∨ g ∈ ((B.rotate k).take q).filter (fun g => decide (g ∉ block))) ∧
            (s.wrote = true ↔ g ∉ s.child)) := by
  constructor
  · intro k ga rng ga' rng' calls hchild h
    obtain ⟨h1, h2⟩ := generationLoopLog_calls RAND_MAX sqrt mem fuel k ga rng ga' rng' calls
      hchild h
    refine ⟨?_, h1, h2⟩
    rw [generationLoopLog_fst, h]
    rfl
  · intro n lo hi A B poly block k m hlo hhi hlen hnd hnn hA hB hblock hkdef hmdef
    have hAlen : A.length = n := hA.length_eq.trans hlen
    have hBlen : B.length = n := hB.length_eq.trans hlen
    have hkn : k < n := hkdef ▸ Nat.mod_lt _ (by omega)
    obtain ⟨e0, e1, e2, e3⟩ := copy_empty_state n lo hi A B hlo hhi hAlen
      (hA.nodup_iff.mpr hnd) (hB.trans hA.symm) block hblock k hkdef m hmdef
    refine ⟨by simp [resize], e0, ?_⟩
    intro out mm log hlog q s hq
    have hrounds := fillLoopLog_rounds n k B block hkn hBlen (hB.nodup_iff.mpr hnd)
      (fun h => hnn (hB.mem_iff.mp h)) m e3 fuel 0 _ [] e1 (by omega) (by simp) e2 out mm log
      (by simpa [Nat.mod_eq_of_lt hkn] using hlog) q s hq
    simp only [Nat.zero_add] at hrounds
    exact hrounds.2

/-- C19, at concrete inputs: the generation step over two unit-square routes, and the
crossover of `[p0,p1,p2,p3]` and `[p3,p2,p1,p0]` with `lo = 1`, `hi = 2`. -/
theorem crossover_child_is_always_empty_witness :
    (∃ (ga' : GeneticAlgorithm ℝ) (rng' : Rng) (calls : List CrossoverCall),
      ({ squareState ℝ with iteration := (squareState ℝ).iteration + 1 } :
        GeneticAlgorithm ℝ).currChild.nodes = [] ∧
      generationLoopLog 32767 Real.sqrt (squareMem ℝ) 4 4
        { squareState ℝ with iteration := (squareState ℝ).iteration + 1 } (tape stepDraws)
        = .ok (ga', rng', calls) ∧
      ga'.currChild.nodes = [] ∧ ∀ c ∈ calls, c.child.nodes = []) ∧
    ((1 ≤ 2 ∧ 2 < 4 ∧ squarePoly.length = 4 ∧ squarePoly.Nodup ∧ none ∉ squarePoly ∧
      squarePoly.Perm squarePoly ∧ squareRouteRev.nodes.Perm squarePoly) ∧
      copyLoop squarePoly (2 + 1 - 1) 1 (resize [] 4)
        = .ok (List.replicate 1 none
            ++ ((squarePoly.drop 1).take (2 + 1 - 1) ++ List.replicate (4 - (2 + 1)) none))) := by
  constructor
  · obtain ⟨ga', rng', hstep, _⟩ := squareState_step
    unfold generationStep at hstep
    cases hl : generationLoop 32767 Real.sqrt (squareMem ℝ) 4 4
        { squareState ℝ with iteration := (squareState ℝ).iteration + 1 } (tape stepDraws) with
    | error e => rw [hl] at hstep; exact absurd hstep (by simp)
    | ok r =>
      rw [generationLoopLog_fst] at hl
      cases hlog : generationLoopLog 32767 Real.sqrt (squareMem ℝ) 4 4
          { squareState ℝ with iteration := (squareState ℝ).iteration + 1 }
          (tape stepDraws) with
      | error e => rw [hlog] at hl; exact absurd hl (by simp [Except.map])
      | ok r' =>
        obtain ⟨ga1, rng1, calls⟩ := r'
        have h := (crossover_child_is_always_empty 32767 Real.sqrt (squareMem ℝ) 4).1 4 _
          (tape stepDraws) ga1 rng1 calls rfl hlog
        exact ⟨ga1, rng1, calls, rfl, rfl, h.2.1, fun c hc => (h.2.2 c hc).1⟩
  · exact ⟨⟨by decide, by decide, by decide, by decide, by decide, by decide, by decide⟩,
      ((crossover_child_is_always_empty 32767 Real.sqrt (squareMem ℝ) 4).2 4 1 2 squarePoly
        squareRouteRev.nodes squarePoly _ _ _ (by decide) (by decide) (by decide) (by decide)
        (by decide) (by decide) (by decide) rfl rfl rfl).2.1⟩

end ClaimEmptyChild

end EmptyChild

end GeneticPolyAlgo
